import Mathlib

/-!
Verification development for the SweepFS backend engine
(`internal/services/fs_scanner.go`, `internal/services/cache.go`,
`internal/services/fs_actions.go`, `internal/domain`).

The Go code is shallowly embedded as executable Lean definitions:

* Filesystem paths handled by the scanner are modelled as segment lists
  (`List String`); the scanner only ever produces cleaned absolute paths
  built by appending directory-entry names (which never contain the path
  separator), so `filepath.Dir` becomes `List.dropLast`, Go's
  `depth` (count of separators in a cleaned absolute path) becomes
  `List.length`, and the separator-bounded prefix checks `isWithin` /
  `hasPathPrefix` become list-prefix tests.  Where the byte-level string
  behaviour itself is the point (`Invalidate`'s separator-bounded match,
  claim C6), the string functions are modelled directly on `String`.
* Go `int`/`int64` values are modelled as `Int` (the embedded arithmetic
  only copies and adds these values, so no wrap-around is exercised);
  `time.Time` is modelled by its `UnixNano` image, with the zero time
  represented by the constant value Go's `UnixNano` returns for it.
* The bounded progress channel is modelled by the trace of send events;
  each Go send site is tagged with the primitive it uses
  (`select`/`default` drop-on-full versus a plain, potentially blocking
  send).
* Cooperative cancellation (`ctx.Err()` polls) is modelled by an optional
  budget of walk-entry visits (`none` = the caller never cancels), and the
  cancellation window in which workers stop draining file-size jobs is
  modelled by an optional count of jobs processed before the workers
  observe cancellation.
* Filesystem reads/writes performed by the actions engine are modelled
  against a flat listing of existing paths, and mutations are returned as
  an explicit effect trace (an empty trace = no mutation performed).
-/

namespace SweepFS


/-! ### String-level path helpers (Go `strings.HasPrefix` based code) -/

/-- Models Go `strings.HasPrefix(s, pre)`. -/
def strHasPrefixGo (s pre : String) : Bool :=
  pre.data.isPrefixOf s.data

/-- Models Go `strings.HasSuffix(s, suf)`. -/
def strHasSuffixGo (s suf : String) : Bool :=
  suf.data.isSuffixOf s.data

/-- Models `isWithin(root, path)` from `fs_scanner.go`: equal, or `path`
has `root` followed by the path separator as a prefix. -/
def isWithinStr (root path : String) : Bool :=
  root == path || strHasPrefixGo path (root ++ "/")

/-- Models `hasPathPrefix(root, path)` from `cache.go` (same test as
`isWithin`). -/
def cachePathWithinStr (root path : String) : Bool :=
  root == path || strHasPrefixGo path (root ++ "/")

/-- Models `filepath.Dir` on a cleaned absolute path: drop the last
segment (with `"/"` for the root edge cases). -/
def dirOfStr (p : String) : String :=
  let parts := (p.splitOn "/").dropLast
  let joined := String.intercalate "/" parts
  if joined = "" then "/" else joined

/-! ### Actions engine data (`fs_actions.go`, request/response types) -/

inductive ActionType where
  | delete
  | move
  | copy
  | backup
deriving DecidableEq, Repr

structure ActionRequest where
  rtype : ActionType
  sourcePaths : List String
  destination : String
  safeMode : Bool
  confirmToken : String
deriving DecidableEq, Repr

/-- Models `ActionResult` (duration and the unused `Skipped` field are
omitted: wall-clock time is not modelled). -/
structure ActionResult where
  rtype : ActionType
  successCount : Int
  failureCount : Int
  errors : List String
  message : String
deriving DecidableEq, Repr

/-- The filesystem as the actions engine observes it: a listing of the
existing cleaned absolute paths with their directory flag, the resolved
home directory (`os.UserHomeDir`), and the device oracle deciding whether
`os.Rename` succeeds or fails with `EXDEV`. -/
structure ActionFS where
  entries : List (String × Bool)
  home : Option String
  sameDevice : String → String → Bool

/-- Models `os.Lstat`: `none` = error (path does not exist), otherwise
the directory flag. -/
def lstatFS (fs : ActionFS) (p : String) : Option Bool :=
  (fs.entries.find? (fun e => e.1 == p)).map (fun e => e.2)

/-- Models `exists(path)` from `fs_actions.go` (`os.Stat` succeeds). -/
def existsFS (fs : ActionFS) (p : String) : Bool :=
  fs.entries.any (fun e => e.1 == p)

/-- `err == nil && info.IsDir()` after an `os.Lstat`. -/
def lstatIsDir (fs : ActionFS) (p : String) : Bool :=
  lstatFS fs p == some true

/-- All existing paths at or under `p`, in listing order (models the
`filepath.WalkDir(p, ...)` visit set; the engine's results are
insensitive to sibling order). -/
def entriesUnder (fs : ActionFS) (p : String) : List (String × Bool) :=
  fs.entries.filter (fun e => isWithinStr p e.1)

/-- Mutations performed by the actions engine, in order. -/
inductive FSEffect where
  | removeFile (p : String)
  | removeDir (p : String)
  | renameTo (src tgt : String)
  | mkdirAll (p : String)
  | createFile (p : String)
  | copyFileTo (src tgt : String)
  | chtimes (p : String)
  | archiveWrite (archive entry : String)
deriving DecidableEq, Repr

/-- A send on a bounded progress channel, tagged with the primitive the
code used: `nonBlocking` for the `select`/`default` drop-on-full helper
(`progressNonBlocking` / `actionProgressNonBlocking`), `blocking` for a
plain channel send.  `completed` is the message's completion-sentinel
flag. -/
inductive SendKind where
  | nonBlocking
  | blocking
deriving DecidableEq, Repr

structure SendEvent where
  kind : SendKind
  completed : Bool
deriving DecidableEq, Repr

/-! ### Actions engine pipeline (`fs_actions.go`) -/

/-- Models the `normalizePaths` loop: drop empty paths and duplicates,
keeping first occurrences.  (`filepath.Abs`/`Clean` are the identity on
the already-cleaned absolute paths the engine receives.) -/
def normalizeGo : List String → List String → List String
  | [], _ => []
  | p :: rest, seen =>
    if p = "" then normalizeGo rest seen
    else if seen.contains p then normalizeGo rest seen
    else p :: normalizeGo rest (p :: seen)

def normalizePaths (paths : List String) : List String :=
  normalizeGo paths []

/-- Models `isCriticalPath`: the fixed list plus the home directory,
matched exactly or as a separator-bounded prefix. -/
def isCriticalPath (home : Option String) (path : String) : Bool :=
  let critical := ["/", "/etc", "/usr", "/var"] ++
    (match home with | some h => [h] | none => [])
  critical.any (fun root => path == root || strHasPrefixGo path (root ++ "/"))

/-- Models `validateRequest`. -/
def validateRequest (home : Option String) (req : ActionRequest)
    (paths : List String) : Except String Unit :=
  if paths.length = 0 then .error "no sources provided"
  else if (req.rtype == .move || req.rtype == .copy || req.rtype == .backup)
      && req.destination == "" then .error "destination required"
  else if req.safeMode && req.rtype == .delete then
    match paths.find? (fun p => isCriticalPath home p) with
    | some p => .error ("blocked critical path: " ++ p)
    | none => .ok ()
  else .ok ()

/-- Models `requireConfirmation` exactly as written: the
`req.ConfirmToken == "confirm"` test comes before the per-path directory
scan, so it short-circuits the recursive-delete check. -/
def requireConfirmation (fs : ActionFS) (req : ActionRequest)
    (paths : List String) : Except String Unit :=
  if req.rtype ≠ .delete ∧ req.rtype ≠ .move then .ok ()
  else if req.confirmToken = "confirm" then .ok ()
  else if req.rtype = .delete then
    if (paths.any (fun p => lstatIsDir fs p))
        && !(req.confirmToken == "confirm-recursive") then
      .error "recursive delete requires confirmation"
    else if req.confirmToken = "confirm-recursive" then .ok ()
    else .error "delete confirmation required"
  else .error "confirmation required"

/-- Models `resolveDestination`: `(resolved, isDirectoryDestination)`. -/
def resolveDestination (fs : ActionFS) (destination : String)
    (sources : List String) : Except String (String × Bool) :=
  if destination = "" then .error "destination required"
  else if existsFS fs destination && lstatIsDir fs destination then
    .ok (destination, true)
  else if sources.length > 1 then
    .error "destination must be a directory for multiple sources"
  else .ok (destination, false)

/-- Target path of `source` copied under `target` (Go
`filepath.Join(target, rel)` for an entry at `p` under `source`). -/
def relocate (source target p : String) : String :=
  target ++ (p.drop source.length)

/-- Effects of `copyFile(source, target)`: create the parent directory,
exclusive-create and fill the target, then best-effort `Chtimes`. -/
def copyFileEffects (source target : String) : List FSEffect :=
  [.mkdirAll (dirOfStr target), .copyFileTo source target, .chtimes target]

/-- Effects of `copyPath(source, target)` (file copy, or `MkdirAll` plus
a recursive walk for a directory; the walk of the model filesystem always
succeeds).  `none` models the initial `os.Lstat(source)` failing. -/
def copyPathEffects (fs : ActionFS) (source target : String) :
    Option (List FSEffect) :=
  match lstatFS fs source with
  | none => none
  | some false => some (copyFileEffects source target)
  | some true =>
    some (.mkdirAll target ::
      ((entriesUnder fs source).filter (fun e => !(e.1 == source))).flatMap
        (fun e =>
          if e.2 then [.mkdirAll (relocate source target e.1)]
          else copyFileEffects e.1 (relocate source target e.1)))

/-- One per-success progress send from an action (all of these use
`actionProgressNonBlocking`). -/
def actionTick : SendEvent := ⟨.nonBlocking, false⟩

/-- Models `deleteDirectory`: remove every file under `path` first
(discovery order), then the collected directories in reverse discovery
order.  Removals on the model filesystem succeed, so the per-item error
branches are not exercised. -/
def deleteDirectoryModel (fs : ActionFS) (path : String) :
    (Int × Int) × List FSEffect × List SendEvent :=
  let walked := entriesUnder fs path
  let files := walked.filter (fun e => !e.2)
  let dirs := walked.filter (fun e => e.2)
  let fileEffs := files.map (fun e => FSEffect.removeFile e.1)
  let dirEffs := dirs.reverse.map (fun e => FSEffect.removeDir e.1)
  ((Int.ofNat (files.length + dirs.length), 0),
    fileEffs ++ dirEffs,
    (files ++ dirs.reverse).map (fun _ => actionTick))

/-- Models the `deletePaths` loop (runs in which the caller does not
cancel). -/
def deletePathsModel (fs : ActionFS) (paths : List String) :
    ActionResult × List FSEffect × List SendEvent :=
  let step := fun (acc : ActionResult × List FSEffect × List SendEvent)
      (p : String) =>
    let (r, effs, evs) := acc
    match lstatFS fs p with
    | none =>
      ({ r with
         failureCount := r.failureCount + 1
         errors := r.errors ++ ["lstat failed: " ++ p] }, effs, evs)
    | some true =>
      let ((s, f), de, dev) := deleteDirectoryModel fs p
      ({ r with
         successCount := r.successCount + s
         failureCount := r.failureCount + f }, effs ++ de, evs ++ dev)
    | some false =>
      ({ r with successCount := r.successCount + 1 },
        effs ++ [.removeFile p], evs ++ [actionTick])
  let (r, effs, evs) := paths.foldl step
    (⟨.delete, 0, 0, [], ""⟩, [], [])
  ({ r with message := "delete complete" }, effs, evs)

/-- Models the `movePaths` loop. -/
def movePathsModel (fs : ActionFS) (paths : List String)
    (destination : String) : ActionResult × List FSEffect × List SendEvent :=
  match resolveDestination fs destination paths with
  | .error e => (⟨.move, 0, 0, [e], "move failed"⟩, [], [])
  | .ok (resolvedDest, destDir) =>
    let step := fun (acc : ActionResult × List FSEffect × List SendEvent)
        (source : String) =>
      let (r, effs, evs) := acc
      let target := if destDir then
          resolvedDest ++ "/" ++ ((source.splitOn "/").getLastD source)
        else resolvedDest
      if existsFS fs target then
        ({ r with
           failureCount := r.failureCount + 1
           errors := r.errors ++ ["target exists: " ++ target] }, effs, evs)
      else if fs.sameDevice source target then
        ({ r with successCount := r.successCount + 1 },
          effs ++ [.renameTo source target], evs ++ [actionTick])
      else
        match copyPathEffects fs source target with
        | none =>
          ({ r with
             failureCount := r.failureCount + 1
             errors := r.errors ++ ["copy failed: " ++ source] }, effs, evs)
        | some ce =>
          let (_, de, dev) := deletePathsModel fs [source]
          ({ r with successCount := r.successCount + 1 },
            effs ++ ce ++ de, evs ++ dev)
    let (r, effs, evs) := paths.foldl step
      (⟨.move, 0, 0, [], ""⟩, [], [])
    ({ r with message := "move complete" }, effs, evs)

/-- Models the `copyPaths` loop. -/
def copyPathsModel (fs : ActionFS) (paths : List String)
    (destination : String) : ActionResult × List FSEffect × List SendEvent :=
  match resolveDestination fs destination paths with
  | .error e => (⟨.copy, 0, 0, [e], "copy failed"⟩, [], [])
  | .ok (resolvedDest, destDir) =>
    let step := fun (acc : ActionResult × List FSEffect × List SendEvent)
        (source : String) =>
      let (r, effs, evs) := acc
      let target := if destDir then
          resolvedDest ++ "/" ++ ((source.splitOn "/").getLastD source)
        else resolvedDest
      if existsFS fs target then
        ({ r with
           failureCount := r.failureCount + 1
           errors := r.errors ++ ["target exists: " ++ target] }, effs, evs)
      else
        match copyPathEffects fs source target with
        | none =>
          ({ r with
             failureCount := r.failureCount + 1
             errors := r.errors ++ ["copy failed: " ++ source] }, effs, evs)
        | some ce =>
          ({ r with successCount := r.successCount + 1 },
            effs ++ ce, evs ++ [actionTick])
    let (r, effs, evs) := paths.foldl step
      (⟨.copy, 0, 0, [], ""⟩, [], [])
    ({ r with message := "copy complete" }, effs, evs)

/-- Models `backupCompressed`: the destination-exists check happens before
any filesystem mutation; only then are the parent directory and the
archive created and the sources streamed in. -/
def backupCompressedModel (fs : ActionFS) (paths : List String)
    (destination : String) : ActionResult × List FSEffect × List SendEvent :=
  if existsFS fs destination then
    (⟨.backup, 0, 0, ["backup archive exists"], "backup failed"⟩, [], [])
  else
    let step := fun (acc : ActionResult × List FSEffect × List SendEvent)
        (source : String) =>
      let (r, effs, evs) := acc
      if !(existsFS fs source) then
        ({ r with
           failureCount := r.failureCount + 1
           errors := r.errors ++ ["walk failed: " ++ source] }, effs, evs)
      else
        let walked := entriesUnder fs source
        let files := walked.filter (fun e => !e.2)
        ({ r with successCount := r.successCount + Int.ofNat files.length },
          effs ++ walked.map (fun e => FSEffect.archiveWrite destination e.1),
          evs ++ files.map (fun _ => actionTick))
    let (r, effs, evs) := paths.foldl step
      (⟨.backup, 0, 0, [], ""⟩,
        [.mkdirAll (dirOfStr destination), .createFile destination], [])
    ({ r with message := "backup complete: " ++ destination }, effs, evs)

/-- Models `backupCopy`: again the destination-exists check precedes any
mutation; otherwise the destination directory is created and each source
is copied under its base name. -/
def backupCopyModel (fs : ActionFS) (paths : List String)
    (destination : String) : ActionResult × List FSEffect × List SendEvent :=
  if existsFS fs destination then
    (⟨.backup, 0, 0, ["backup destination exists"], "backup failed"⟩, [], [])
  else
    let step := fun (acc : ActionResult × List FSEffect × List SendEvent)
        (source : String) =>
      let (r, effs, evs) := acc
      let target := destination ++ "/" ++ ((source.splitOn "/").getLastD source)
      match copyPathEffects fs source target with
      | none =>
        ({ r with
           failureCount := r.failureCount + 1
           errors := r.errors ++ ["copy failed: " ++ source] }, effs, evs)
      | some ce =>
        ({ r with successCount := r.successCount + 1 },
          effs ++ ce, evs ++ [actionTick])
    let (r, effs, evs) := paths.foldl step
      (⟨.backup, 0, 0, [], ""⟩, [.mkdirAll destination], [])
    ({ r with message := "backup complete: " ++ destination }, effs, evs)

/-- Models `backupPaths`: dispatch on the `.tar.gz` suffix. -/
def backupPathsModel (fs : ActionFS) (paths : List String)
    (destination : String) : ActionResult × List FSEffect × List SendEvent :=
  if destination = "" then
    (⟨.backup, 0, 0, ["destination required"], "backup failed"⟩, [], [])
  else if strHasSuffixGo destination ".tar.gz" then
    backupCompressedModel fs paths destination
  else backupCopyModel fs paths destination

/-- Models `Execute`: normalization, validation and confirmation gating
happen before any mutation; the operations return their result through a
nil Go-level error, and the final completion sentinel is a plain
(blocking) channel send, unlike every other progress send. -/
def executeModel (fs : ActionFS) (req : ActionRequest) :
    Except String ActionResult × List FSEffect × List SendEvent :=
  let paths := normalizePaths req.sourcePaths
  match validateRequest fs.home req paths with
  | .error e => (.error e, [], [])
  | .ok () =>
    match requireConfirmation fs req paths with
    | .error e => (.error e, [], [])
    | .ok () =>
      let (result, effs, evs) :=
        match req.rtype with
        | .delete => deletePathsModel fs paths
        | .move => movePathsModel fs paths req.destination
        | .copy => copyPathsModel fs paths req.destination
        | .backup => backupPathsModel fs paths req.destination
      (.ok result, effs, evs ++ [⟨.blocking, true⟩])

/-! ### Node model (`internal/domain`) and scanner state (`fs_scanner.go`) -/

inductive NodeType where
  | file
  | dir
deriving DecidableEq, Repr

/-- Models `domain.Node`.  `id`/`path` coincide in the Go code, so one
segment-list field `id` represents both.  `parentID` is `none` where Go
stores the empty string.  `modTime` is the `UnixNano` image of the Go
`time.Time` field. -/
structure Node where
  id : List String
  name : String
  ptype : NodeType
  sizeBytes : Int
  accumBytes : Int
  modTime : Int
  parentID : Option (List String)
  childrenIDs : List (List String)
  childCount : Int
  fileCount : Int
  dirCount : Int
  scanned : Bool
deriving DecidableEq, Repr

/-- Models `cacheEntry` from `cache.go`. -/
structure CacheEntry where
  path : List String
  name : String
  etype : NodeType
  modTime : Int
  sizeBytes : Int
  accumBytes : Int
  fileCount : Int
  dirCount : Int
  childCount : Int
  children : List (List String)
  parentID : Option (List String)
deriving DecidableEq, Repr

/-- The value Go's `time.Time{}.UnixNano()` returns for the zero time.
Walk-created nodes never have their `ModTime` field assigned, so this is
the value their cache entries record. -/
def zeroTimeNano : Int := -6795364578871345152

/-- Models `timeFrom` from `cache.go` (`0 ↦` the zero time). -/
def timeFrom (value : Int) : Int :=
  if value = 0 then zeroTimeNano else value

/-- Models `hasPathPrefix` on segment paths: list prefix (equal included);
on cleaned absolute paths this is exactly the separator-bounded string
prefix test. -/
def segWithin (root p : List String) : Bool :=
  root.isPrefixOf p

/-- The live tree as the scanner observes it.  A file records whether the
worker's deferred `os.Lstat` will succeed (`statOk = false` models a file
vanishing between discovery and the stat); a directory records the
modification time `os.Stat`/`DirEntry.Info` report. -/
inductive FSTree where
  | file (name : String) (size : Int) (statOk : Bool)
  | dir (name : String) (modTime : Int) (children : List FSTree)

def FSTree.nameOf : FSTree → String
  | .file n _ _ => n
  | .dir n _ _ => n

def FSTree.mtimeOf : FSTree → Int
  | .file _ _ _ => 0
  | .dir _ mt _ => mt

/-- Real directory listings: sibling names are distinct. -/
inductive TreeWF : FSTree → Prop
  | file (n : String) (s : Int) (ok : Bool) : TreeWF (.file n s ok)
  | dir (n : String) (mt : Int) (cs : List FSTree)
      (hn : (cs.map FSTree.nameOf).Nodup)
      (hc : ∀ c ∈ cs, TreeWF c) : TreeWF (.dir n mt cs)

/-- Models the mutable `FSScanner` fields the claims touch.  `cache` and
`scannedDirs` are the in-memory node cache; `cacheEntries` is the
persisted-entry map `loadCache` populated (`none` = Go `nil`), together
with its `showHidden` flag.  The progress channel is modelled by event
traces instead of a field. -/
structure ScannerState where
  cache : List Node
  scannedDirs : List (List String)
  cacheEntries : Option (List CacheEntry)
  cacheHiddenFlag : Bool
  rootPath : Option (List String)
deriving DecidableEq, Repr

def emptyScanner : ScannerState :=
  ⟨[], [], none, false, none⟩

/-- The fixed exclusion set installed by `NewFSScanner`. -/
def exclusionNames : List String := [".git", "node_modules", ".cache"]

/-- Models `isHidden`. -/
def isHiddenName (name : String) : Bool :=
  strHasPrefixGo name "."

/-- Models `FSScanner.isExcluded`. -/
def isExcludedName (name : String) : Bool :=
  exclusionNames.contains name

/-! ### Node map primitives (Go `map[string]*domain.Node`) -/

def findNode (ns : List Node) (p : List String) : Option Node :=
  ns.find? (fun n => n.id == p)

def updNode (ns : List Node) (p : List String) (f : Node → Node) : List Node :=
  ns.map (fun n => if n.id == p then f n else n)

def ids (ns : List Node) : List (List String) :=
  ns.map (fun n => n.id)

/-! ### Cache store (`cache.go`) -/

def findEntry (entries : List CacheEntry) (p : List String) : Option CacheEntry :=
  entries.find? (fun e => e.path == p)

/-- Models `cacheEntry.toNode`. -/
def toNode (e : CacheEntry) : Node :=
  { id := e.path
    name := e.name
    ptype := e.etype
    sizeBytes := e.sizeBytes
    accumBytes := e.accumBytes
    modTime := timeFrom e.modTime
    parentID := e.parentID
    childrenIDs := e.children
    childCount := e.childCount
    fileCount := e.fileCount
    dirCount := e.dirCount
    scanned := e.etype == .dir }

/-- The entry `saveCache` records for one node. -/
def toEntry (n : Node) : CacheEntry :=
  { path := n.id
    name := n.name
    etype := n.ptype
    modTime := n.modTime
    sizeBytes := n.sizeBytes
    accumBytes := n.accumBytes
    fileCount := n.fileCount
    dirCount := n.dirCount
    childCount := n.childCount
    children := n.childrenIDs
    parentID := n.parentID }

/-- The entry map `saveCache` writes to disk for a node set (the
in-memory `cacheEntries` field is not updated by a save). -/
def saveEntries (ns : List Node) : List CacheEntry :=
  ns.map toEntry

/-- Models `cachedTree` / the body of `mergeCachedSubtree`: all loaded
entries at or under `root`, converted to nodes. -/
def spliceNodes (ce : Option (List CacheEntry)) (root : List String) :
    List Node :=
  match ce with
  | none => []
  | some es => (es.filter (fun e => segWithin root e.path)).map toNode

/-- Models `canReuseRoot` (the `os.Stat` of the live root succeeds and
reports `t.mtimeOf`). -/
def canReuseRootM (st : ScannerState) (root : List String) (sh : Bool)
    (t : FSTree) : Bool :=
  match st.cacheEntries with
  | none => false
  | some entries =>
    match findEntry entries root with
    | none => false
    | some e =>
      e.etype == NodeType.dir && (st.cacheHiddenFlag == sh)
        && e.modTime == t.mtimeOf

/-! ### The walk (`filepath.WalkDir` callback in `Scan`) -/

/-- Walk-time context: the loaded cache entries and flags, the request's
`showHidden`, the scanner's `maxDepth` (`NewFSScanner` sets `0`), and the
cleaned scan root. -/
structure WalkCtx where
  cacheEntries : Option (List CacheEntry)
  cacheHiddenFlag : Bool
  showHidden : Bool
  maxDepth : Nat
  rootP : List String

/-- Models `canReuseDir` for a directory entry at `path` whose `Info()`
reports modification time `mt`. -/
def canReuseDirM (cx : WalkCtx) (path : List String) (mt : Int) : Bool :=
  match cx.cacheEntries with
  | none => false
  | some entries =>
    (cx.cacheHiddenFlag == cx.showHidden)
      && (match findEntry entries path with
          | some e => e.etype == NodeType.dir && e.modTime == mt
          | none => false)

/-- The skip block of the walk callback for a non-root entry. -/
def skipEntry (cx : WalkCtx) (childPath : List String) (name : String) : Bool :=
  (!cx.showHidden && isHiddenName name)
    || (!cx.showHidden && isExcludedName name)
    || (decide (0 < cx.maxDepth)
        && decide (cx.maxDepth < childPath.length - cx.rootP.length))

/-- Models `parentPath(root, path)` (`none` for the Go empty string). -/
def parentOf (rootP path : List String) : Option (List String) :=
  if path == rootP then none else some path.dropLast

/-- The node the walk creates for a file entry (sizes are filled in later
by the worker results, mirroring the collector goroutine). -/
def mkFileNode (cx : WalkCtx) (path : List String) (nm : String) : Node :=
  { id := path
    name := nm
    ptype := .file
    sizeBytes := 0
    accumBytes := 0
    modTime := zeroTimeNano
    parentID := parentOf cx.rootP path
    childrenIDs := []
    childCount := 0
    fileCount := 0
    dirCount := 0
    scanned := false }

/-- The node the walk creates for a directory entry. -/
def mkDirNode (cx : WalkCtx) (path : List String) (nm : String) : Node :=
  { id := path
    name := nm
    ptype := .dir
    sizeBytes := 0
    accumBytes := 0
    modTime := zeroTimeNano
    parentID := parentOf cx.rootP path
    childrenIDs := []
    childCount := 0
    fileCount := 0
    dirCount := 0
    scanned := true }

/-- Walk accumulator: discovered nodes, dispatched file-size jobs
`(path, size, statOk)`, the `scannedCount` counter, the progress trace,
and the remaining cancellation budget (`none` = the context is never
cancelled). -/
structure WalkSt where
  nodes : List Node
  jobs : List (List String × Int × Bool)
  count : Nat
  events : List SendEvent
  budget : Option Nat

inductive WalkRes where
  | done (w : WalkSt)
  | cancelled (w : WalkSt)

/-- One `ctx.Err()` poll at a walk-callback visit. -/
def pollBudget (w : WalkSt) : Option WalkSt :=
  match w.budget with
  | none => some w
  | some 0 => none
  | some (k + 1) => some { w with budget := some k }

/-- `scannedCount++` and the every-50-paths progress send. -/
def bumpVisit (w : WalkSt) : WalkSt :=
  let c := w.count + 1
  { w with
    count := c
    events := w.events ++
      (if c % 50 == 0 then [⟨.nonBlocking, false⟩] else []) }

/-- Models the `nodes[path] = ...` assignments of `mergeCachedSubtree`:
entries overwrite any node already recorded under the same id. -/
def mergeInto (prior merged : List Node) : List Node :=
  prior.filter (fun n => !(merged.any (fun m => m.id == n.id))) ++ merged

mutual

/-- The walk visiting the entry at `path` (already past the skip block
and the cancellation poll, which happen at the caller). -/
def walkTree (cx : WalkCtx) (path : List String) (t : FSTree)
    (w : WalkSt) : WalkRes :=
  match t with
  | .file nm sz ok =>
    .done (bumpVisit
      { w with
        nodes := w.nodes ++ [mkFileNode cx path nm]
        jobs := w.jobs ++ [(path, sz, ok)] })
  | .dir nm mt cs =>
    if canReuseDirM cx path mt then
      .done { w with
        nodes := mergeInto w.nodes (spliceNodes cx.cacheEntries path)
        events := w.events ++ [⟨.nonBlocking, false⟩] }
    else
      walkChildren cx path cs
        (bumpVisit { w with nodes := w.nodes ++ [mkDirNode cx path nm] })

/-- The walk over a directory's entries: per entry one cancellation poll,
then the skip block, then the visit. -/
def walkChildren (cx : WalkCtx) (path : List String) (cs : List FSTree)
    (w : WalkSt) : WalkRes :=
  match cs with
  | [] => .done w
  | c :: rest =>
    match pollBudget w with
    | none => .cancelled w
    | some w1 =>
      if skipEntry cx (path ++ [c.nameOf]) c.nameOf then
        walkChildren cx path rest w1
      else
        match walkTree cx (path ++ [c.nameOf]) c w1 with
        | .cancelled w2 => .cancelled w2
        | .done w2 => walkChildren cx path rest w2

end


/-- The collector goroutine applying worker results: on a successful stat
both `SizeBytes` and `AccumBytes` are set; a stat error leaves the node
untouched. -/
def applyResults (ns : List Node)
    (js : List (List String × Int × Bool)) : List Node :=
  js.foldl
    (fun acc j =>
      if j.2.2 then
        updNode acc j.1 (fun n => { n with sizeBytes := j.2.1, accumBytes := j.2.1 })
      else acc)
    ns

/-- The number of file-size jobs the workers actually process: all of
them, unless the context is cancelled during the drain after the walk, in
which case only the first `k` results arrive. -/
def jobCutLen (jobCut : Option Nat) (total : Nat) : Nat :=
  match jobCut with
  | none => total
  | some k => min k total

/-- The collector's every-200-jobs progress sends for `processed` results. -/
def collectorEvents (processed : Nat) : List SendEvent :=
  (List.range processed).filterMap
    (fun i => if (i + 1) % 200 == 0 then some ⟨.nonBlocking, false⟩ else none)

/-! ### Bottom-up aggregation passes (`applyHierarchy`, `applyAccumulation`,
`applyFileCounts`, `applyDirCounts`) -/

/-- One step of `applyHierarchy` for the iterated node `n`: attach `n` to
its parent's child list and bump the parent's directory-child counter. -/
def hierarchyStep (acc : List Node) (n : Node) : List Node :=
  match n.parentID with
  | none => acc
  | some q =>
    match findNode acc q with
    | none => acc
    | some _ =>
      updNode acc q
        (fun k =>
          { k with
            childrenIDs := k.childrenIDs ++ [n.id]
            childCount := k.childCount +
              (if n.ptype == NodeType.dir then 1 else 0) })

/-- Models `applyHierarchy` (iterating the node set once; reads of the
iterated node touch only fields no step mutates). -/
def applyHierarchy (ns : List Node) : List Node :=
  ns.foldl hierarchyStep ns

/-- The deepest-first processing order: Go sorts the key set by strictly
descending `depth` (count of separators = segment count). -/
def deeperEq (p q : List String) : Prop := q.length ≤ p.length

instance : DecidableRel deeperEq := fun p q => Nat.decLe q.length p.length

instance : IsTotal (List String) deeperEq :=
  ⟨fun a b => Nat.le_total b.length a.length⟩

instance : IsTrans (List String) deeperEq :=
  ⟨fun _ _ _ h1 h2 => Nat.le_trans h2 h1⟩

def sortIds (ns : List Node) : List (List String) :=
  List.insertionSort deeperEq (ids ns)

/-- One aggregation pass, abstracted over the field it fills: `set`/`get`
access the field, `fileVal` is the value the pass assigns to a file node,
and `childContrib` is a resolved child's contribution to a directory's
total. -/
structure PassSpec where
  get : Node → Int
  set : Node → Int → Node
  fileVal : Node → Int
  childContrib : Node → Int

/-- The Go accumulation loop over a directory's `ChildrenIDs`, as the
ordered sum of the resolved children's contributions (children missing
from the map contribute nothing). -/
def dirSum (spec : PassSpec) (ns : List Node) : List (List String) → Int
  | [] => 0
  | c :: rest =>
    (match findNode ns c with
     | some ch => spec.childContrib ch
     | none => 0) + dirSum spec ns rest

def passStep (spec : PassSpec) (ns : List Node) (p : List String) : List Node :=
  match findNode ns p with
  | none => ns
  | some n =>
    if n.ptype == NodeType.file then
      updNode ns p (fun k => spec.set k (spec.fileVal k))
    else
      updNode ns p (fun k => spec.set k (dirSum spec ns k.childrenIDs))

def applyPass (spec : PassSpec) (ns : List Node) : List Node :=
  (sortIds ns).foldl (passStep spec) ns

/-- `applyAccumulation`: a file keeps a worker-reported `AccumBytes` and
otherwise takes its `SizeBytes`; a directory sums its children's
`AccumBytes`. -/
def accumSpec : PassSpec :=
  { get := fun n => n.accumBytes
    set := fun n v => { n with accumBytes := v }
    fileVal := fun n => if n.accumBytes = 0 then n.sizeBytes else n.accumBytes
    childContrib := fun n => n.accumBytes }

def applyAccumulation (ns : List Node) : List Node :=
  applyPass accumSpec ns

/-- `applyFileCounts`: a file counts as one; a directory sums its
children's counts. -/
def fileCountSpec : PassSpec :=
  { get := fun n => n.fileCount
    set := fun n v => { n with fileCount := v }
    fileVal := fun _ => 1
    childContrib := fun n => n.fileCount }

def applyFileCounts (ns : List Node) : List Node :=
  applyPass fileCountSpec ns

/-- `applyDirCounts`: a file gets zero; a directory counts its directory
children plus their counts. -/
def dirCountSpec : PassSpec :=
  { get := fun n => n.dirCount
    set := fun n v => { n with dirCount := v }
    fileVal := fun _ => 0
    childContrib := fun n =>
      (if n.ptype == NodeType.dir then 1 else 0) + n.dirCount }

def applyDirCounts (ns : List Node) : List Node :=
  applyPass dirCountSpec ns

/-! ### Cache replacement and the scan pipeline -/

/-- Models `replaceCache`: evict cached nodes under the root, install the
new set, record scanned directories, link the root into an already-cached
parent, and remember the root. -/
def replaceCache (st : ScannerState) (root : List String)
    (nodes : List Node) : ScannerState :=
  let cache1 := st.cache.filter (fun n => !(segWithin root n.id))
  let cache2 := cache1 ++ nodes
  let sd := st.scannedDirs ++
    (nodes.filter (fun n => n.ptype == NodeType.dir)).map (fun n => n.id)
  let parent := root.dropLast
  let cache3 :=
    if parent == root then cache2
    else
      cache2.map (fun n =>
        if n.id == parent && !(n.childrenIDs.contains root) then
          { n with
            childrenIDs := n.childrenIDs ++ [root]
            childCount := n.childCount + 1 }
        else n)
  { st with cache := cache3, scannedDirs := sd, rootPath := some root }

inductive ScanErr where
  | cancelled
deriving DecidableEq, Repr

/-- Which of `Scan`'s return paths produced the result. -/
inductive ScanOutcome where
  | reusedRoot (nodes : List Node)
  | inMemory
  | walked (nodes : List Node)
deriving DecidableEq, Repr

/-- Models `Scan` (with `loadCache` already reflected in
`st.cacheEntries`).  `budget` is the cancellation budget in walk-entry
visits; `jobCut = some k` models the context being cancelled after the
walk finished but after only `k` file-size jobs were processed, so the
workers observe `ctx.Err()` at their job boundary and drop the rest;
`jobCut = none` is the undisturbed run.  The returned trace shows every
progress send; note the final completion sentinel of the walk path is a
plain blocking send (`progress <- ...`), unlike every other send. -/
def scanModel (st : ScannerState) (t : FSTree) (rootPath : List String)
    (sh : Bool) (budget : Option Nat) (jobCut : Option Nat) :
    ScannerState × Except ScanErr ScanOutcome × List SendEvent :=
  if canReuseRootM st rootPath sh t then
    let nodes := spliceNodes st.cacheEntries rootPath
    (replaceCache st rootPath nodes, .ok (.reusedRoot nodes),
      [⟨.nonBlocking, true⟩])
  else if st.scannedDirs.contains rootPath then
    ({ st with rootPath := some rootPath }, .ok .inMemory,
      [⟨.nonBlocking, true⟩])
  else
    let cx : WalkCtx := ⟨st.cacheEntries, st.cacheHiddenFlag, sh, 0, rootPath⟩
    let w0 : WalkSt := ⟨[], [], 0, [], budget⟩
    match pollBudget w0 with
    | none => (st, .error .cancelled, [])
    | some w1 =>
      match walkTree cx rootPath t w1 with
      | .cancelled w2 => (st, .error .cancelled, w2.events)
      | .done w2 =>
        let processed := jobCutLen jobCut w2.jobs.length
        let sized := applyResults w2.nodes (w2.jobs.take processed)
        let nodes :=
          applyDirCounts (applyFileCounts (applyAccumulation
            (applyHierarchy sized)))
        (replaceCache st rootPath nodes, .ok (.walked nodes),
          w2.events ++ collectorEvents processed ++ [⟨.blocking, true⟩])

/-- Models `Invalidate` on the in-memory caches (over the same
segment-path representation the scanner cache uses). -/
def invalidateModel (st : ScannerState) (root : List String) : ScannerState :=
  { st with
    cache := st.cache.filter (fun n => !(segWithin root n.id))
    scannedDirs := st.scannedDirs.filter (fun p => !(segWithin root p)) }

/-- Models `Invalidate`'s key filter at the string level, where the
separator-bounded prefix behaviour lives: a key is evicted iff
`isWithin(path, key)`. -/
def invalidateKeys (keys : List String) (path : String) : List String :=
  keys.filter (fun key => !(isWithinStr path key))

/-! ### The deepest-first pass: generic correctness of `applyPass` -/

/-- What one aggregation pass guarantees, node by node, about the map
`final` it produced from an input node, relative to the ids still to be
processed. -/
def passRel (spec : PassSpec) (final : List Node) (todo : List (List String))
    (a b : Node) : Prop :=
  b.id = a.id ∧ b.ptype = a.ptype ∧ b.childrenIDs = a.childrenIDs ∧
  spec.set b 0 = spec.set a 0 ∧
  (a.id ∉ todo → b = a) ∧
  (a.id ∈ todo → a.ptype = .file → b = spec.set a (spec.fileVal a)) ∧
  (a.id ∈ todo → a.ptype = .dir →
    spec.get b = dirSum spec final b.childrenIDs)

/-! ### Node well-formedness carried through the scan pipeline -/

/-- The shape facts every node reaching the aggregation passes satisfies:
children (when any are pre-listed, i.e. spliced from the cache) are
strictly deeper; a resolved parent reference is strictly shallower; a
file's `AccumBytes` is its size or still unset; the modification time is
never the `0` sentinel `timeFrom` reserves; `Scanned` tracks the type. -/
def NodeWF (n : Node) : Prop :=
  (∀ c ∈ n.childrenIDs, n.id.length < c.length) ∧
  (∀ q, n.parentID = some q → q.length < n.id.length) ∧
  (n.ptype = .file → n.accumBytes = n.sizeBytes ∨ n.accumBytes = 0) ∧
  n.modTime ≠ 0 ∧
  (n.scanned = (n.ptype == NodeType.dir))

/-- Well-formedness of a loaded cache entry (what `saveCache` of any
aggregated scan produces; proved below for saved scans). -/
def EntryWF (e : CacheEntry) : Prop :=
  (∀ c ∈ e.children, e.path.length < c.length) ∧
  (∀ q, e.parentID = some q → q.length < e.path.length) ∧
  (e.etype = .file → e.accumBytes = e.sizeBytes ∨ e.accumBytes = 0) ∧
  e.modTime ≠ 0

def EntriesWF (es : List CacheEntry) : Prop :=
  (∀ e ∈ es, EntryWF e) ∧ (es.map (fun e => e.path)).Nodup

/-- Well-formedness of the optional loaded entry map. -/
def CacheWF : Option (List CacheEntry) → Prop
  | none => True
  | some es => EntriesWF es

/-! ### `applyResults` preserves the pipeline invariants -/

def resultsRel (a b : Node) : Prop :=
  b.id = a.id ∧ b.ptype = a.ptype ∧ b.childrenIDs = a.childrenIDs ∧
  b.parentID = a.parentID ∧ b.modTime = a.modTime ∧ b.scanned = a.scanned ∧
  b.name = a.name ∧ b.fileCount = a.fileCount ∧ b.dirCount = a.dirCount ∧
  b.childCount = a.childCount ∧
  ((b.accumBytes = a.accumBytes ∧ b.sizeBytes = a.sizeBytes) ∨
    b.accumBytes = b.sizeBytes)

/-! ### `applyHierarchy` preserves the pipeline invariants -/

/-- Pointwise effect of `applyHierarchy` drawn from the iterated node set
`ms`: everything except the child list and `ChildCount` is untouched, and
every new child id comes from a node claiming this node as parent. -/
def hierRel (ms : List Node) (a b : Node) : Prop :=
  b.id = a.id ∧ b.ptype = a.ptype ∧ b.sizeBytes = a.sizeBytes ∧
  b.accumBytes = a.accumBytes ∧ b.modTime = a.modTime ∧
  b.parentID = a.parentID ∧ b.scanned = a.scanned ∧ b.name = a.name ∧
  b.fileCount = a.fileCount ∧ b.dirCount = a.dirCount ∧
  (∀ c ∈ b.childrenIDs,
    c ∈ a.childrenIDs ∨ ∃ m ∈ ms, m.parentID = some a.id ∧ c = m.id)

/-! ### Per-pass conclusions -/

/-- What one full pass guarantees about each node of its output. -/
def passOut (spec : PassSpec) (final : List Node) (a b : Node) : Prop :=
  b.id = a.id ∧ b.ptype = a.ptype ∧ b.childrenIDs = a.childrenIDs ∧
  spec.set b 0 = spec.set a 0 ∧
  (a.ptype = .file → b = spec.set a (spec.fileVal a)) ∧
  (a.ptype = .dir → spec.get b = dirSum spec final b.childrenIDs)

/-! ### Walk soundness: invariants of the discovery phase -/

def jobFst (j : List String × Int × Bool) : List String := j.1

/-- State invariant maintained across the walk. -/
structure WInv (cx : WalkCtx) (w : WalkSt) : Prop where
  ndN : (ids w.nodes).Nodup
  wfN : ∀ n ∈ w.nodes, NodeWF n
  rootN : ∀ n ∈ w.nodes, cx.rootP <+: n.id
  ndJ : (w.jobs.map jobFst).Nodup

/-- Freshness of a subtree position: nothing recorded yet lives under it. -/
structure FreshT (path : List String) (w : WalkSt) : Prop where
  freshN : ∀ n ∈ w.nodes, ¬ (path <+: n.id)
  freshJ : ∀ j ∈ w.jobs, ¬ (path <+: jobFst j)

/-- Freshness of the still-unvisited sibling names under `path`. -/
structure FreshC (path : List String) (nms : List String) (w : WalkSt) :
    Prop where
  freshN : ∀ n ∈ w.nodes, ∀ nm ∈ nms, ¬ ((path ++ [nm]) <+: n.id)
  freshJ : ∀ j ∈ w.jobs, ∀ nm ∈ nms, ¬ ((path ++ [nm]) <+: jobFst j)

structure PostT (cx : WalkCtx) (path : List String) (w res : WalkSt) :
    Prop where
  newN : ∀ n ∈ res.nodes, n ∈ w.nodes ∨ path <+: n.id
  oldN : ∀ n ∈ w.nodes, n ∈ res.nodes
  newJ : ∀ j ∈ res.jobs, j ∈ w.jobs ∨ path <+: jobFst j
  oldJ : ∀ j ∈ w.jobs, j ∈ res.jobs
  inv : WInv cx res
  evs : ∀ e ∈ res.events, e ∈ w.events ∨ e.kind = .nonBlocking

structure PostC (cx : WalkCtx) (path : List String) (nms : List String)
    (w res : WalkSt) : Prop where
  newN : ∀ n ∈ res.nodes, n ∈ w.nodes ∨ ∃ nm ∈ nms, (path ++ [nm]) <+: n.id
  oldN : ∀ n ∈ w.nodes, n ∈ res.nodes
  newJ : ∀ j ∈ res.jobs,
    j ∈ w.jobs ∨ ∃ nm ∈ nms, (path ++ [nm]) <+: jobFst j
  oldJ : ∀ j ∈ w.jobs, j ∈ res.jobs
  inv : WInv cx res
  evs : ∀ e ∈ res.events, e ∈ w.events ∨ e.kind = .nonBlocking


def resState : WalkRes → WalkSt
  | .done w => w
  | .cancelled w => w

/-- Fields untouched by any of the three value passes
(`modTime`/`scanned` feed the cache round trip). -/
def shapeRel (a b : Node) : Prop :=
  b.id = a.id ∧ b.modTime = a.modTime ∧ b.scanned = a.scanned ∧
  b.ptype = a.ptype

/-- The full frame one pass keeps. -/
def passKeepRel (a b : Node) : Prop :=
  b.id = a.id ∧ b.modTime = a.modTime ∧ b.scanned = a.scanned ∧
  b.ptype = a.ptype ∧ b.sizeBytes = a.sizeBytes

/-! ### The exclusion set (`C5`): no excluded name below the root survives
a walk with `showHidden = false` -/

/-- No segment of `p` below the scan root is in the exclusion set. -/
def goodSegs (rootP p : List String) : Prop :=
  ∀ s ∈ p.drop rootP.length, isExcludedName s = false

/-- Loaded cache entries whose paths carry no excluded segment below the
scan root (true of any cache saved by a `showHidden = false` scan). -/
def CacheGood (rootP : List String) : Option (List CacheEntry) → Prop
  | none => True
  | some es => ∀ e ∈ es, goodSegs rootP e.path


/-! ### Concrete fixtures for claim witnesses and counterexamples -/

/-- A filesystem with one directory (holding one file) and one plain file. -/
def fixFS : ActionFS :=
  ⟨[("/tmp/d", true), ("/tmp/d/f", false), ("/tmp/plain.txt", false)],
    some "/home/u", fun _ _ => true⟩

/-- A filesystem where the backup destination already exists. -/
def fixFSBak : ActionFS :=
  ⟨[("/data/src.txt", false), ("/data/backup.tar.gz", false),
    ("/data/dest", true)], none, fun _ _ => true⟩

def reqDelDirConfirm : ActionRequest :=
  ⟨.delete, ["/tmp/d"], "", false, "confirm"⟩

def reqDelDirNoTok : ActionRequest :=
  ⟨.delete, ["/tmp/d"], "", false, ""⟩

def reqDelDirRec : ActionRequest :=
  ⟨.delete, ["/tmp/d"], "", false, "confirm-recursive"⟩

def reqDelFileConfirm : ActionRequest :=
  ⟨.delete, ["/tmp/plain.txt"], "", false, "confirm"⟩

def reqBakArchive : ActionRequest :=
  ⟨.backup, ["/data/src.txt"], "/data/backup.tar.gz", false, ""⟩

def reqBakPlainDir : ActionRequest :=
  ⟨.backup, ["/data/src.txt"], "/data/dest", false, ""⟩

/-! ### Scanner fixtures -/

def fixT1 : FSTree :=
  .dir "r" 11 [.file "a" 10 true,
    .dir "b" 22 [.file "c" 5 true, .file "d" 7 false]]

/-- The node index of a plain walk of `fixT1`. -/
def fixN1 : List Node :=
  [⟨["r"], "r", .dir, 0, 15, zeroTimeNano, none,
      [["r", "a"], ["r", "b"]], 1, 3, 1, true⟩,
   ⟨["r", "a"], "a", .file, 10, 10, zeroTimeNano, some ["r"], [], 0, 1, 0,
      false⟩,
   ⟨["r", "b"], "b", .dir, 0, 5, zeroTimeNano, some ["r"],
      [["r", "b", "c"], ["r", "b", "d"]], 0, 2, 0, true⟩,
   ⟨["r", "b", "c"], "c", .file, 5, 5, zeroTimeNano, some ["r", "b"], [], 0,
      1, 0, false⟩,
   ⟨["r", "b", "d"], "d", .file, 0, 0, zeroTimeNano, some ["r", "b"], [], 0,
      1, 0, false⟩]

/-- A live tree whose subdirectory `b` matches a loaded cache entry. -/
def fixT2 : FSTree :=
  .dir "r" 100 [.file "a" 10 true, .dir "b" 22 [.file "zz" 99 true]]

def fixEntB : CacheEntry :=
  ⟨["r", "b"], "b", .dir, 22, 0, 5, 1, 0, 0, [["r", "b", "x"]], some ["r"]⟩

def fixEntBX : CacheEntry :=
  ⟨["r", "b", "x"], "x", .file, 33, 5, 5, 1, 0, 0, [], some ["r", "b"]⟩

/-- A scanner holding the loaded entries for `fixEntB`/`fixEntBX` (saved by
a `showHidden = true` scan). -/
def fixStSplice : ScannerState :=
  ⟨[], [], some [fixEntB, fixEntBX], true, none⟩

/-- The node index of the `fixT2` walk over `fixStSplice`: directory `b` is
answered from the cache and the cached subtree is spliced mid-walk. -/
def fixN2 : List Node :=
  [⟨["r"], "r", .dir, 0, 20, zeroTimeNano, none,
      [["r", "a"], ["r", "b"]], 1, 3, 1, true⟩,
   ⟨["r", "a"], "a", .file, 10, 10, zeroTimeNano, some ["r"], [], 0, 1, 0,
      false⟩,
   ⟨["r", "b"], "b", .dir, 0, 10, 22, some ["r"],
      [["r", "b", "x"], ["r", "b", "x"]], 0, 2, 0, true⟩,
   ⟨["r", "b", "x"], "x", .file, 5, 5, 33, some ["r", "b"], [], 0, 1, 0,
      false⟩]

def fixT3 : FSTree := .dir "r" 3 [.file "a" 7 true]

/-- The node index of a `fixT3` scan whose workers observe cancellation
before draining any file-size job: the file size is never filled in. -/
def fixN3 : List Node :=
  [⟨["r"], "r", .dir, 0, 0, zeroTimeNano, none, [["r", "a"]], 0, 1, 0,
      true⟩,
   ⟨["r", "a"], "a", .file, 0, 0, zeroTimeNano, some ["r"], [], 0, 1, 0,
      false⟩]

def fixT4 : FSTree :=
  .dir "r" 5 [.dir "node_modules" 6 [.file "x" 4 true]]

/-- The node index of a `showHidden = true` walk of `fixT4`: the excluded
name `node_modules` is walked, not skipped. -/
def fixN4 : List Node :=
  [⟨["r"], "r", .dir, 0, 4, zeroTimeNano, none, [["r", "node_modules"]], 1,
      1, 1, true⟩,
   ⟨["r", "node_modules"], "node_modules", .dir, 0, 4, zeroTimeNano,
      some ["r"], [["r", "node_modules", "x"]], 0, 1, 0, true⟩,
   ⟨["r", "node_modules", "x"], "x", .file, 4, 4, zeroTimeNano,
      some ["r", "node_modules"], [], 0, 1, 0, false⟩]

def fixT5 : FSTree :=
  .dir "r" 5 [.file "gone" 42 false, .file "ok" 7 true]

/-- The node index of a `fixT5` scan: the stat of `gone` fails, the stat of
`ok` succeeds. -/
def fixN5 : List Node :=
  [⟨["r"], "r", .dir, 0, 7, zeroTimeNano, none,
      [["r", "gone"], ["r", "ok"]], 0, 2, 0, true⟩,
   ⟨["r", "gone"], "gone", .file, 0, 0, zeroTimeNano, some ["r"], [], 0, 1,
      0, false⟩,
   ⟨["r", "ok"], "ok", .file, 7, 7, zeroTimeNano, some ["r"], [], 0, 1, 0,
      false⟩]

/-- A tree whose subdirectory `b` reports the zero-time modification time
that `saveCache` records for every walk-created node (walk nodes never
have `ModTime` assigned), so a rescan over the saved cache answers `b`
by a mid-walk splice while whole-root reuse fails (the live root reports
`11`). -/
def fixT6 : FSTree :=
  .dir "r" 11 [.dir "b" zeroTimeNano [.file "c" 5 true]]

/-- The node index of the first (cache-less) scan of `fixT6`. -/
def fixN6 : List Node :=
  [⟨["r"], "r", .dir, 0, 5, zeroTimeNano, none, [["r", "b"]], 1, 1, 1,
      true⟩,
   ⟨["r", "b"], "b", .dir, 0, 5, zeroTimeNano, some ["r"],
      [["r", "b", "c"]], 0, 1, 0, true⟩,
   ⟨["r", "b", "c"], "c", .file, 5, 5, zeroTimeNano, some ["r", "b"], [],
      0, 1, 0, false⟩]

/-- The node index of the second scan of the unchanged `fixT6`, answered
at `b` from the entries saved for `fixN6`: the spliced child `c` is
appended to `b`'s already-populated child list again, and the aggregates
double. -/
def fixN6b : List Node :=
  [⟨["r"], "r", .dir, 0, 10, zeroTimeNano, none, [["r", "b"]], 1, 2, 1,
      true⟩,
   ⟨["r", "b"], "b", .dir, 0, 10, zeroTimeNano, some ["r"],
      [["r", "b", "c"], ["r", "b", "c"]], 0, 2, 0, true⟩,
   ⟨["r", "b", "c"], "c", .file, 5, 5, zeroTimeNano, some ["r", "b"], [],
      0, 1, 0, false⟩]

/-! ### Theorems -/

/-! ### Map/lookup lemmas for the node-map embedding -/

theorem findNode_map (g : Node → Node) (hg : ∀ n, (g n).id = n.id) :
    ∀ (ns : List Node) (q : List String),
      findNode (ns.map g) q = (findNode ns q).map g := by
  intro ns q
  induction ns with
  | nil => rfl
  | cons a l ih =>
    simp only [List.map_cons, findNode, List.find?]
    rw [hg a]
    cases h : (a.id == q) with
    | true => rfl
    | false => exact ih

theorem mem_ids_iff {ns : List Node} {p : List String} :
    p ∈ ids ns ↔ ∃ n ∈ ns, n.id = p := by
  simp [ids]

theorem findNode_eq_self {ns : List Node} (hnd : (ids ns).Nodup) {a : Node}
    (ha : a ∈ ns) : findNode ns a.id = some a := by
  induction ns with
  | nil => cases ha
  | cons b l ih =>
    rcases List.mem_cons.mp ha with rfl | hmem
    · simp [findNode, List.find?]
    · have hbd : b.id ∉ ids l := by
        have := (List.nodup_cons.mp hnd).1
        simpa [ids] using this
      have hne : b.id ≠ a.id := by
        intro h
        exact hbd (h ▸ mem_ids_iff.mpr ⟨a, hmem, rfl⟩)
      have : (b.id == a.id) = false := by
        simp [hne]
      simp only [findNode, List.find?, this]
      exact ih (List.nodup_cons.mp hnd).2 hmem

theorem findNode_isSome_of_mem_ids {ns : List Node} {p : List String}
    (hp : p ∈ ids ns) : ∃ n, findNode ns p = some n ∧ n ∈ ns ∧ n.id = p := by
  induction ns with
  | nil => simp [ids] at hp
  | cons a l ih =>
    by_cases h : a.id = p
    · refine ⟨a, ?_, List.mem_cons_self _ _, h⟩
      simp [findNode, List.find?, h]
    · have : (a.id == p) = false := by simp [h]
      simp only [findNode, List.find?, this]
      have hp' : p ∈ ids l := by
        rcases (mem_ids_iff.mp hp) with ⟨n, hn, rfl⟩
        rcases List.mem_cons.mp hn with rfl | hm
        · exact absurd rfl h
        · exact mem_ids_iff.mpr ⟨n, hm, rfl⟩
      rcases ih hp' with ⟨n, h1, h2, h3⟩
      exact ⟨n, h1, List.mem_cons_of_mem _ h2, h3⟩

theorem ids_map_of_id_eq (g : Node → Node) (hg : ∀ n, (g n).id = n.id)
    (ns : List Node) : ids (ns.map g) = ids ns := by
  unfold ids
  rw [List.map_map]
  exact List.map_congr_left (fun n _ => hg n)

theorem dirSum_congr (spec : PassSpec) {ns ms : List Node} :
    ∀ {cs : List (List String)},
      (∀ c ∈ cs, findNode ms c = findNode ns c) →
      dirSum spec ms cs = dirSum spec ns cs := by
  intro cs
  induction cs with
  | nil => intro _; rfl
  | cons c rest ih =>
    intro h
    have hc := h c (List.mem_cons_self _ _)
    have hrest := ih (fun d hd => h d (List.mem_cons_of_mem _ hd))
    simp only [dirSum, hc, hrest]

theorem forall2_findNode_eq {c : List String} {m fin : List Node}
    (h : List.Forall₂ (fun a b => b.id = a.id ∧ (a.id = c → b = a)) m fin) :
    findNode fin c = findNode m c := by
  induction h with
  | nil => rfl
  | @cons a b l1 l2 hab h2 ih =>
    rcases hab with ⟨hid, heq⟩
    by_cases hac : a.id = c
    · have hb : b = a := heq hac
      subst hb
      simp [findNode, List.find?, hid, hac]
    · have hbc : (b.id == c) = false := by simp [hid, hac]
      have hac2 : (a.id == c) = false := by simp [hac]
      simp only [findNode, List.find?, hbc, hac2]
      exact ih

theorem findNode_some_id {ns : List Node} {p : List String} {n : Node}
    (h : findNode ns p = some n) : n.id = p := by
  have := List.find?_some h
  simpa using this

theorem passStep_char (spec : PassSpec) {ns : List Node} {p : List String}
    {n0 : Node} (h : findNode ns p = some n0) :
    passStep spec ns p =
      updNode ns p
        (fun k =>
          if n0.ptype == NodeType.file then spec.set k (spec.fileVal k)
          else spec.set k (dirSum spec ns k.childrenIDs)) := by
  unfold passStep
  rw [h]
  cases hft : (n0.ptype == NodeType.file) with
  | true => simp [hft]
  | false => simp [hft]

theorem passFold (spec : PassSpec)
    (hget : ∀ k v, spec.get (spec.set k v) = v)
    (hid : ∀ k v, (spec.set k v).id = k.id)
    (hty : ∀ k v, (spec.set k v).ptype = k.ptype)
    (hch : ∀ k v, (spec.set k v).childrenIDs = k.childrenIDs)
    (hss : ∀ k v w, spec.set (spec.set k v) w = spec.set k w) :
    ∀ (todo : List (List String)) (ns : List Node),
      (ids ns).Nodup →
      todo.Nodup →
      (∀ p ∈ todo, p ∈ ids ns) →
      List.Sorted deeperEq todo →
      (∀ n ∈ ns, ∀ c ∈ n.childrenIDs, n.id.length < c.length) →
      List.Forall₂ (passRel spec (todo.foldl (passStep spec) ns) todo)
        ns (todo.foldl (passStep spec) ns) := by
  intro todo
  induction todo with
  | nil =>
    intro ns hnd _ _ _ _
    simp only [List.foldl_nil]
    refine List.forall₂_same.mpr (fun a _ => ⟨rfl, rfl, rfl, rfl, fun _ => rfl,
      fun h => absurd h (List.not_mem_nil _),
      fun h => absurd h (List.not_mem_nil _)⟩)
  | cons p tail ih =>
    intro ns hnd htodoND hmem hsort hdeep
    have hpn : p ∈ ids ns := hmem p (List.mem_cons_self _ _)
    obtain ⟨n0, hfind, hn0mem, hn0id⟩ := findNode_isSome_of_mem_ids hpn
    have hptail : p ∉ tail := (List.nodup_cons.mp htodoND).1
    have htailsort : List.Sorted deeperEq tail := (List.sorted_cons.mp hsort).2
    have htailbound : ∀ q ∈ tail, q.length ≤ p.length :=
      (List.sorted_cons.mp hsort).1
    -- the per-node function of this step
    set f : Node → Node := fun k =>
      if n0.ptype == NodeType.file then spec.set k (spec.fileVal k)
      else spec.set k (dirSum spec ns k.childrenIDs) with hf
    have hfid : ∀ k, (f k).id = k.id := by
      intro k
      by_cases hb : n0.ptype = NodeType.file
      · simp [hf, hb, hid]
      · simp [hf, hb, hid]
    have hfty : ∀ k, (f k).ptype = k.ptype := by
      intro k
      by_cases hb : n0.ptype = NodeType.file
      · simp [hf, hb, hty]
      · simp [hf, hb, hty]
    have hfch : ∀ k, (f k).childrenIDs = k.childrenIDs := by
      intro k
      by_cases hb : n0.ptype = NodeType.file
      · simp [hf, hb, hch]
      · simp [hf, hb, hch]
    have hfset : ∀ k, spec.set (f k) 0 = spec.set k 0 := by
      intro k
      by_cases hb : n0.ptype = NodeType.file
      · simp [hf, hb, hss]
      · simp [hf, hb, hss]
    set g : Node → Node := fun n => if n.id == p then f n else n with hg
    have hgid : ∀ n, (g n).id = n.id := by
      intro n
      by_cases hb : n.id = p
      · simp [hg, hb, hfid]
      · simp [hg, hb]
    have hgty : ∀ n, (g n).ptype = n.ptype := by
      intro n
      by_cases hb : n.id = p
      · simp [hg, hb, hfty]
      · simp [hg, hb]
    have hgch : ∀ n, (g n).childrenIDs = n.childrenIDs := by
      intro n
      by_cases hb : n.id = p
      · simp [hg, hb, hfch]
      · simp [hg, hb]
    have hgset : ∀ n, spec.set (g n) 0 = spec.set n 0 := by
      intro n
      by_cases hb : n.id = p
      · simp [hg, hb, hfset]
      · simp [hg, hb]
    have hgne : ∀ n : Node, n.id ≠ p → g n = n := by
      intro n hne
      simp [hg, hne]
    have hstep : passStep spec ns p = ns.map g := by
      rw [passStep_char spec hfind]
      rfl
    set m1 : List Node := ns.map g with hm1
    have hnd1 : (ids m1).Nodup := by
      rw [hm1, ids_map_of_id_eq g hgid]
      exact hnd
    have hids1 : ids m1 = ids ns := ids_map_of_id_eq g hgid ns
    have hdeep1 : ∀ n ∈ m1, ∀ c ∈ n.childrenIDs, n.id.length < c.length := by
      intro n hn c hc
      rcases List.mem_map.mp hn with ⟨a, ha, rfl⟩
      rw [hgid]
      rw [hgch] at hc
      exact hdeep a ha c hc
    have H2 := ih m1 hnd1 (List.nodup_cons.mp htodoND).2
      (fun q hq => hids1 ▸ hmem q (List.mem_cons_of_mem _ hq)) htailsort hdeep1
    have hfold : (p :: tail).foldl (passStep spec) ns
        = tail.foldl (passStep spec) m1 := by
      rw [List.foldl_cons, hstep]
    rw [hfold]
    set FIN : List Node := tail.foldl (passStep spec) m1 with hFIN
    -- index-wise composition
    have hlen1 : ns.length = m1.length := (List.length_map _ _).symm
    have hlen2 : m1.length = FIN.length := H2.length_eq
    rw [List.forall₂_iff_get]
    refine ⟨hlen1.trans hlen2, ?_⟩
    intro i h1 hFin
    have h1m : i < m1.length := hlen1 ▸ h1
    have hrel := (List.forall₂_iff_get.mp H2).2 i h1m hFin
    set a : Node := ns.get ⟨i, h1⟩ with ha
    have hamem : a ∈ ns := by
      rw [ha]
      exact List.get_mem ns i h1
    have hmid : m1.get ⟨i, h1m⟩ = g a := by
      simp [hm1, ha, List.get_eq_getElem, List.getElem_map]
    rw [hmid] at hrel
    set b : Node := FIN.get ⟨i, hFin⟩ with hb
    obtain ⟨r1, r2, r3, r4, r5, r6, r7⟩ := hrel
    -- whether this index is the node processed at this step
    by_cases hap : a.id = p
    · -- the processed node: n0 = a
      have hsame : n0 = a := by
        have := findNode_eq_self hnd hamem
        rw [hap] at this
        rw [hfind] at this
        exact Option.some.inj this
      have hga : g a = f a := by
        simp [hg, hap]
      have hmidtail : (g a).id ∉ tail := by
        rw [hgid]
        rw [hap]
        exact hptail
      have hba : b = g a := r5 hmidtail
      refine ⟨?_, ?_, ?_, ?_, ?_, ?_, ?_⟩
      · rw [hba, hgid]
      · rw [hba, hgty]
      · rw [hba, hgch]
      · rw [hba, hgset]
      · intro hnot
        exact absurd (hap ▸ List.mem_cons_self p tail) hnot
      · intro _ hfile
        have hbf : (n0.ptype == NodeType.file) = true := by
          rw [hsame, hfile]
          rfl
        rw [hba, hga, hf]
        simp [hbf]
      · intro _ hdir
        have hbf : (n0.ptype == NodeType.file) = false := by
          rw [hsame, hdir]
          rfl
        have hgaval : g a = spec.set a (dirSum spec ns a.childrenIDs) := by
          rw [hga, hf]
          simp [hbf]
        rw [hba, hgaval, hget, hch]
        -- dirSum over ns equals dirSum over FIN for a's children
        refine (dirSum_congr spec ?_).symm
        intro c hc
        have hcdeep : p.length < c.length := by
          have := hdeep a hamem c hc
          rw [hap] at this
          exact this
        have hcp : c ≠ p := by
          intro hcp
          rw [hcp] at hcdeep
          exact Nat.lt_irrefl _ hcdeep
        have hctail : c ∉ tail := by
          intro hct
          exact Nat.not_le.mpr hcdeep (htailbound c hct)
        have hstep1 : findNode m1 c = findNode ns c := by
          rw [hm1, findNode_map g hgid]
          cases hfc : findNode ns c with
          | none => rfl
          | some nc =>
            have hncid : nc.id = c := findNode_some_id hfc
            have : g nc = nc := hgne nc (by rw [hncid]; exact hcp)
            simp [this]
        have hstep2 : findNode FIN c = findNode m1 c := by
          refine forall2_findNode_eq (H2.imp ?_)
          intro x y hxy
          obtain ⟨s1, _, _, _, s5, _, _⟩ := hxy
          refine ⟨s1, fun hxc => s5 ?_⟩
          rw [hxc]
          exact hctail
        rw [hstep2, hstep1]
    · -- untouched at this step
      have hga : g a = a := hgne a hap
      rw [hga] at r1 r2 r3 r4 r5 r6 r7
      refine ⟨r1, r2, r3, r4, ?_, ?_, ?_⟩
      · intro hnot
        refine r5 (fun hin => hnot (List.mem_cons_of_mem _ hin))
      · intro hin hfile
        rcases List.mem_cons.mp hin with h | h
        · exact absurd h hap
        · exact r6 h hfile
      · intro hin hdir
        rcases List.mem_cons.mp hin with h | h
        · exact absurd h hap
        · exact r7 h hdir

/-! ### Composition helpers for pointwise list relations -/

theorem forall2_trans {α : Type} {R S T : α → α → Prop}
    (h : ∀ a m b, R a m → S m b → T a b) :
    ∀ {l1 l2 l3 : List α}, List.Forall₂ R l1 l2 → List.Forall₂ S l2 l3 →
      List.Forall₂ T l1 l3 := by
  intro l1 l2 l3 h12 h23
  induction h12 generalizing l3 with
  | nil =>
    cases h23
    exact List.Forall₂.nil
  | @cons a m t1 t2 ham h' ih =>
    cases h23 with
    | cons hmb h23' =>
      exact List.Forall₂.cons (h _ _ _ ham hmb) (ih h23')

theorem forall2_map {α : Type} {R : α → α → Prop} (g : α → α)
    (h : ∀ a, R a (g a)) : ∀ l : List α, List.Forall₂ R l (l.map g) := by
  intro l
  induction l with
  | nil => exact List.Forall₂.nil
  | cons a t ih => exact List.Forall₂.cons (h a) ih

theorem forall2_ids_eq {ns ms : List Node}
    (h : List.Forall₂ (fun a b => b.id = a.id) ns ms) : ids ms = ids ns := by
  induction h with
  | nil => rfl
  | @cons a b l1 l2 hab h' ih =>
    show b.id :: ids l2 = a.id :: ids l1
    rw [hab, ih]

theorem forall2_findNode_rel {R : Node → Node → Prop}
    (hid : ∀ a b, R a b → b.id = a.id) {ns ms : List Node}
    (h : List.Forall₂ R ns ms) (c : List String) :
    (findNode ns c = none ∧ findNode ms c = none) ∨
      (∃ a b, findNode ns c = some a ∧ findNode ms c = some b ∧ R a b) := by
  induction h with
  | nil => exact Or.inl ⟨rfl, rfl⟩
  | @cons a b t1 t2 hab h' ih =>
    by_cases hac : a.id = c
    · refine Or.inr ⟨a, b, ?_, ?_, hab⟩
      · simp [findNode, List.find?, hac]
      · simp [findNode, List.find?, hid a b hab, hac]
    · have h1 : (a.id == c) = false := by simp [hac]
      have h2 : (b.id == c) = false := by simp [hid a b hab, hac]
      simpa [findNode, List.find?, h1, h2] using ih

theorem dirSum_congr_rel (spec : PassSpec) {ns ms : List Node}
    {R : Node → Node → Prop} (hid : ∀ a b, R a b → b.id = a.id)
    (hcon : ∀ a b, R a b → spec.childContrib b = spec.childContrib a)
    (h : List.Forall₂ R ns ms) :
    ∀ cs : List (List String), dirSum spec ms cs = dirSum spec ns cs := by
  intro cs
  induction cs with
  | nil => rfl
  | cons c rest ih =>
    rcases forall2_findNode_rel hid h c with ⟨h1, h2⟩ | ⟨a, b, h1, h2, hab⟩
    · simp [dirSum, h1, h2, ih]
    · simp [dirSum, h1, h2, hcon a b hab, ih]

theorem zeroTimeNano_ne : zeroTimeNano ≠ 0 := by decide

theorem timeFrom_ne (v : Int) : timeFrom v ≠ 0 := by
  unfold timeFrom
  by_cases h : v = 0
  · rw [if_pos h]
    exact zeroTimeNano_ne
  · rw [if_neg h]
    exact h

theorem toNode_wf {e : CacheEntry} (he : EntryWF e) : NodeWF (toNode e) := by
  obtain ⟨h1, h2, h3, _⟩ := he
  refine ⟨h1, h2, ?_, timeFrom_ne e.modTime, rfl⟩
  intro hf
  exact h3 hf

theorem applyResults_rel :
    ∀ (js : List (List String × Int × Bool)) (ns : List Node),
      List.Forall₂ resultsRel ns (applyResults ns js) := by
  intro js
  induction js with
  | nil =>
    intro ns
    exact List.forall₂_same.mpr
      (fun a _ => ⟨rfl, rfl, rfl, rfl, rfl, rfl, rfl, rfl, rfl, rfl,
        Or.inl ⟨rfl, rfl⟩⟩)
  | cons j rest ih =>
    intro ns
    have hstep : List.Forall₂ resultsRel ns
        (if j.2.2 then
          updNode ns j.1
            (fun n => { n with sizeBytes := j.2.1, accumBytes := j.2.1 })
         else ns) := by
      by_cases hj : j.2.2 = true
      · rw [if_pos hj]
        refine forall2_map _ (fun a => ?_) ns
        by_cases hb : a.id = j.1
        · have hbt : (a.id == j.1) = true := by simp [hb]
          simp only [hbt, if_true]
          exact ⟨rfl, rfl, rfl, rfl, rfl, rfl, rfl, rfl, rfl, rfl, Or.inr rfl⟩
        · have hbf : (a.id == j.1) = false := by simp [hb]
          simp only [hbf, Bool.false_eq_true, if_false]
          exact ⟨rfl, rfl, rfl, rfl, rfl, rfl, rfl, rfl, rfl, rfl,
            Or.inl ⟨rfl, rfl⟩⟩
      · rw [if_neg hj]
        exact List.forall₂_same.mpr
          (fun a _ => ⟨rfl, rfl, rfl, rfl, rfl, rfl, rfl, rfl, rfl, rfl,
            Or.inl ⟨rfl, rfl⟩⟩)
    have htail := ih (if j.2.2 then
          updNode ns j.1
            (fun n => { n with sizeBytes := j.2.1, accumBytes := j.2.1 })
         else ns)
    have hcomp : ∀ a m b, resultsRel a m → resultsRel m b → resultsRel a b := by
      intro a m b h1 h2
      obtain ⟨a1, a2, a3, a4, a5, a6, a7, a8, a9, a10, a11⟩ := h1
      obtain ⟨b1, b2, b3, b4, b5, b6, b7, b8, b9, b10, b11⟩ := h2
      refine ⟨b1.trans a1, b2.trans a2, b3.trans a3, b4.trans a4,
        b5.trans a5, b6.trans a6, b7.trans a7, b8.trans a8, b9.trans a9,
        b10.trans a10, ?_⟩
      rcases b11 with ⟨be, bs⟩ | bfix
      · rcases a11 with ⟨ae, as2⟩ | afix
        · exact Or.inl ⟨be.trans ae, bs.trans as2⟩
        · exact Or.inr (be.trans (afix.trans bs.symm))
      · exact Or.inr bfix
    have : applyResults ns (j :: rest) = applyResults
        (if j.2.2 then
          updNode ns j.1
            (fun n => { n with sizeBytes := j.2.1, accumBytes := j.2.1 })
         else ns) rest := rfl
    rw [this]
    exact forall2_trans hcomp hstep htail

theorem forall2_mem_right {α : Type} {R : α → α → Prop} :
    ∀ {l1 l2 : List α}, List.Forall₂ R l1 l2 → ∀ b ∈ l2, ∃ a ∈ l1, R a b := by
  intro l1 l2 h
  induction h with
  | nil => intro b hb; cases hb
  | @cons a2 b2 t1 t2 hab h' ih =>
    intro b hb
    rcases List.mem_cons.mp hb with rfl | hb'
    · exact ⟨a2, List.mem_cons_self _ _, hab⟩
    · rcases ih b hb' with ⟨a, ha, har⟩
      exact ⟨a, List.mem_cons_of_mem _ ha, har⟩

theorem hierRel_refl (ms : List Node) (a : Node) : hierRel ms a a :=
  ⟨rfl, rfl, rfl, rfl, rfl, rfl, rfl, rfl, rfl, rfl, fun c hc => Or.inl hc⟩

theorem hierRel_mono {ms ms' : List Node} (hsub : ∀ m ∈ ms, m ∈ ms')
    {a b : Node} (h : hierRel ms a b) : hierRel ms' a b := by
  obtain ⟨h1, h2, h3, h4, h5, h6, h7, h8, h9, h10, h11⟩ := h
  refine ⟨h1, h2, h3, h4, h5, h6, h7, h8, h9, h10, fun c hc => ?_⟩
  rcases h11 c hc with h | ⟨m, hm, hp, hc2⟩
  · exact Or.inl h
  · exact Or.inr ⟨m, hsub m hm, hp, hc2⟩

theorem hierRel_trans {ms : List Node} {a m b : Node}
    (h1 : hierRel ms a m) (h2 : hierRel ms m b) : hierRel ms a b := by
  obtain ⟨a1, a2, a3, a4, a5, a6, a7, a8, a9, a10, a11⟩ := h1
  obtain ⟨b1, b2, b3, b4, b5, b6, b7, b8, b9, b10, b11⟩ := h2
  refine ⟨b1.trans a1, b2.trans a2, b3.trans a3, b4.trans a4, b5.trans a5,
    b6.trans a6, b7.trans a7, b8.trans a8, b9.trans a9, b10.trans a10,
    fun c hc => ?_⟩
  rcases b11 c hc with h | ⟨m', hm', hp, hc2⟩
  · rcases a11 c h with h' | ⟨m', hm', hp, hc2⟩
    · exact Or.inl h'
    · exact Or.inr ⟨m', hm', hp, hc2⟩
  · exact Or.inr ⟨m', hm', a1 ▸ hp, hc2⟩

theorem hierarchyStep_rel (ms : List Node) (m : Node) (hm : m ∈ ms)
    (acc : List Node) :
    List.Forall₂ (hierRel ms) acc (hierarchyStep acc m) := by
  unfold hierarchyStep
  cases hpid : m.parentID with
  | none =>
    dsimp only
    exact List.forall₂_same.mpr (fun a _ => hierRel_refl ms a)
  | some q =>
    dsimp only
    cases hfq : findNode acc q with
    | none =>
      dsimp only
      exact List.forall₂_same.mpr (fun a _ => hierRel_refl ms a)
    | some n1 =>
      dsimp only
      refine forall2_map _ (fun a => ?_) acc
      by_cases hb : a.id = q
      · have hbt : (a.id == q) = true := by simp [hb]
        simp only [hbt, if_true]
        refine ⟨rfl, rfl, rfl, rfl, rfl, rfl, rfl, rfl, rfl, rfl,
          fun c hc => ?_⟩
        rcases List.mem_append.mp hc with h | h
        · exact Or.inl h
        · have : c = m.id := by simpa using h
          exact Or.inr ⟨m, hm, by rw [hpid, hb], this⟩
      · have hbf : (a.id == q) = false := by simp [hb]
        simp only [hbf, Bool.false_eq_true, if_false]
        exact hierRel_refl ms a

theorem hierarchyFold_rel :
    ∀ (ms sub : List Node), (∀ m ∈ sub, m ∈ ms) →
      ∀ acc : List Node,
        List.Forall₂ (hierRel ms) acc (sub.foldl hierarchyStep acc) := by
  intro ms sub
  induction sub with
  | nil =>
    intro _ acc
    exact List.forall₂_same.mpr (fun a _ => hierRel_refl ms a)
  | cons m rest ih =>
    intro hsub acc
    have hstep := hierarchyStep_rel ms m (hsub m (List.mem_cons_self _ _)) acc
    have htail := ih (fun x hx => hsub x (List.mem_cons_of_mem _ hx))
      (hierarchyStep acc m)
    rw [List.foldl_cons]
    exact forall2_trans
      (fun (a mm b : Node) (h1 : hierRel ms a mm) (h2 : hierRel ms mm b) =>
        hierRel_trans h1 h2) hstep htail

theorem applyHierarchy_rel (ns : List Node) :
    List.Forall₂ (hierRel ns) ns (applyHierarchy ns) :=
  hierarchyFold_rel ns ns (fun m hm => hm) ns

/-- After `applyHierarchy`, every node still satisfies `NodeWF`: the
appended children are exactly the nodes naming it as parent, which are
strictly deeper. -/
theorem applyHierarchy_wf {ns : List Node} (hwf : ∀ n ∈ ns, NodeWF n) :
    ∀ b ∈ applyHierarchy ns, NodeWF b := by
  intro b hb
  rcases forall2_mem_right (applyHierarchy_rel ns) b hb with ⟨a, ha, hrel⟩
  obtain ⟨h1, h2, h3, h4, h5, h6, h7, h8, h9, h10, h11⟩ := hrel
  obtain ⟨w1, w2, w3, w4, w5⟩ := hwf a ha
  refine ⟨?_, ?_, ?_, ?_, ?_⟩
  · intro c hc
    rcases h11 c hc with h | ⟨m, hm, hp, rfl⟩
    · rw [h1]
      exact w1 c h
    · obtain ⟨_, m2, _, _, _⟩ := hwf m hm
      rw [h1]
      exact m2 a.id hp
  · intro q hq
    rw [h1]
    exact w2 q (h6 ▸ hq)
  · intro hf
    rw [h4, h3]
    exact w3 (h2 ▸ hf)
  · rw [h5]
    exact w4
  · rw [h7, h2, w5]

theorem applyHierarchy_ids (ns : List Node) :
    ids (applyHierarchy ns) = ids ns :=
  forall2_ids_eq ((applyHierarchy_rel ns).imp (fun {a b} hr => hr.1))

theorem applyPass_props (spec : PassSpec)
    (hget : ∀ k v, spec.get (spec.set k v) = v)
    (hid : ∀ k v, (spec.set k v).id = k.id)
    (hty : ∀ k v, (spec.set k v).ptype = k.ptype)
    (hch : ∀ k v, (spec.set k v).childrenIDs = k.childrenIDs)
    (hss : ∀ k v w, spec.set (spec.set k v) w = spec.set k w)
    (ns : List Node) (hnd : (ids ns).Nodup)
    (hdeep : ∀ n ∈ ns, ∀ c ∈ n.childrenIDs, n.id.length < c.length) :
    List.Forall₂ (passOut spec (applyPass spec ns)) ns (applyPass spec ns) := by
  have hperm : (sortIds ns).Perm (ids ns) := List.perm_insertionSort _ _
  have h1 : (sortIds ns).Nodup := hperm.nodup_iff.mpr hnd
  have h2 : ∀ p ∈ sortIds ns, p ∈ ids ns := fun p hp => hperm.mem_iff.mp hp
  have h3 : List.Sorted deeperEq (sortIds ns) := List.sorted_insertionSort _ _
  have H := passFold spec hget hid hty hch hss (sortIds ns) ns hnd h1 h2 h3 hdeep
  rw [List.forall₂_iff_get] at H
  obtain ⟨hlen, hidx⟩ := H
  rw [List.forall₂_iff_get]
  refine ⟨hlen, ?_⟩
  intro i h1i h2i
  have hr := hidx i h1i h2i
  obtain ⟨r1, r2, r3, r4, r5, r6, r7⟩ := hr
  have hmem : (ns.get ⟨i, h1i⟩).id ∈ sortIds ns := by
    apply hperm.mem_iff.mpr
    exact mem_ids_iff.mpr ⟨ns.get ⟨i, h1i⟩, List.get_mem ns i h1i, rfl⟩
  exact ⟨r1, r2, r3, r4, r6 hmem, r7 hmem⟩

/-- Frame facts recovered from the `set _ 0`-equality of the accumulation
pass: every field other than `accumBytes` is preserved. -/
theorem accumSet_frame {a b : Node}
    (h : accumSpec.set b 0 = accumSpec.set a 0) :
    b.sizeBytes = a.sizeBytes ∧ b.modTime = a.modTime ∧
    b.parentID = a.parentID ∧ b.fileCount = a.fileCount ∧
    b.dirCount = a.dirCount ∧ b.childCount = a.childCount ∧
    b.scanned = a.scanned ∧ b.name = a.name := by
  have g1 := congrArg Node.sizeBytes h
  have g2 := congrArg Node.modTime h
  have g3 := congrArg Node.parentID h
  have g4 := congrArg Node.fileCount h
  have g5 := congrArg Node.dirCount h
  have g6 := congrArg Node.childCount h
  have g7 := congrArg Node.scanned h
  have g8 := congrArg Node.name h
  exact ⟨g1, g2, g3, g4, g5, g6, g7, g8⟩

theorem fileCountSet_frame {a b : Node}
    (h : fileCountSpec.set b 0 = fileCountSpec.set a 0) :
    b.sizeBytes = a.sizeBytes ∧ b.accumBytes = a.accumBytes ∧
    b.modTime = a.modTime ∧ b.parentID = a.parentID ∧
    b.dirCount = a.dirCount ∧ b.childCount = a.childCount ∧
    b.scanned = a.scanned ∧ b.name = a.name := by
  have g1 := congrArg Node.sizeBytes h
  have g2 := congrArg Node.accumBytes h
  have g3 := congrArg Node.modTime h
  have g4 := congrArg Node.parentID h
  have g5 := congrArg Node.dirCount h
  have g6 := congrArg Node.childCount h
  have g7 := congrArg Node.scanned h
  have g8 := congrArg Node.name h
  exact ⟨g1, g2, g3, g4, g5, g6, g7, g8⟩

theorem dirCountSet_frame {a b : Node}
    (h : dirCountSpec.set b 0 = dirCountSpec.set a 0) :
    b.sizeBytes = a.sizeBytes ∧ b.accumBytes = a.accumBytes ∧
    b.modTime = a.modTime ∧ b.parentID = a.parentID ∧
    b.fileCount = a.fileCount ∧ b.childCount = a.childCount ∧
    b.scanned = a.scanned ∧ b.name = a.name := by
  have g1 := congrArg Node.sizeBytes h
  have g2 := congrArg Node.accumBytes h
  have g3 := congrArg Node.modTime h
  have g4 := congrArg Node.parentID h
  have g5 := congrArg Node.fileCount h
  have g6 := congrArg Node.childCount h
  have g7 := congrArg Node.scanned h
  have g8 := congrArg Node.name h
  exact ⟨g1, g2, g3, g4, g5, g6, g7, g8⟩

/-! ### The three value passes chained -/

/-- The aggregate invariants of a completed scan index: after the three
value passes, files carry their own size, `FileCount = 1`, `DirCount = 0`,
and directories carry exactly the loop-sums of the children listed in
their `ChildrenIDs` (computed over the final map). -/
theorem passes_invariants (ns : List Node)
    (hnd : (ids ns).Nodup)
    (hwf : ∀ n ∈ ns, NodeWF n) :
    (∀ n ∈ applyDirCounts (applyFileCounts (applyAccumulation ns)),
      (n.ptype = .file →
        n.accumBytes = n.sizeBytes ∧ n.fileCount = 1 ∧ n.dirCount = 0) ∧
      (n.ptype = .dir →
        n.accumBytes = dirSum accumSpec
            (applyDirCounts (applyFileCounts (applyAccumulation ns)))
            n.childrenIDs ∧
        n.fileCount = dirSum fileCountSpec
            (applyDirCounts (applyFileCounts (applyAccumulation ns)))
            n.childrenIDs ∧
        n.dirCount = dirSum dirCountSpec
            (applyDirCounts (applyFileCounts (applyAccumulation ns)))
            n.childrenIDs)) := by
  have hdeep : ∀ n ∈ ns, ∀ c ∈ n.childrenIDs, n.id.length < c.length :=
    fun n hn => (hwf n hn).1
  -- pass 1: accumulation
  have A := applyPass_props accumSpec (fun k v => rfl) (fun k v => rfl)
    (fun k v => rfl) (fun k v => rfl) (fun k v w => rfl) ns hnd hdeep
  set N1 := applyPass accumSpec ns with hN1
  have hids1 : ids N1 = ids ns := forall2_ids_eq (A.imp (fun {a b} hr => hr.1))
  have hnd1 : (ids N1).Nodup := hids1 ▸ hnd
  have hdeep1 : ∀ n ∈ N1, ∀ c ∈ n.childrenIDs, n.id.length < c.length := by
    intro n hn c hc
    rcases forall2_mem_right A n hn with ⟨a, ha, hrel⟩
    rw [hrel.1]
    exact hdeep a ha c (hrel.2.2.1 ▸ hc)
  -- pass 2: file counts
  have B := applyPass_props fileCountSpec (fun k v => rfl) (fun k v => rfl)
    (fun k v => rfl) (fun k v => rfl) (fun k v w => rfl) N1 hnd1 hdeep1
  set N2 := applyPass fileCountSpec N1 with hN2
  have hids2 : ids N2 = ids N1 := forall2_ids_eq (B.imp (fun {a b} hr => hr.1))
  have hnd2 : (ids N2).Nodup := hids2 ▸ hnd1
  have hdeep2 : ∀ n ∈ N2, ∀ c ∈ n.childrenIDs, n.id.length < c.length := by
    intro n hn c hc
    rcases forall2_mem_right B n hn with ⟨a, ha, hrel⟩
    rw [hrel.1]
    exact hdeep1 a ha c (hrel.2.2.1 ▸ hc)
  -- pass 3: dir counts
  have C := applyPass_props dirCountSpec (fun k v => rfl) (fun k v => rfl)
    (fun k v => rfl) (fun k v => rfl) (fun k v w => rfl) N2 hnd2 hdeep2
  set N3 := applyPass dirCountSpec N2 with hN3
  -- accumulation facts on N1
  have accFile1 : ∀ p ∈ N1, p.ptype = .file →
      p.accumBytes = p.sizeBytes := by
    intro p hp hf
    rcases forall2_mem_right A p hp with ⟨a, ha, hrel⟩
    obtain ⟨r1, r2, r3, r4, r5, r6⟩ := hrel
    have hb := r5 (r2 ▸ hf)
    obtain ⟨w1, w2, w3, w4, w5⟩ := hwf a ha
    rcases w3 (r2 ▸ hf) with he | he
    · rw [hb]
      show (if a.accumBytes = 0 then a.sizeBytes else a.accumBytes) = a.sizeBytes
      by_cases h0 : a.accumBytes = 0
      · rw [if_pos h0]
      · rw [if_neg h0]
        exact he
    · rw [hb]
      show (if a.accumBytes = 0 then a.sizeBytes else a.accumBytes) = a.sizeBytes
      rw [if_pos he]
  have accDir1 : ∀ p ∈ N1, p.ptype = .dir →
      p.accumBytes = dirSum accumSpec N1 p.childrenIDs := by
    intro p hp hd
    rcases forall2_mem_right A p hp with ⟨a, ha, hrel⟩
    exact hrel.2.2.2.2.2 (hrel.2.1 ▸ hd)
  -- transport of accumulation facts across pass 2
  have keep2 : ∀ a b, passOut fileCountSpec N2 a b →
      b.id = a.id ∧ b.accumBytes = a.accumBytes ∧ b.sizeBytes = a.sizeBytes ∧
      b.ptype = a.ptype ∧ b.childrenIDs = a.childrenIDs := by
    intro a b hr
    obtain ⟨r1, r2, r3, r4, _, _⟩ := hr
    obtain ⟨f1, f2, _, _, _, _, _, _⟩ := fileCountSet_frame r4
    exact ⟨r1, f2, f1, r2, r3⟩
  have accFile2 : ∀ p ∈ N2, p.ptype = .file →
      p.accumBytes = p.sizeBytes := by
    intro p hp hf
    rcases forall2_mem_right B p hp with ⟨a, ha, hrel⟩
    obtain ⟨r1, hacc, hsz, hty2, hch2⟩ := keep2 a p hrel
    rw [hacc, hsz]
    exact accFile1 a ha (hty2 ▸ hf)
  have accDir2 : ∀ p ∈ N2, p.ptype = .dir →
      p.accumBytes = dirSum accumSpec N2 p.childrenIDs := by
    intro p hp hd
    rcases forall2_mem_right B p hp with ⟨a, ha, hrel⟩
    obtain ⟨r1, hacc, hsz, hty2, hch2⟩ := keep2 a p hrel
    have := accDir1 a ha (hty2 ▸ hd)
    rw [hacc, hch2, this]
    exact (dirSum_congr_rel accumSpec (fun x y hr => (keep2 x y hr).1)
      (fun x y hr => (keep2 x y hr).2.1) B a.childrenIDs).symm
  -- file-count facts on N2
  have fcFile2 : ∀ p ∈ N2, p.ptype = .file → p.fileCount = 1 := by
    intro p hp hf
    rcases forall2_mem_right B p hp with ⟨a, ha, hrel⟩
    have hb := hrel.2.2.2.2.1 (hrel.2.1 ▸ hf)
    rw [hb]
    rfl
  have fcDir2 : ∀ p ∈ N2, p.ptype = .dir →
      p.fileCount = dirSum fileCountSpec N2 p.childrenIDs := by
    intro p hp hd
    rcases forall2_mem_right B p hp with ⟨a, ha, hrel⟩
    exact hrel.2.2.2.2.2 (hrel.2.1 ▸ hd)
  -- transport across pass 3
  have keep3 : ∀ a b, passOut dirCountSpec N3 a b →
      b.id = a.id ∧ b.accumBytes = a.accumBytes ∧ b.sizeBytes = a.sizeBytes ∧
      b.ptype = a.ptype ∧ b.childrenIDs = a.childrenIDs ∧
      b.fileCount = a.fileCount := by
    intro a b hr
    obtain ⟨r1, r2, r3, r4, _, _⟩ := hr
    obtain ⟨f1, f2, _, _, f5, _, _, _⟩ := dirCountSet_frame r4
    exact ⟨r1, f2, f1, r2, r3, f5⟩
  have hgoal : applyDirCounts (applyFileCounts (applyAccumulation ns)) = N3 :=
    rfl
  rw [hgoal]
  intro n hn
  rcases forall2_mem_right C n hn with ⟨a, ha, hrel⟩
  obtain ⟨k1, k2, k3, k4, k5, k6⟩ := keep3 a n hrel
  constructor
  · intro hf
    refine ⟨?_, ?_, ?_⟩
    · rw [k2, k3]
      exact accFile2 a ha (k4 ▸ hf)
    · rw [k6]
      exact fcFile2 a ha (k4 ▸ hf)
    · have hb := hrel.2.2.2.2.1 (k4 ▸ hf)
      rw [hb]
      rfl
  · intro hd
    have htrans : ∀ cs, dirSum accumSpec N3 cs = dirSum accumSpec N2 cs :=
      fun cs => dirSum_congr_rel accumSpec (fun x y hr => (keep3 x y hr).1)
        (fun x y hr => (keep3 x y hr).2.1) C cs
    have htransF : ∀ cs, dirSum fileCountSpec N3 cs
        = dirSum fileCountSpec N2 cs :=
      fun cs => dirSum_congr_rel fileCountSpec
        (fun x y hr => (keep3 x y hr).1)
        (fun x y hr => (keep3 x y hr).2.2.2.2.2) C cs
    refine ⟨?_, ?_, ?_⟩
    · rw [k2, k5, htrans]
      exact accDir2 a ha (k4 ▸ hd)
    · rw [k6, k5, htransF]
      exact fcDir2 a ha (k4 ▸ hd)
    · have := hrel.2.2.2.2.2 (k4 ▸ hd)
      exact this

theorem bumpVisit_nodes (w : WalkSt) : (bumpVisit w).nodes = w.nodes := rfl

theorem bumpVisit_jobs (w : WalkSt) : (bumpVisit w).jobs = w.jobs := rfl

theorem bumpVisit_events (w : WalkSt) :
    ∀ e ∈ (bumpVisit w).events, e ∈ w.events ∨ e.kind = .nonBlocking := by
  intro e he
  have : e ∈ w.events ++
      (if (w.count + 1) % 50 == 0 then
        [(⟨.nonBlocking, false⟩ : SendEvent)] else []) := he
  rcases List.mem_append.mp this with h | h
  · exact Or.inl h
  · right
    by_cases hc : ((w.count + 1) % 50 == 0) = true
    · rw [if_pos hc] at h
      have : e = ⟨.nonBlocking, false⟩ := by simpa using h
      rw [this]
    · rw [if_neg hc] at h
      cases h

theorem pollBudget_fields {w w1 : WalkSt} (h : pollBudget w = some w1) :
    w1.nodes = w.nodes ∧ w1.jobs = w.jobs ∧ w1.events = w.events ∧
    w1.count = w.count := by
  unfold pollBudget at h
  cases hb : w.budget with
  | none =>
    rw [hb] at h
    cases h
    exact ⟨rfl, rfl, rfl, rfl⟩
  | some k =>
    cases k with
    | zero =>
      rw [hb] at h
      cases h
    | succ k =>
      rw [hb] at h
      cases h
      exact ⟨rfl, rfl, rfl, rfl⟩

theorem mergeInto_mem {prior merged : List Node} {n : Node}
    (h : n ∈ mergeInto prior merged) : n ∈ prior ∨ n ∈ merged := by
  rcases List.mem_append.mp h with h | h
  · exact Or.inl (List.mem_of_mem_filter h)
  · exact Or.inr h

theorem mergeInto_of_disjoint {prior merged : List Node}
    (h : ∀ n ∈ prior, ∀ m ∈ merged, n.id ≠ m.id) :
    mergeInto prior merged = prior ++ merged := by
  unfold mergeInto
  congr 1
  apply List.filter_eq_self.mpr
  intro n hn
  simp only [Bool.not_eq_true']
  rw [List.any_eq_false]
  intro m hm
  simp only [beq_iff_eq]
  exact fun he => h n hn m hm he.symm

theorem spliceNodes_mem {ce : Option (List CacheEntry)} {root : List String}
    {n : Node} (h : n ∈ spliceNodes ce root) :
    ∃ es e, ce = some es ∧ e ∈ es ∧ segWithin root e.path = true ∧
      n = toNode e := by
  cases ce with
  | none => cases h
  | some es =>
    simp only [spliceNodes] at h
    rcases List.mem_map.mp h with ⟨e, he, rfl⟩
    exact ⟨es, e, rfl, (List.mem_filter.mp he).1, (List.mem_filter.mp he).2,
      rfl⟩

theorem segWithin_prefix {root p : List String}
    (h : segWithin root p = true) : root <+: p :=
  List.isPrefixOf_iff_prefix.mp h

theorem spliceNodes_ids (ce : Option (List CacheEntry)) (root : List String)
    (hcwf : CacheWF ce) : (ids (spliceNodes ce root)).Nodup := by
  cases ce with
  | none => exact List.nodup_nil
  | some es =>
    have hnd : (es.map (fun e => e.path)).Nodup := hcwf.2
    have heq : ids (spliceNodes (some es) root)
        = (es.filter (fun e => segWithin root e.path)).map
            (fun e => e.path) := by
      unfold spliceNodes ids
      rw [List.map_map]
      rfl
    rw [heq]
    exact List.Nodup.sublist
      ((List.filter_sublist es).map (fun e => e.path)) hnd

theorem childSuffix_inj {path : List String} {a b : String} {x : List String}
    (h1 : path ++ [a] <+: x) (h2 : path ++ [b] <+: x) : a = b := by
  rcases List.prefix_or_prefix_of_prefix h1 h2 with h | h
  · have := h.eq_of_length (by simp)
    simpa using this
  · have := h.eq_of_length (by simp)
    simpa using this.symm

theorem path_ne_nil_of_proper {rootP path : List String}
    (hroot : rootP <+: path) (hne : ¬ (path == rootP) = true) : path ≠ [] := by
  intro hnil
  rw [hnil] at hroot
  have : rootP = [] := List.prefix_nil.mp hroot
  rw [hnil, this] at hne
  simp at hne

theorem mkFileNode_wf (cx : WalkCtx) (path : List String) (nm : String)
    (hroot : cx.rootP <+: path) : NodeWF (mkFileNode cx path nm) := by
  refine ⟨?_, ?_, ?_, ?_, ?_⟩
  · intro c hc
    cases hc
  · intro q hq
    simp only [mkFileNode, parentOf] at hq
    by_cases hb : (path == cx.rootP) = true
    · rw [if_pos hb] at hq
      cases hq
    · rw [if_neg hb] at hq
      have hne : path ≠ [] := path_ne_nil_of_proper hroot hb
      cases hq
      show (path.dropLast).length < (mkFileNode cx path nm).id.length
      show (path.dropLast).length < path.length
      rw [List.length_dropLast]
      exact Nat.sub_lt (List.length_pos.mpr hne) Nat.one_pos
  · intro _
    exact Or.inr rfl
  · exact zeroTimeNano_ne
  · rfl

theorem mkDirNode_wf (cx : WalkCtx) (path : List String) (nm : String)
    (hroot : cx.rootP <+: path) : NodeWF (mkDirNode cx path nm) := by
  refine ⟨?_, ?_, ?_, ?_, ?_⟩
  · intro c hc
    cases hc
  · intro q hq
    simp only [mkDirNode, parentOf] at hq
    by_cases hb : (path == cx.rootP) = true
    · rw [if_pos hb] at hq
      cases hq
    · rw [if_neg hb] at hq
      have hne : path ≠ [] := path_ne_nil_of_proper hroot hb
      cases hq
      show (path.dropLast).length < path.length
      rw [List.length_dropLast]
      exact Nat.sub_lt (List.length_pos.mpr hne) Nat.one_pos
  · intro hf
    cases hf
  · exact zeroTimeNano_ne
  · rfl

theorem ids_append_fresh {ws : List Node} {n : Node}
    (hnd : (ids ws).Nodup) (hfresh : ∀ m ∈ ws, m.id ≠ n.id) :
    (ids (ws ++ [n])).Nodup := by
  have : ids (ws ++ [n]) = ids ws ++ [n.id] := by
    simp [ids]
  rw [this]
  have hperm : (ids ws ++ [n.id]).Perm (n.id :: ids ws) :=
    List.perm_append_singleton _ _
  refine hperm.nodup_iff.mpr (List.nodup_cons.mpr ⟨?_, hnd⟩)
  intro hmem
  rcases mem_ids_iff.mp hmem with ⟨m, hm, hid⟩
  exact hfresh m hm hid

theorem nameOf_mem_cons (c : FSTree) (rest : List FSTree) :
    c.nameOf ∈ (c :: rest).map FSTree.nameOf := by
  simp only [List.map_cons]
  exact List.mem_cons_self _ _

theorem nameOf_mem_cons_of {nm : String} (c : FSTree) {rest : List FSTree}
    (h : nm ∈ rest.map FSTree.nameOf) :
    nm ∈ (c :: rest).map FSTree.nameOf := by
  simp only [List.map_cons]
  exact List.mem_cons_of_mem _ h

theorem nameOf_nodup_tail {c : FSTree} {rest : List FSTree}
    (h : ((c :: rest).map FSTree.nameOf).Nodup) :
    (rest.map FSTree.nameOf).Nodup := by
  simp only [List.map_cons] at h
  exact (List.nodup_cons.mp h).2

theorem nameOf_nodup_head {c : FSTree} {rest : List FSTree}
    (h : ((c :: rest).map FSTree.nameOf).Nodup) :
    c.nameOf ∉ rest.map FSTree.nameOf := by
  simp only [List.map_cons] at h
  exact (List.nodup_cons.mp h).1

mutual

theorem walkTree_sound (cx : WalkCtx) (path : List String) (t : FSTree)
    (w res : WalkSt)
    (hroot : cx.rootP <+: path)
    (htwf : TreeWF t)
    (hcwf : CacheWF cx.cacheEntries)
    (hinv : WInv cx w)
    (hfresh : FreshT path w)
    (heq : walkTree cx path t w = .done res) : PostT cx path w res := by
  cases t with
  | file nm sz ok =>
    simp only [walkTree] at heq
    injection heq with h
    subst h
    refine ⟨?_, ?_, ?_, ?_, ⟨?_, ?_, ?_, ?_⟩, ?_⟩
    · intro n hn
      rw [bumpVisit_nodes] at hn
      rcases List.mem_append.mp hn with h | h
      · exact Or.inl h
      · right
        have : n = mkFileNode cx path nm := by simpa using h
        rw [this]
        exact List.prefix_refl path
    · intro n hn
      rw [bumpVisit_nodes]
      exact List.mem_append.mpr (Or.inl hn)
    · intro j hj
      rw [bumpVisit_jobs] at hj
      rcases List.mem_append.mp hj with h | h
      · exact Or.inl h
      · right
        have : j = (path, sz, ok) := by simpa using h
        rw [this]
        exact List.prefix_refl path
    · intro j hj
      rw [bumpVisit_jobs]
      exact List.mem_append.mpr (Or.inl hj)
    · rw [bumpVisit_nodes]
      refine ids_append_fresh hinv.ndN ?_
      intro m hm hid
      refine hfresh.freshN m hm ?_
      exact hid ▸ List.prefix_refl path
    · intro n hn
      rw [bumpVisit_nodes] at hn
      rcases List.mem_append.mp hn with h | h
      · exact hinv.wfN n h
      · have : n = mkFileNode cx path nm := by simpa using h
        rw [this]
        exact mkFileNode_wf cx path nm hroot
    · intro n hn
      rw [bumpVisit_nodes] at hn
      rcases List.mem_append.mp hn with h | h
      · exact hinv.rootN n h
      · have : n = mkFileNode cx path nm := by simpa using h
        rw [this]
        exact hroot
    · rw [bumpVisit_jobs]
      have : (((w.jobs ++ [(path, sz, ok)]).map jobFst))
          = w.jobs.map jobFst ++ [path] := by
        simp [jobFst]
      rw [this]
      have hperm : (w.jobs.map jobFst ++ [path]).Perm
          (path :: w.jobs.map jobFst) := List.perm_append_singleton _ _
      refine hperm.nodup_iff.mpr (List.nodup_cons.mpr ⟨?_, hinv.ndJ⟩)
      intro hmem
      rcases List.mem_map.mp hmem with ⟨j, hj, hid⟩
      refine hfresh.freshJ j hj ?_
      exact hid ▸ List.prefix_refl path
    · intro e he
      exact bumpVisit_events _ e he
  | dir nm mt cs =>
    simp only [walkTree] at heq
    by_cases hre : canReuseDirM cx path mt = true
    · rw [if_pos hre] at heq
      injection heq with h
      subst h
      have hmwf : ∀ m ∈ spliceNodes cx.cacheEntries path,
          NodeWF m ∧ path <+: m.id := by
        intro m hm
        rcases spliceNodes_mem hm with ⟨es, e, hce, hee, hseg, rfl⟩
        have hewf : EntryWF e := by
          rw [hce] at hcwf
          exact hcwf.1 e hee
        exact ⟨toNode_wf hewf, segWithin_prefix hseg⟩
      have hdisj : ∀ n ∈ w.nodes, ∀ m ∈ spliceNodes cx.cacheEntries path,
          n.id ≠ m.id := by
        intro n hn m hm hid
        refine hfresh.freshN n hn ?_
        rw [hid]
        exact (hmwf m hm).2
      have hmerge : mergeInto w.nodes (spliceNodes cx.cacheEntries path)
          = w.nodes ++ spliceNodes cx.cacheEntries path :=
        mergeInto_of_disjoint hdisj
      refine ⟨?_, ?_, ?_, ?_, ⟨?_, ?_, ?_, ?_⟩, ?_⟩
      · intro n hn
        rcases mergeInto_mem hn with h | h
        · exact Or.inl h
        · exact Or.inr (hmwf n h).2
      · intro n hn
        show n ∈ mergeInto w.nodes (spliceNodes cx.cacheEntries path)
        rw [hmerge]
        exact List.mem_append.mpr (Or.inl hn)
      · intro j hj
        exact Or.inl hj
      · intro j hj
        exact hj
      · show (ids (mergeInto w.nodes (spliceNodes cx.cacheEntries path))).Nodup
        rw [hmerge]
        have : ids (w.nodes ++ spliceNodes cx.cacheEntries path)
            = ids w.nodes ++ ids (spliceNodes cx.cacheEntries path) := by
          simp [ids]
        rw [this]
        refine List.Nodup.append hinv.ndN
          (spliceNodes_ids cx.cacheEntries path hcwf) ?_
        intro x hx1 hx2
        rcases mem_ids_iff.mp hx1 with ⟨n, hn, hid1⟩
        rcases mem_ids_iff.mp hx2 with ⟨m, hm, hid2⟩
        exact hdisj n hn m hm (hid1.trans hid2.symm)
      · intro n hn
        rcases mergeInto_mem hn with h | h
        · exact hinv.wfN n h
        · exact (hmwf n h).1
      · intro n hn
        rcases mergeInto_mem hn with h | h
        · exact hinv.rootN n h
        · exact hroot.trans (hmwf n h).2
      · exact hinv.ndJ
      · intro e he
        rcases List.mem_append.mp he with h | h
        · exact Or.inl h
        · right
          have : e = (⟨.nonBlocking, false⟩ : SendEvent) := by simpa using h
          rw [this]
    · rw [if_neg hre] at heq
      cases htwf with
      | dir _ _ _ hn hc =>
        have hinv1 : WInv cx (bumpVisit
            { w with nodes := w.nodes ++ [mkDirNode cx path nm] }) := by
          refine ⟨?_, ?_, ?_, ?_⟩
          · rw [bumpVisit_nodes]
            refine ids_append_fresh hinv.ndN ?_
            intro m hm hid
            refine hfresh.freshN m hm ?_
            rw [hid]
            exact List.prefix_refl _
          · intro n hn2
            rw [bumpVisit_nodes] at hn2
            rcases List.mem_append.mp hn2 with h | h
            · exact hinv.wfN n h
            · have : n = mkDirNode cx path nm := by simpa using h
              rw [this]
              exact mkDirNode_wf cx path nm hroot
          · intro n hn2
            rw [bumpVisit_nodes] at hn2
            rcases List.mem_append.mp hn2 with h | h
            · exact hinv.rootN n h
            · have : n = mkDirNode cx path nm := by simpa using h
              rw [this]
              exact hroot
          · rw [bumpVisit_jobs]
            exact hinv.ndJ
        have hfresh1 : FreshC path (cs.map FSTree.nameOf) (bumpVisit
            { w with nodes := w.nodes ++ [mkDirNode cx path nm] }) := by
          refine ⟨?_, ?_⟩
          · intro n hn2 nm2 hnm2 hpre
            rw [bumpVisit_nodes] at hn2
            rcases List.mem_append.mp hn2 with h | h
            · refine hfresh.freshN n h ?_
              exact (List.prefix_append path [nm2]).trans hpre
            · have hne : n = mkDirNode cx path nm := by simpa using h
              rw [hne] at hpre
              have hlen : (path ++ [nm2]).length ≤ path.length :=
                hpre.length_le
              simp at hlen
          · intro j hj nm2 hnm2 hpre
            rw [bumpVisit_jobs] at hj
            refine hfresh.freshJ j hj ?_
            exact (List.prefix_append path [nm2]).trans hpre
        have pc := walkChildren_sound cx path cs _ res hroot hn hc hcwf
          hinv1 hfresh1 heq
        refine ⟨?_, ?_, ?_, ?_, pc.inv, ?_⟩
        · intro n hn2
          rcases pc.newN n hn2 with h | ⟨nm2, hnm2, hpre⟩
          · rw [bumpVisit_nodes] at h
            rcases List.mem_append.mp h with h2 | h2
            · exact Or.inl h2
            · right
              have : n = mkDirNode cx path nm := by simpa using h2
              rw [this]
              exact List.prefix_refl path
          · exact Or.inr ((List.prefix_append path [nm2]).trans hpre)
        · intro n hn2
          refine pc.oldN n ?_
          rw [bumpVisit_nodes]
          exact List.mem_append.mpr (Or.inl hn2)
        · intro j hj
          rcases pc.newJ j hj with h | ⟨nm2, hnm2, hpre⟩
          · rw [bumpVisit_jobs] at h
            exact Or.inl h
          · exact Or.inr ((List.prefix_append path [nm2]).trans hpre)
        · intro j hj
          refine pc.oldJ j ?_
          rw [bumpVisit_jobs]
          exact hj
        · intro e he
          rcases pc.evs e he with h | h
          · exact bumpVisit_events _ e h
          · exact Or.inr h

theorem walkChildren_sound (cx : WalkCtx) (path : List String)
    (cs : List FSTree) (w res : WalkSt)
    (hroot : cx.rootP <+: path)
    (hnames : (cs.map FSTree.nameOf).Nodup)
    (htwf : ∀ c ∈ cs, TreeWF c)
    (hcwf : CacheWF cx.cacheEntries)
    (hinv : WInv cx w)
    (hfresh : FreshC path (cs.map FSTree.nameOf) w)
    (heq : walkChildren cx path cs w = .done res) :
    PostC cx path (cs.map FSTree.nameOf) w res := by
  cases cs with
  | nil =>
    simp only [walkChildren] at heq
    injection heq with h
    subst h
    exact ⟨fun n hn => Or.inl hn, fun n hn => hn, fun j hj => Or.inl hj,
      fun j hj => hj, hinv, fun e he => Or.inl he⟩
  | cons c rest =>
    simp only [walkChildren] at heq
    cases hpoll : pollBudget w with
    | none =>
      rw [hpoll] at heq
      dsimp only at heq
      cases heq
    | some w1 =>
      rw [hpoll] at heq
      dsimp only at heq
      obtain ⟨hw1n, hw1j, hw1e, _⟩ := pollBudget_fields hpoll
      have hinv1 : WInv cx w1 := by
        refine ⟨?_, ?_, ?_, ?_⟩
        · rw [hw1n]; exact hinv.ndN
        · rw [hw1n]; exact hinv.wfN
        · rw [hw1n]; exact hinv.rootN
        · rw [hw1j]; exact hinv.ndJ
      by_cases hskip : skipEntry cx (path ++ [c.nameOf]) c.nameOf = true
      · rw [if_pos hskip] at heq
        have hfresh1 : FreshC path (rest.map FSTree.nameOf) w1 := by
          refine ⟨?_, ?_⟩
          · intro n hn2 nm2 hnm2
            rw [hw1n] at hn2
            exact hfresh.freshN n hn2 nm2 (nameOf_mem_cons_of c hnm2)
          · intro j hj nm2 hnm2
            rw [hw1j] at hj
            exact hfresh.freshJ j hj nm2 (nameOf_mem_cons_of c hnm2)
        have pc := walkChildren_sound cx path rest w1 res hroot
          (nameOf_nodup_tail hnames)
          (fun x hx => htwf x (List.mem_cons_of_mem _ hx)) hcwf hinv1 hfresh1 heq
        refine ⟨?_, ?_, ?_, ?_, pc.inv, ?_⟩
        · intro n hn2
          rcases pc.newN n hn2 with h | ⟨nm2, hnm2, hpre⟩
          · rw [hw1n] at h
            exact Or.inl h
          · exact Or.inr ⟨nm2, nameOf_mem_cons_of c hnm2, hpre⟩
        · intro n hn2
          refine pc.oldN n ?_
          rw [hw1n]
          exact hn2
        · intro j hj
          rcases pc.newJ j hj with h | ⟨nm2, hnm2, hpre⟩
          · rw [hw1j] at h
            exact Or.inl h
          · exact Or.inr ⟨nm2, nameOf_mem_cons_of c hnm2, hpre⟩
        · intro j hj
          refine pc.oldJ j ?_
          rw [hw1j]
          exact hj
        · intro e he
          rcases pc.evs e he with h | h
          · rw [hw1e] at h
            exact Or.inl h
          · exact Or.inr h
      · rw [if_neg hskip] at heq
        cases hwt : walkTree cx (path ++ [c.nameOf]) c w1 with
        | cancelled w2 =>
          rw [hwt] at heq
          cases heq
        | done w2 =>
          rw [hwt] at heq
          have hfreshT : FreshT (path ++ [c.nameOf]) w1 := by
            refine ⟨?_, ?_⟩
            · intro n hn2
              rw [hw1n] at hn2
              exact hfresh.freshN n hn2 c.nameOf (nameOf_mem_cons c rest)
            · intro j hj
              rw [hw1j] at hj
              exact hfresh.freshJ j hj c.nameOf (nameOf_mem_cons c rest)
          have pt := walkTree_sound cx (path ++ [c.nameOf]) c w1 w2
            (hroot.trans (List.prefix_append path [c.nameOf]))
            (htwf c (List.mem_cons_self _ _)) hcwf hinv1 hfreshT hwt
          have hcniq : c.nameOf ∉ rest.map FSTree.nameOf :=
            nameOf_nodup_head hnames
          have hfresh2 : FreshC path (rest.map FSTree.nameOf) w2 := by
            refine ⟨?_, ?_⟩
            · intro n hn2 nm2 hnm2 hpre
              rcases pt.newN n hn2 with h | h
              · rw [hw1n] at h
                exact hfresh.freshN n h nm2 (nameOf_mem_cons_of c hnm2) hpre
              · have : c.nameOf = nm2 := childSuffix_inj h hpre
                rw [this] at hcniq
                exact hcniq hnm2
            · intro j hj nm2 hnm2 hpre
              rcases pt.newJ j hj with h | h
              · rw [hw1j] at h
                exact hfresh.freshJ j h nm2 (nameOf_mem_cons_of c hnm2) hpre
              · have : c.nameOf = nm2 := childSuffix_inj h hpre
                rw [this] at hcniq
                exact hcniq hnm2
          have pc := walkChildren_sound cx path rest w2 res hroot
            (nameOf_nodup_tail hnames)
            (fun x hx => htwf x (List.mem_cons_of_mem _ hx)) hcwf pt.inv
            hfresh2 heq
          refine ⟨?_, ?_, ?_, ?_, pc.inv, ?_⟩
          · intro n hn2
            rcases pc.newN n hn2 with h | ⟨nm2, hnm2, hpre⟩
            · rcases pt.newN n h with h2 | h2
              · rw [hw1n] at h2
                exact Or.inl h2
              · exact Or.inr ⟨c.nameOf, nameOf_mem_cons c rest, h2⟩
            · exact Or.inr ⟨nm2, nameOf_mem_cons_of c hnm2, hpre⟩
          · intro n hn2
            refine pc.oldN n (pt.oldN n ?_)
            rw [hw1n]
            exact hn2
          · intro j hj
            rcases pc.newJ j hj with h | ⟨nm2, hnm2, hpre⟩
            · rcases pt.newJ j h with h2 | h2
              · rw [hw1j] at h2
                exact Or.inl h2
              · exact Or.inr ⟨c.nameOf, nameOf_mem_cons c rest, h2⟩
            · exact Or.inr ⟨nm2, nameOf_mem_cons_of c hnm2, hpre⟩
          · intro j hj
            refine pc.oldJ j (pt.oldJ j ?_)
            rw [hw1j]
            exact hj
          · intro e he
            rcases pc.evs e he with h | h
            · rcases pt.evs e h with h2 | h2
              · rw [hw1e] at h2
                exact Or.inl h2
              · exact Or.inr h2
            · exact Or.inr h

end


/-! ### Totality of the walk without cancellation, and event kinds -/

mutual

theorem walkTree_total (cx : WalkCtx) (path : List String) (t : FSTree)
    (w : WalkSt) (hb : w.budget = none) :
    ∃ res, walkTree cx path t w = .done res ∧ res.budget = none := by
  cases t with
  | file nm sz ok =>
    refine ⟨_, rfl, ?_⟩
    simpa [bumpVisit] using hb
  | dir nm mt cs =>
    by_cases hre : canReuseDirM cx path mt = true
    · refine ⟨{ w with
          nodes := mergeInto w.nodes (spliceNodes cx.cacheEntries path)
          events := w.events ++ [⟨.nonBlocking, false⟩] }, ?_, ?_⟩
      · simp only [walkTree]
        rw [if_pos hre]
      · simpa using hb
    · have hb1 : (bumpVisit
          { w with nodes := w.nodes ++ [mkDirNode cx path nm] }).budget
          = none := by simpa [bumpVisit] using hb
      obtain ⟨res, hres, hrb⟩ := walkChildren_total cx path cs _ hb1
      refine ⟨res, ?_, hrb⟩
      simp only [walkTree]
      rw [if_neg hre]
      exact hres

theorem walkChildren_total (cx : WalkCtx) (path : List String)
    (cs : List FSTree) (w : WalkSt) (hb : w.budget = none) :
    ∃ res, walkChildren cx path cs w = .done res ∧ res.budget = none := by
  cases cs with
  | nil => exact ⟨w, rfl, hb⟩
  | cons c rest =>
    have hpoll : pollBudget w = some w := by
      unfold pollBudget
      rw [hb]
    by_cases hskip : skipEntry cx (path ++ [c.nameOf]) c.nameOf = true
    · obtain ⟨res, hres, hrb⟩ := walkChildren_total cx path rest w hb
      refine ⟨res, ?_, hrb⟩
      simp only [walkChildren]
      rw [hpoll]
      dsimp only
      rw [if_pos hskip]
      exact hres
    · obtain ⟨w2, hw2, hw2b⟩ := walkTree_total cx (path ++ [c.nameOf]) c w hb
      obtain ⟨res, hres, hrb⟩ := walkChildren_total cx path rest w2 hw2b
      refine ⟨res, ?_, hrb⟩
      simp only [walkChildren]
      rw [hpoll]
      dsimp only
      rw [if_neg hskip, hw2]
      exact hres

end

mutual

theorem walkTree_events (cx : WalkCtx) (path : List String) (t : FSTree)
    (w : WalkSt) :
    ∀ e ∈ (resState (walkTree cx path t w)).events,
      e ∈ w.events ∨ e.kind = .nonBlocking := by
  cases t with
  | file nm sz ok =>
    intro e he
    exact bumpVisit_events _ e he
  | dir nm mt cs =>
    by_cases hre : canReuseDirM cx path mt = true
    · intro e he
      simp only [walkTree] at he
      rw [if_pos hre] at he
      dsimp only [resState] at he
      rcases List.mem_append.mp he with h | h
      · exact Or.inl h
      · right
        have : e = (⟨.nonBlocking, false⟩ : SendEvent) := by simpa using h
        rw [this]
    · intro e he
      simp only [walkTree] at he
      rw [if_neg hre] at he
      have h2 := walkChildren_events cx path cs
        (bumpVisit { w with nodes := w.nodes ++ [mkDirNode cx path nm] }) e he
      rcases h2 with h | h
      · exact bumpVisit_events _ e h
      · exact Or.inr h

theorem walkChildren_events (cx : WalkCtx) (path : List String)
    (cs : List FSTree) (w : WalkSt) :
    ∀ e ∈ (resState (walkChildren cx path cs w)).events,
      e ∈ w.events ∨ e.kind = .nonBlocking := by
  cases cs with
  | nil =>
    intro e he
    exact Or.inl he
  | cons c rest =>
    intro e he
    simp only [walkChildren] at he
    cases hpoll : pollBudget w with
    | none =>
      rw [hpoll] at he
      dsimp only [resState] at he
      exact Or.inl he
    | some w1 =>
      rw [hpoll] at he
      dsimp only at he
      obtain ⟨_, _, hw1e, _⟩ := pollBudget_fields hpoll
      by_cases hskip : skipEntry cx (path ++ [c.nameOf]) c.nameOf = true
      · rw [if_pos hskip] at he
        rcases walkChildren_events cx path rest w1 e he with h | h
        · rw [hw1e] at h
          exact Or.inl h
        · exact Or.inr h
      · rw [if_neg hskip] at he
        cases hwt : walkTree cx (path ++ [c.nameOf]) c w1 with
        | cancelled w2 =>
          rw [hwt] at he
          dsimp only [resState] at he
          have h2 := walkTree_events cx (path ++ [c.nameOf]) c w1 e
          rw [hwt] at h2
          rcases h2 he with h | h
          · rw [hw1e] at h
            exact Or.inl h
          · exact Or.inr h
        | done w2 =>
          rw [hwt] at he
          rcases walkChildren_events cx path rest w2 e he with h | h
          · have h2 := walkTree_events cx (path ++ [c.nameOf]) c w1 e
            rw [hwt] at h2
            rcases h2 h with h3 | h3
            · rw [hw1e] at h3
              exact Or.inl h3
            · exact Or.inr h3
          · exact Or.inr h

end


/-! ### Inversion of `scanModel`'s return paths -/

theorem scanModel_error_state {st st2 : ScannerState} {t : FSTree}
    {root : List String} {sh : Bool} {budget jobCut : Option Nat}
    {e : ScanErr} {evs : List SendEvent}
    (hrun : scanModel st t root sh budget jobCut = (st2, .error e, evs)) :
    st2 = st := by
  unfold scanModel at hrun
  by_cases h1 : canReuseRootM st root sh t = true
  · rw [if_pos h1] at hrun
    injection hrun with ha hbc
    injection hbc with hb hc
    cases hb
  · rw [if_neg h1] at hrun
    by_cases h2 : st.scannedDirs.contains root = true
    · rw [if_pos h2] at hrun
      injection hrun with ha hbc
      injection hbc with hb hc
      cases hb
    · rw [if_neg h2] at hrun
      dsimp only at hrun
      cases hpoll : pollBudget ⟨[], [], 0, [], budget⟩ with
      | none =>
        rw [hpoll] at hrun
        dsimp only at hrun
        injection hrun with ha hbc
        exact ha.symm
      | some w1 =>
        rw [hpoll] at hrun
        dsimp only at hrun
        cases hwt : walkTree ⟨st.cacheEntries, st.cacheHiddenFlag, sh, 0, root⟩
            root t w1 with
        | cancelled w2 =>
          rw [hwt] at hrun
          dsimp only at hrun
          injection hrun with ha hbc
          exact ha.symm
        | done w2 =>
          rw [hwt] at hrun
          dsimp only at hrun
          injection hrun with ha hbc
          injection hbc with hb hc
          cases hb

theorem scanModel_walked_elim {st st2 : ScannerState} {t : FSTree}
    {root : List String} {sh : Bool} {budget jobCut : Option Nat}
    {N : List Node} {evs : List SendEvent}
    (hrun : scanModel st t root sh budget jobCut
      = (st2, .ok (.walked N), evs)) :
    ∃ w1 w2,
      pollBudget ⟨[], [], 0, [], budget⟩ = some w1 ∧
      walkTree ⟨st.cacheEntries, st.cacheHiddenFlag, sh, 0, root⟩ root t w1
        = .done w2 ∧
      N = applyDirCounts (applyFileCounts (applyAccumulation (applyHierarchy
        (applyResults w2.nodes
          (w2.jobs.take (jobCutLen jobCut w2.jobs.length)))))) ∧
      st2 = replaceCache st root N ∧
      evs = w2.events ++ collectorEvents (jobCutLen jobCut w2.jobs.length)
        ++ [⟨.blocking, true⟩] := by
  unfold scanModel at hrun
  by_cases h1 : canReuseRootM st root sh t = true
  · rw [if_pos h1] at hrun
    injection hrun with ha hbc
    injection hbc with hb hc
    injection hb with hb2
    cases hb2
  · rw [if_neg h1] at hrun
    by_cases h2 : st.scannedDirs.contains root = true
    · rw [if_pos h2] at hrun
      injection hrun with ha hbc
      injection hbc with hb hc
      injection hb with hb2
      cases hb2
    · rw [if_neg h2] at hrun
      dsimp only at hrun
      cases hpoll : pollBudget ⟨[], [], 0, [], budget⟩ with
      | none =>
        rw [hpoll] at hrun
        dsimp only at hrun
        injection hrun with ha hbc
        injection hbc with hb hc
        cases hb
      | some w1 =>
        rw [hpoll] at hrun
        dsimp only at hrun
        cases hwt : walkTree ⟨st.cacheEntries, st.cacheHiddenFlag, sh, 0, root⟩
            root t w1 with
        | cancelled w2 =>
          rw [hwt] at hrun
          dsimp only at hrun
          injection hrun with ha hbc
          injection hbc with hb hc
          cases hb
        | done w2 =>
          rw [hwt] at hrun
          dsimp only at hrun
          injection hrun with ha hbc
          injection hbc with hb hc
          injection hb with hb2
          injection hb2 with hb3
          refine ⟨w1, w2, rfl, hwt, hb3.symm, ?_, hc.symm⟩
          rw [← ha, hb3]

theorem scanModel_reused_elim {st st2 : ScannerState} {t : FSTree}
    {root : List String} {sh : Bool} {budget jobCut : Option Nat}
    {N : List Node} {evs : List SendEvent}
    (hrun : scanModel st t root sh budget jobCut
      = (st2, .ok (.reusedRoot N), evs)) :
    canReuseRootM st root sh t = true ∧
    N = spliceNodes st.cacheEntries root ∧
    st2 = replaceCache st root N := by
  unfold scanModel at hrun
  by_cases h1 : canReuseRootM st root sh t = true
  · rw [if_pos h1] at hrun
    dsimp only at hrun
    injection hrun with ha hbc
    injection hbc with hb hc
    injection hb with hb2
    injection hb2 with hb3
    refine ⟨h1, hb3.symm, ?_⟩
    rw [← ha, hb3]
  · rw [if_neg h1] at hrun
    by_cases h2 : st.scannedDirs.contains root = true
    · rw [if_pos h2] at hrun
      injection hrun with ha hbc
      injection hbc with hb hc
      injection hb with hb2
      cases hb2
    · rw [if_neg h2] at hrun
      dsimp only at hrun
      cases hpoll : pollBudget ⟨[], [], 0, [], budget⟩ with
      | none =>
        rw [hpoll] at hrun
        dsimp only at hrun
        injection hrun with ha hbc
        injection hbc with hb hc
        cases hb
      | some w1 =>
        rw [hpoll] at hrun
        dsimp only at hrun
        cases hwt : walkTree ⟨st.cacheEntries, st.cacheHiddenFlag, sh, 0, root⟩
            root t w1 with
        | cancelled w2 =>
          rw [hwt] at hrun
          dsimp only at hrun
          injection hrun with ha hbc
          injection hbc with hb hc
          cases hb
        | done w2 =>
          rw [hwt] at hrun
          dsimp only at hrun
          injection hrun with ha hbc
          injection hbc with hb hc
          injection hb with hb2
          cases hb2

/-! ### Save/reuse round trip (`saveCache` then `cachedTree`) -/

theorem toNode_toEntry {n : Node} (hmt : n.modTime ≠ 0)
    (hsc : n.scanned = (n.ptype == NodeType.dir)) : toNode (toEntry n) = n := by
  unfold toNode toEntry timeFrom
  rw [if_neg hmt]
  cases n
  simp only at hsc
  simp [hsc]

theorem spliceNodes_saveEntries {N : List Node} {root : List String}
    (hroot : ∀ n ∈ N, segWithin root n.id = true)
    (hmt : ∀ n ∈ N, n.modTime ≠ 0)
    (hsc : ∀ n ∈ N, n.scanned = (n.ptype == NodeType.dir)) :
    spliceNodes (some (saveEntries N)) root = N := by
  show ((N.map toEntry).filter (fun e => segWithin root e.path)).map toNode
      = N
  have hfil : (N.map toEntry).filter (fun e => segWithin root e.path)
      = N.map toEntry := by
    apply List.filter_eq_self.mpr
    intro e he
    rcases List.mem_map.mp he with ⟨n, hn, rfl⟩
    exact hroot n hn
  rw [hfil, List.map_map]
  have : ∀ n ∈ N, (toNode ∘ toEntry) n = n := by
    intro n hn
    exact toNode_toEntry (hmt n hn) (hsc n hn)
  calc N.map (toNode ∘ toEntry) = N.map id := List.map_congr_left this
    _ = N := List.map_id N

/-! ### End-to-end facts about the walked scan path -/

theorem walkStart_inv (st : ScannerState) (sh : Bool) (root : List String)
    {budget : Option Nat} {w1 : WalkSt}
    (hpoll : pollBudget ⟨[], [], 0, [], budget⟩ = some w1) :
    WInv ⟨st.cacheEntries, st.cacheHiddenFlag, sh, 0, root⟩ w1 ∧
    FreshT root w1 := by
  obtain ⟨hw1n, hw1j, _, _⟩ := pollBudget_fields hpoll
  constructor
  · refine ⟨?_, ?_, ?_, ?_⟩
    · rw [hw1n]
      exact List.nodup_nil
    · intro n hn
      rw [hw1n] at hn
      cases hn
    · intro n hn
      rw [hw1n] at hn
      cases hn
    · rw [hw1j]
      exact List.nodup_nil
  · refine ⟨?_, ?_⟩
    · intro n hn
      rw [hw1n] at hn
      cases hn
    · intro j hj
      rw [hw1j] at hj
      cases hj

theorem sized_wf {w2 : WalkSt} {js : List (List String × Int × Bool)}
    (hndN : (ids w2.nodes).Nodup) (hwfN : ∀ n ∈ w2.nodes, NodeWF n) :
    (ids (applyResults w2.nodes js)).Nodup ∧
    (∀ n ∈ applyResults w2.nodes js, NodeWF n) := by
  have hrel := applyResults_rel js w2.nodes
  constructor
  · rw [forall2_ids_eq (hrel.imp (fun {a b} h => h.1))]
    exact hndN
  · intro b hb
    rcases forall2_mem_right hrel b hb with ⟨a, ha, hr⟩
    obtain ⟨r1, r2, r3, r4, r5, r6, r7, r8, r9, r10, r11⟩ := hr
    obtain ⟨v1, v2, v3, v4, v5⟩ := hwfN a ha
    refine ⟨?_, ?_, ?_, ?_, ?_⟩
    · intro c hc
      rw [r3] at hc
      rw [r1]
      exact v1 c hc
    · intro q hq
      rw [r4] at hq
      rw [r1]
      exact v2 q hq
    · intro hf
      rcases r11 with ⟨hacc, hsz⟩ | hfix
      · rw [hacc, hsz]
        exact v3 (r2 ▸ hf)
      · exact Or.inl hfix
    · rw [r5]
      exact v4
    · rw [r6, r2]
      exact v5

/-- The per-node aggregate invariants of any node index produced by the
walked path of `scanModel`. -/
theorem scanModel_walked_inv {st st2 : ScannerState} {t : FSTree}
    {root : List String} {sh : Bool} {budget jobCut : Option Nat}
    {N : List Node} {evs : List SendEvent}
    (htwf : TreeWF t) (hcwf : CacheWF st.cacheEntries)
    (hrun : scanModel st t root sh budget jobCut
      = (st2, .ok (.walked N), evs)) :
    ∀ n ∈ N,
      (n.ptype = .file →
        n.accumBytes = n.sizeBytes ∧ n.fileCount = 1 ∧ n.dirCount = 0) ∧
      (n.ptype = .dir →
        n.accumBytes = dirSum accumSpec N n.childrenIDs ∧
        n.fileCount = dirSum fileCountSpec N n.childrenIDs ∧
        n.dirCount = dirSum dirCountSpec N n.childrenIDs) := by
  obtain ⟨w1, w2, hpoll, hwt, hN, hst2, hevs⟩ := scanModel_walked_elim hrun
  obtain ⟨hinv0, hfresh0⟩ := walkStart_inv st sh root hpoll
  have post := walkTree_sound _ root t w1 w2 (List.prefix_refl root) htwf
    hcwf hinv0 hfresh0 hwt
  obtain ⟨hnds, hwfs⟩ := @sized_wf _
    (w2.jobs.take (jobCutLen jobCut w2.jobs.length))
    post.inv.ndN post.inv.wfN
  have hwf_h := applyHierarchy_wf hwfs
  have hnd_h : (ids (applyHierarchy
      (applyResults w2.nodes
        (w2.jobs.take (jobCutLen jobCut w2.jobs.length))))).Nodup := by
    rw [applyHierarchy_ids]
    exact hnds
  have hmain := passes_invariants _ hnd_h hwf_h
  rw [hN]
  exact hmain

theorem passOut_shape (spec : PassSpec) (ms fin : List Node)
    (hm : ∀ x : Node, (spec.set x 0).modTime = x.modTime)
    (hs : ∀ x : Node, (spec.set x 0).scanned = x.scanned)
    (hz : ∀ x : Node, (spec.set x 0).sizeBytes = x.sizeBytes)
    (hf : List.Forall₂ (passOut spec fin) ms fin) :
    List.Forall₂ passKeepRel ms fin := by
  refine hf.imp (fun {a b} hr => ⟨hr.1, ?_, ?_, hr.2.1, ?_⟩)
  · have := congrArg Node.modTime hr.2.2.2.1
    rw [hm b, hm a] at this
    exact this
  · have := congrArg Node.scanned hr.2.2.2.1
    rw [hs b, hs a] at this
    exact this
  · have := congrArg Node.sizeBytes hr.2.2.2.1
    rw [hz b, hz a] at this
    exact this

theorem shapeRel_trans {a m b : Node} (h1 : shapeRel a m)
    (h2 : shapeRel m b) : shapeRel a b :=
  ⟨h2.1.trans h1.1, h2.2.1.trans h1.2.1, h2.2.2.1.trans h1.2.2.1,
    h2.2.2.2.trans h1.2.2.2⟩

theorem passKeepRel_trans {a m b : Node} (h1 : passKeepRel a m)
    (h2 : passKeepRel m b) : passKeepRel a b :=
  ⟨h2.1.trans h1.1, h2.2.1.trans h1.2.1, h2.2.2.1.trans h1.2.2.1,
    h2.2.2.2.1.trans h1.2.2.2.1, h2.2.2.2.2.trans h1.2.2.2.2⟩

theorem passes_keep (ns : List Node) (hnd : (ids ns).Nodup)
    (hdeep : ∀ n ∈ ns, ∀ c ∈ n.childrenIDs, n.id.length < c.length) :
    List.Forall₂ passKeepRel ns
      (applyDirCounts (applyFileCounts (applyAccumulation ns))) := by
  have A := applyPass_props accumSpec (fun k v => rfl) (fun k v => rfl)
    (fun k v => rfl) (fun k v => rfl) (fun k v w => rfl) ns hnd hdeep
  set N1 := applyPass accumSpec ns with hN1
  have hids1 : ids N1 = ids ns := forall2_ids_eq (A.imp (fun {a b} hr => hr.1))
  have hnd1 : (ids N1).Nodup := hids1 ▸ hnd
  have hdeep1 : ∀ n ∈ N1, ∀ c ∈ n.childrenIDs, n.id.length < c.length := by
    intro n hn c hc
    rcases forall2_mem_right A n hn with ⟨a, ha, hrel⟩
    rw [hrel.1]
    exact hdeep a ha c (hrel.2.2.1 ▸ hc)
  have B := applyPass_props fileCountSpec (fun k v => rfl) (fun k v => rfl)
    (fun k v => rfl) (fun k v => rfl) (fun k v w => rfl) N1 hnd1 hdeep1
  set N2 := applyPass fileCountSpec N1 with hN2
  have hids2 : ids N2 = ids N1 := forall2_ids_eq (B.imp (fun {a b} hr => hr.1))
  have hnd2 : (ids N2).Nodup := hids2 ▸ hnd1
  have hdeep2 : ∀ n ∈ N2, ∀ c ∈ n.childrenIDs, n.id.length < c.length := by
    intro n hn c hc
    rcases forall2_mem_right B n hn with ⟨a, ha, hrel⟩
    rw [hrel.1]
    exact hdeep1 a ha c (hrel.2.2.1 ▸ hc)
  have C := applyPass_props dirCountSpec (fun k v => rfl) (fun k v => rfl)
    (fun k v => rfl) (fun k v => rfl) (fun k v w => rfl) N2 hnd2 hdeep2
  have s1 := passOut_shape accumSpec ns N1 (fun x => rfl) (fun x => rfl)
    (fun x => rfl) A
  have s2 := passOut_shape fileCountSpec N1 N2 (fun x => rfl) (fun x => rfl)
    (fun x => rfl) B
  have s3 := passOut_shape dirCountSpec N2 _ (fun x => rfl) (fun x => rfl)
    (fun x => rfl) C
  exact forall2_trans
    (fun (a m b : Node) (x1 : passKeepRel a m) (x2 : passKeepRel m b) =>
      passKeepRel_trans x1 x2)
    (forall2_trans
      (fun (a m b : Node) (x1 : passKeepRel a m) (x2 : passKeepRel m b) =>
        passKeepRel_trans x1 x2) s1 s2) s3

theorem passes_shape (ns : List Node) (hnd : (ids ns).Nodup)
    (hdeep : ∀ n ∈ ns, ∀ c ∈ n.childrenIDs, n.id.length < c.length) :
    List.Forall₂ shapeRel ns
      (applyDirCounts (applyFileCounts (applyAccumulation ns))) :=
  (passes_keep ns hnd hdeep).imp
    (fun {a b} hr => ⟨hr.1, hr.2.1, hr.2.2.1, hr.2.2.2.1⟩)

/-- Shape facts of the walked index needed for the cache round trip. -/
theorem scanModel_walked_shape {st st2 : ScannerState} {t : FSTree}
    {root : List String} {sh : Bool} {budget jobCut : Option Nat}
    {N : List Node} {evs : List SendEvent}
    (htwf : TreeWF t) (hcwf : CacheWF st.cacheEntries)
    (hrun : scanModel st t root sh budget jobCut
      = (st2, .ok (.walked N), evs)) :
    ∀ n ∈ N, segWithin root n.id = true ∧ n.modTime ≠ 0 ∧
      n.scanned = (n.ptype == NodeType.dir) := by
  obtain ⟨w1, w2, hpoll, hwt, hN, hst2, hevs⟩ := scanModel_walked_elim hrun
  obtain ⟨hinv0, hfresh0⟩ := walkStart_inv st sh root hpoll
  have post := walkTree_sound _ root t w1 w2 (List.prefix_refl root) htwf
    hcwf hinv0 hfresh0 hwt
  obtain ⟨hnds, hwfs⟩ := @sized_wf _
    (w2.jobs.take (jobCutLen jobCut w2.jobs.length))
    post.inv.ndN post.inv.wfN
  have hwf_h := applyHierarchy_wf hwfs
  have hnd_h : (ids (applyHierarchy
      (applyResults w2.nodes
        (w2.jobs.take (jobCutLen jobCut w2.jobs.length))))).Nodup := by
    rw [applyHierarchy_ids]
    exact hnds
  have hdeep_h := fun n hn => (hwf_h n hn).1
  have h1 : List.Forall₂ shapeRel w2.nodes
      (applyResults w2.nodes
        (w2.jobs.take (jobCutLen jobCut w2.jobs.length))) :=
    (applyResults_rel _ _).imp
      (fun {a b} hr => ⟨hr.1, hr.2.2.2.2.1, hr.2.2.2.2.2.1, hr.2.1⟩)
  have h2 : List.Forall₂ shapeRel
      (applyResults w2.nodes
        (w2.jobs.take (jobCutLen jobCut w2.jobs.length)))
      (applyHierarchy (applyResults w2.nodes
        (w2.jobs.take (jobCutLen jobCut w2.jobs.length)))) :=
    (applyHierarchy_rel _).imp
      (fun {a b} hr => ⟨hr.1, hr.2.2.2.2.1, hr.2.2.2.2.2.2.1, hr.2.1⟩)
  have h3 := passes_shape _ hnd_h hdeep_h
  have hall : List.Forall₂ shapeRel w2.nodes N := by
    rw [hN]
    exact forall2_trans
      (fun (a m b : Node) (x1 : shapeRel a m) (x2 : shapeRel m b) =>
        shapeRel_trans x1 x2)
      (forall2_trans
        (fun (a m b : Node) (x1 : shapeRel a m) (x2 : shapeRel m b) =>
          shapeRel_trans x1 x2) h1 h2) h3
  intro n hn
  rcases forall2_mem_right hall n hn with ⟨a, ha, hr⟩
  obtain ⟨s1, s2, s3, s4⟩ := hr
  obtain ⟨_, _, _, v4, v5⟩ := post.inv.wfN a ha
  refine ⟨?_, ?_, ?_⟩
  · rw [s1]
    exact List.isPrefixOf_iff_prefix.mpr (post.inv.rootN a ha)
  · rw [s2]
    exact v4
  · rw [s3, s4, v5]

/-! ### Walks with no loaded cache: node/job preservation and the vanished
file (`C10`) machinery -/

theorem spliceNodes_none (root : List String) :
    spliceNodes none root = [] := rfl

theorem mergeInto_nil (prior : List Node) : mergeInto prior [] = prior := by
  unfold mergeInto
  rw [List.append_nil]
  apply List.filter_eq_self.mpr
  intro n _
  rfl

mutual

theorem walkTree_keeps (cx : WalkCtx) (path : List String) (t : FSTree)
    (w res : WalkSt) (hce : cx.cacheEntries = none)
    (heq : walkTree cx path t w = .done res) :
    (∀ n ∈ w.nodes, n ∈ res.nodes) ∧ (∀ j ∈ w.jobs, j ∈ res.jobs) := by
  cases t with
  | file nm sz ok =>
    simp only [walkTree] at heq
    injection heq with h
    subst h
    constructor
    · intro n hn
      rw [bumpVisit_nodes]
      exact List.mem_append.mpr (Or.inl hn)
    · intro j hj
      rw [bumpVisit_jobs]
      exact List.mem_append.mpr (Or.inl hj)
  | dir nm mt cs =>
    simp only [walkTree] at heq
    by_cases hre : canReuseDirM cx path mt = true
    · rw [if_pos hre] at heq
      injection heq with h
      subst h
      constructor
      · intro n hn
        show n ∈ mergeInto w.nodes (spliceNodes cx.cacheEntries path)
        rw [hce, spliceNodes_none, mergeInto_nil]
        exact hn
      · intro j hj
        exact hj
    · rw [if_neg hre] at heq
      have hk := walkChildren_keeps cx path cs _ res hce heq
      constructor
      · intro n hn
        refine hk.1 n ?_
        rw [bumpVisit_nodes]
        exact List.mem_append.mpr (Or.inl hn)
      · intro j hj
        refine hk.2 j ?_
        rw [bumpVisit_jobs]
        exact hj

theorem walkChildren_keeps (cx : WalkCtx) (path : List String)
    (cs : List FSTree) (w res : WalkSt) (hce : cx.cacheEntries = none)
    (heq : walkChildren cx path cs w = .done res) :
    (∀ n ∈ w.nodes, n ∈ res.nodes) ∧ (∀ j ∈ w.jobs, j ∈ res.jobs) := by
  cases cs with
  | nil =>
    simp only [walkChildren] at heq
    injection heq with h
    subst h
    exact ⟨fun n hn => hn, fun j hj => hj⟩
  | cons c rest =>
    simp only [walkChildren] at heq
    cases hpoll : pollBudget w with
    | none =>
      rw [hpoll] at heq
      dsimp only at heq
      cases heq
    | some w1 =>
      rw [hpoll] at heq
      dsimp only at heq
      obtain ⟨hw1n, hw1j, _, _⟩ := pollBudget_fields hpoll
      by_cases hskip : skipEntry cx (path ++ [c.nameOf]) c.nameOf = true
      · rw [if_pos hskip] at heq
        have hk := walkChildren_keeps cx path rest w1 res hce heq
        exact ⟨fun n hn => hk.1 n (hw1n ▸ hn), fun j hj => hk.2 j (hw1j ▸ hj)⟩
      · rw [if_neg hskip] at heq
        cases hwt : walkTree cx (path ++ [c.nameOf]) c w1 with
        | cancelled w2 =>
          rw [hwt] at heq
          cases heq
        | done w2 =>
          rw [hwt] at heq
          have hk1 := walkTree_keeps cx (path ++ [c.nameOf]) c w1 w2 hce hwt
          have hk2 := walkChildren_keeps cx path rest w2 res hce heq
          exact ⟨fun n hn => hk2.1 n (hk1.1 n (hw1n ▸ hn)),
            fun j hj => hk2.2 j (hk1.2 j (hw1j ▸ hj))⟩

end


theorem walkChildren_file_mem (cx : WalkCtx) (path : List String)
    {fn : String} {sz : Int} {ok : Bool} :
    ∀ (cs : List FSTree) (w res : WalkSt),
      cx.cacheEntries = none →
      FSTree.file fn sz ok ∈ cs →
      skipEntry cx (path ++ [fn]) fn = false →
      walkChildren cx path cs w = .done res →
      mkFileNode cx (path ++ [fn]) fn ∈ res.nodes ∧
        (path ++ [fn], sz, ok) ∈ res.jobs := by
  intro cs
  induction cs with
  | nil =>
    intro w res _ hmem _ _
    cases hmem
  | cons c rest ih =>
    intro w res hce hmem hnoskip heq
    simp only [walkChildren] at heq
    cases hpoll : pollBudget w with
    | none =>
      rw [hpoll] at heq
      dsimp only at heq
      cases heq
    | some w1 =>
      rw [hpoll] at heq
      dsimp only at heq
      rcases List.mem_cons.mp hmem with rfl | hmem2
      · -- the head is the vanished file itself
        have hnm : FSTree.nameOf (FSTree.file fn sz ok) = fn := rfl
        rw [hnm] at heq
        rw [if_neg (by rw [hnoskip]; exact Bool.false_ne_true)] at heq
        have hwt : walkTree cx (path ++ [fn]) (FSTree.file fn sz ok) w1
            = .done (bumpVisit
              { w1 with
                nodes := w1.nodes ++ [mkFileNode cx (path ++ [fn]) fn]
                jobs := w1.jobs ++ [(path ++ [fn], sz, ok)] }) := rfl
        rw [hwt] at heq
        have hk := walkChildren_keeps cx path rest _ res hce heq
        constructor
        · refine hk.1 _ ?_
          rw [bumpVisit_nodes]
          exact List.mem_append.mpr (Or.inr (List.mem_singleton.mpr rfl))
        · refine hk.2 _ ?_
          rw [bumpVisit_jobs]
          exact List.mem_append.mpr (Or.inr (List.mem_singleton.mpr rfl))
      · by_cases hskip : skipEntry cx (path ++ [c.nameOf]) c.nameOf = true
        · rw [if_pos hskip] at heq
          exact ih w1 res hce hmem2 hnoskip heq
        · rw [if_neg hskip] at heq
          cases hwt : walkTree cx (path ++ [c.nameOf]) c w1 with
          | cancelled w2 =>
            rw [hwt] at heq
            cases heq
          | done w2 =>
            rw [hwt] at heq
            exact ih w2 res hce hmem2 hnoskip heq

theorem nodup_map_inj {α β : Type} {f : α → β} {l : List α}
    (hnd : (l.map f).Nodup) {x y : α} (hx : x ∈ l) (hy : y ∈ l)
    (hf : f x = f y) : x = y :=
  List.inj_on_of_nodup_map hnd hx hy hf

theorem applyResults_findNode {q : List String} :
    ∀ (js : List (List String × Int × Bool)) (ns : List Node),
      (∀ j ∈ js, jobFst j = q → j.2.2 = false) →
      findNode (applyResults ns js) q = findNode ns q := by
  intro js
  induction js with
  | nil =>
    intro ns _
    rfl
  | cons j rest ih =>
    intro ns hok
    have hstep : applyResults ns (j :: rest) = applyResults
        (if j.2.2 then
          updNode ns j.1
            (fun n => { n with sizeBytes := j.2.1, accumBytes := j.2.1 })
         else ns) rest := rfl
    rw [hstep]
    by_cases hj : j.2.2 = true
    · have hne : j.1 ≠ q := by
        intro hcon
        have := hok j (List.mem_cons_self _ _) hcon
        rw [hj] at this
        cases this
      rw [if_pos hj]
      rw [ih _ (fun x hx => hok x (List.mem_cons_of_mem _ hx))]
      have hg : ∀ n : Node,
          ((fun n => if n.id == j.1 then
            { n with sizeBytes := j.2.1, accumBytes := j.2.1 } else n) n).id
            = n.id := by
        intro n
        by_cases hb : n.id = j.1
        · simp [hb]
        · simp [hb]
      have hu : updNode ns j.1
          (fun n => { n with sizeBytes := j.2.1, accumBytes := j.2.1 })
          = ns.map (fun n => if n.id == j.1 then
              { n with sizeBytes := j.2.1, accumBytes := j.2.1 } else n) := rfl
      rw [hu, findNode_map _ hg]
      cases hfq : findNode ns q with
      | none => rfl
      | some nc =>
        have hid : nc.id = q := findNode_some_id hfq
        have hnb : (nc.id == j.1) = false := by
          rw [hid]
          simp only [beq_eq_false_iff_ne, ne_eq]
          exact fun hcon => hne hcon.symm
        simp [hnb]
        intro hcon
        exact absurd hcon (by simpa using hnb)
    · rw [if_neg hj]
      exact ih ns (fun x hx => hok x (List.mem_cons_of_mem _ hx))

theorem findNode_mem {ns : List Node} {p : List String} {n : Node}
    (h : findNode ns p = some n) : n ∈ ns :=
  List.mem_of_find?_eq_some h

theorem passes_ids (ns : List Node) (hnd : (ids ns).Nodup)
    (hdeep : ∀ n ∈ ns, ∀ c ∈ n.childrenIDs, n.id.length < c.length) :
    ids (applyDirCounts (applyFileCounts (applyAccumulation ns))) = ids ns :=
  forall2_ids_eq ((passes_keep ns hnd hdeep).imp (fun {a b} hr => hr.1))

theorem goodSegs_child {rootP path : List String} {nm : String}
    (hg : goodSegs rootP path) (hnm : isExcludedName nm = false)
    (hlen : rootP.length ≤ path.length) :
    goodSegs rootP (path ++ [nm]) := by
  intro s hs
  rw [List.drop_append_of_le_length hlen] at hs
  rcases List.mem_append.mp hs with h | h
  · exact hg s h
  · have : s = nm := by simpa using h
    rw [this]
    exact hnm

theorem skipEntry_false_excl {cx : WalkCtx} {childPath : List String}
    {nm : String} (hsh : cx.showHidden = false)
    (hskip : skipEntry cx childPath nm = false) :
    isExcludedName nm = false := by
  unfold skipEntry at hskip
  rw [hsh] at hskip
  simp only [Bool.not_false, Bool.true_and, Bool.or_eq_false_iff] at hskip
  exact hskip.1.2

mutual

theorem walkTree_goodSegs (cx : WalkCtx) (path : List String) (t : FSTree)
    (w res : WalkSt)
    (hsh : cx.showHidden = false)
    (hcg : CacheGood cx.rootP cx.cacheEntries)
    (hroot : cx.rootP <+: path)
    (hpath : goodSegs cx.rootP path)
    (hpre : ∀ n ∈ w.nodes, goodSegs cx.rootP n.id)
    (heq : walkTree cx path t w = .done res) :
    ∀ n ∈ res.nodes, goodSegs cx.rootP n.id := by
  cases t with
  | file nm sz ok =>
    simp only [walkTree] at heq
    injection heq with h
    subst h
    intro n hn
    rw [bumpVisit_nodes] at hn
    rcases List.mem_append.mp hn with h | h
    · exact hpre n h
    · have : n = mkFileNode cx path nm := by simpa using h
      rw [this]
      exact hpath
  | dir nm mt cs =>
    simp only [walkTree] at heq
    by_cases hre : canReuseDirM cx path mt = true
    · rw [if_pos hre] at heq
      injection heq with h
      subst h
      intro n hn
      rcases mergeInto_mem hn with h | h
      · exact hpre n h
      · rcases spliceNodes_mem h with ⟨es, e, hce, hee, hseg, rfl⟩
        rw [hce] at hcg
        exact hcg e hee
    · rw [if_neg hre] at heq
      refine walkChildren_goodSegs cx path cs _ res hsh hcg hroot hpath
        ?_ heq
      intro n hn
      rw [bumpVisit_nodes] at hn
      rcases List.mem_append.mp hn with h | h
      · exact hpre n h
      · have : n = mkDirNode cx path nm := by simpa using h
        rw [this]
        exact hpath

theorem walkChildren_goodSegs (cx : WalkCtx) (path : List String)
    (cs : List FSTree) (w res : WalkSt)
    (hsh : cx.showHidden = false)
    (hcg : CacheGood cx.rootP cx.cacheEntries)
    (hroot : cx.rootP <+: path)
    (hpath : goodSegs cx.rootP path)
    (hpre : ∀ n ∈ w.nodes, goodSegs cx.rootP n.id)
    (heq : walkChildren cx path cs w = .done res) :
    ∀ n ∈ res.nodes, goodSegs cx.rootP n.id := by
  cases cs with
  | nil =>
    simp only [walkChildren] at heq
    injection heq with h
    subst h
    exact hpre
  | cons c rest =>
    simp only [walkChildren] at heq
    cases hpoll : pollBudget w with
    | none =>
      rw [hpoll] at heq
      dsimp only at heq
      cases heq
    | some w1 =>
      rw [hpoll] at heq
      dsimp only at heq
      obtain ⟨hw1n, _, _, _⟩ := pollBudget_fields hpoll
      have hpre1 : ∀ n ∈ w1.nodes, goodSegs cx.rootP n.id := by
        rw [hw1n]
        exact hpre
      by_cases hskip : skipEntry cx (path ++ [c.nameOf]) c.nameOf = true
      · rw [if_pos hskip] at heq
        exact walkChildren_goodSegs cx path rest w1 res hsh hcg hroot hpath
          hpre1 heq
      · rw [if_neg hskip] at heq
        cases hwt : walkTree cx (path ++ [c.nameOf]) c w1 with
        | cancelled w2 =>
          rw [hwt] at heq
          cases heq
        | done w2 =>
          rw [hwt] at heq
          have hchild : goodSegs cx.rootP (path ++ [c.nameOf]) :=
            goodSegs_child hpath
              (skipEntry_false_excl hsh (Bool.eq_false_iff.mpr hskip))
              hroot.length_le
          have hpre2 := walkTree_goodSegs cx (path ++ [c.nameOf]) c w1 w2 hsh
            hcg (hroot.trans (List.prefix_append path [c.nameOf])) hchild
            hpre1 hwt
          exact walkChildren_goodSegs cx path rest w2 res hsh hcg hroot hpath
            hpre2 heq

end

/-! ### Claim C1 -/

/-- C1 (code bug): per the spec (and the repository's own UX documents,
which require a distinct double confirmation for recursive deletion), an
`Execute(delete)` whose sources include a directory must fail the
confirmation gate when the token is merely `"confirm"`.  In the code the
`req.ConfirmToken == "confirm"` test precedes the per-path directory
scan, so `"confirm"` is accepted and the recursive deletion proceeds to
mutate the filesystem; the `"recursive delete requires confirmation"`
branch is reachable only for tokens other than `"confirm"`.  This theorem
evaluates the embedded `requireConfirmation` and `Execute` at the failing
input, together with the surrounding behaviours that do match the spec. -/
theorem claim_c1_code_eval :
    requireConfirmation fixFS reqDelDirConfirm ["/tmp/d"] = .ok () ∧
    (executeModel fixFS reqDelDirConfirm).2.1 =
      [.removeFile "/tmp/d/f", .removeDir "/tmp/d"] ∧
    requireConfirmation fixFS reqDelDirNoTok ["/tmp/d"]
      = .error "recursive delete requires confirmation" ∧
    requireConfirmation fixFS reqDelDirRec ["/tmp/d"] = .ok () ∧
    requireConfirmation fixFS reqDelFileConfirm ["/tmp/plain.txt"]
      = .ok () := by
  refine ⟨rfl, ?_, rfl, rfl, rfl⟩
  rfl

/-! ### Claim C4 -/

/-- C4 (counterexample): the claim says `Execute` with an
already-existing backup destination "returns a single top-level error".
At a concrete input the Go-level error is `nil`: `Execute` returns a
successful call whose `ActionResult` carries the failure; there is no
top-level error.  (The no-mutation half of the claim does hold: the
effect trace is empty.) -/
theorem claim_c4_counterexample :
    (executeModel fixFSBak reqBakArchive).1
      = .ok ⟨.backup, 0, 0, ["backup archive exists"], "backup failed"⟩ ∧
    (executeModel fixFSBak reqBakArchive).2.1 = [] := by
  exact ⟨rfl, rfl⟩

/-- C4 (amended): for every backup request whose destination already
exists, `Execute` performs no mutation of any kind and fails the whole
operation as a unit — but the failure is reported through a `nil`
Go-level error and an `ActionResult` carrying exactly one
operation-level error message, zero success and failure counts, and the
`"backup failed"` message; the only channel activity is the final
completion sentinel. -/
theorem claim_c4_amended (fs : ActionFS) (req : ActionRequest)
    (hty : req.rtype = .backup)
    (hpaths : normalizePaths req.sourcePaths ≠ [])
    (hdne : req.destination ≠ "")
    (hdest : existsFS fs req.destination = true) :
    ∃ r, executeModel fs req = (.ok r, [], [⟨.blocking, true⟩]) ∧
      r.successCount = 0 ∧ r.failureCount = 0 ∧ r.errors.length = 1 ∧
      r.message = "backup failed" := by
  unfold executeModel
  dsimp only
  have hval : validateRequest fs.home req (normalizePaths req.sourcePaths)
      = .ok () := by
    unfold validateRequest
    rw [if_neg (fun hlen => hpaths (List.length_eq_zero.mp hlen))]
    have h2 : ((req.rtype == ActionType.move || req.rtype == ActionType.copy
        || req.rtype == ActionType.backup) && (req.destination == ""))
        = false := by
      have : (req.destination == "") = false := by
        simp [hdne]
      rw [this, Bool.and_false]
    rw [if_neg (by rw [h2]; exact Bool.false_ne_true)]
    have h3 : (req.safeMode && (req.rtype == ActionType.delete)) = false := by
      have : (req.rtype == ActionType.delete) = false := by
        rw [hty]
        rfl
      rw [this, Bool.and_false]
    rw [if_neg (by rw [h3]; exact Bool.false_ne_true)]
  rw [hval]
  have hconf : requireConfirmation fs req (normalizePaths req.sourcePaths)
      = .ok () := by
    unfold requireConfirmation
    have h1 : req.rtype ≠ ActionType.delete ∧ req.rtype ≠ ActionType.move := by
      rw [hty]
      exact ⟨(fun h => nomatch h), (fun h => nomatch h)⟩
    rw [if_pos h1]
  rw [hconf]
  dsimp only
  rw [hty]
  dsimp only
  unfold backupPathsModel
  rw [if_neg hdne]
  by_cases hsuf : strHasSuffixGo req.destination ".tar.gz" = true
  · rw [if_pos hsuf]
    unfold backupCompressedModel
    rw [if_pos hdest]
    exact ⟨_, rfl, rfl, rfl, rfl, rfl⟩
  · rw [if_neg hsuf]
    unfold backupCopyModel
    rw [if_pos hdest]
    exact ⟨_, rfl, rfl, rfl, rfl, rfl⟩

/-- C4 witness: the amended theorem applied to the archive-destination
fixture. -/
theorem claim_c4_witness :
    ∃ r, executeModel fixFSBak reqBakArchive = (.ok r, [], [⟨.blocking, true⟩]) ∧
      r.successCount = 0 ∧ r.failureCount = 0 ∧ r.errors.length = 1 ∧
      r.message = "backup failed" :=
  claim_c4_amended fixFSBak reqBakArchive rfl (by decide) (by decide)
    (by decide)

/-! ### Claim C6 -/

/-- C6: `Invalidate(p)` evicts exactly the cached keys at or under `p`
under the separator-bounded prefix test `isWithin`: a key survives iff it
is neither `p` itself nor an extension of `p ++ "/"`.  In particular the
sibling `"/root/ab"` of `p = "/root/a"` is kept even though it extends
`p` as a raw string, while `"/root/a/x"` and `"/root/a"` are evicted. -/
theorem claim_c6 :
    (∀ (keys : List String) (p k : String),
      k ∈ invalidateKeys keys p ↔
        k ∈ keys ∧ ¬(k = p ∨ strHasPrefixGo k (p ++ "/") = true)) ∧
    isWithinStr "/root/a" "/root/ab" = false ∧
    isWithinStr "/root/a" "/root/a/x" = true ∧
    isWithinStr "/root/a" "/root/a" = true ∧
    invalidateKeys ["/root/a", "/root/ab", "/root/a/x", "/root/b"] "/root/a"
      = ["/root/ab", "/root/b"] := by
  refine ⟨?_, by decide, by decide, by decide, by decide⟩
  intro keys p k
  unfold invalidateKeys
  rw [List.mem_filter]
  constructor
  · rintro ⟨h1, h2⟩
    refine ⟨h1, ?_⟩
    simp only [Bool.not_eq_true'] at h2
    unfold isWithinStr at h2
    rw [Bool.or_eq_false_iff] at h2
    rintro (rfl | hpre)
    · simp at h2
    · rw [h2.2] at hpre
      cases hpre
  · rintro ⟨h1, h2⟩
    refine ⟨h1, ?_⟩
    simp only [Bool.not_eq_true']
    unfold isWithinStr
    rw [Bool.or_eq_false_iff]
    constructor
    · by_cases he : p = k
      · exact absurd (Or.inl he.symm) h2
      · simp [he]
    · by_cases hp : strHasPrefixGo k (p ++ "/") = true
      · exact absurd (Or.inr hp) h2
      · simpa using hp

theorem fixT1_wf : TreeWF fixT1 := by
  refine TreeWF.dir _ _ _ (by decide) (fun c hc => ?_)
  cases hc with
  | head => exact TreeWF.file _ _ _
  | tail _ h =>
    cases h with
    | head =>
      refine TreeWF.dir _ _ _ (by decide) (fun c2 hc2 => ?_)
      cases hc2 with
      | head => exact TreeWF.file _ _ _
      | tail _ h2 =>
        cases h2 with
        | head => exact TreeWF.file _ _ _
        | tail _ h3 => cases h3
    | tail _ h2 => cases h2

theorem fixT2_wf : TreeWF fixT2 := by
  refine TreeWF.dir _ _ _ (by decide) (fun c hc => ?_)
  cases hc with
  | head => exact TreeWF.file _ _ _
  | tail _ h =>
    cases h with
    | head =>
      refine TreeWF.dir _ _ _ (by decide) (fun c2 hc2 => ?_)
      cases hc2 with
      | head => exact TreeWF.file _ _ _
      | tail _ h2 => cases h2
    | tail _ h2 => cases h2

theorem fixT4_wf : TreeWF fixT4 := by
  refine TreeWF.dir _ _ _ (by decide) (fun c hc => ?_)
  cases hc with
  | head =>
    refine TreeWF.dir _ _ _ (by decide) (fun c2 hc2 => ?_)
    cases hc2 with
    | head => exact TreeWF.file _ _ _
    | tail _ h2 => cases h2
  | tail _ h => cases h

theorem fixT5_wf : TreeWF fixT5 := by
  refine TreeWF.dir _ _ _ (by decide) (fun c hc => ?_)
  cases hc with
  | head => exact TreeWF.file _ _ _
  | tail _ h =>
    cases h with
    | head => exact TreeWF.file _ _ _
    | tail _ h2 => cases h2

theorem fixSplice_cwf : CacheWF fixStSplice.cacheEntries := by
  refine ⟨?_, by decide⟩
  intro e he
  rcases List.mem_cons.mp he with rfl | he2
  · refine ⟨by decide, ?_, ?_, by decide⟩
    · intro q hq
      injection hq with h
      subst h
      decide
    · intro h
      cases h
  · rcases List.mem_cons.mp he2 with rfl | he3
    · refine ⟨by decide, ?_, ?_, by decide⟩
      · intro q hq
        injection hq with h
        subst h
        decide
      · intro _
        exact Or.inl (by decide)
    · cases he3

/-! ### Claim C2 -/

/-- C2 (counterexample): the claimed invariant — a directory's
`AccumBytes` is the sum of the `AccumBytes` of its children, `ChildrenIDs`
being the set of direct children — fails on the mid-walk splice path.
`mergeCachedSubtree` inserts cached nodes whose `ChildrenIDs` are already
populated, and `applyHierarchy` appends each spliced child to its parent
again without deduplication, so the aggregation loops count it twice: in
the splice scan of `fixT2` the directory `b` has the single distinct
child `x` with `AccumBytes = 5`, yet `b.AccumBytes = 10`. -/
theorem claim_c2_counterexample :
    (scanModel fixStSplice fixT2 ["r"] true none none).2.1
      = .ok (.walked fixN2) ∧
    (∃ b ∈ fixN2, b.id = ["r", "b"] ∧ b.ptype = .dir ∧
      b.childrenIDs.dedup = [["r", "b", "x"]] ∧
      dirSum accumSpec fixN2 b.childrenIDs.dedup = 5 ∧
      b.accumBytes = 10) ∧
    ¬(∀ b ∈ fixN2, b.ptype = .dir →
        b.accumBytes = dirSum accumSpec fixN2 b.childrenIDs.dedup) := by
  exact ⟨rfl, by decide, by decide⟩

/-- C2 (amended): in the node index of every successful full-walk `Scan`,
every file node's `AccumBytes` equals its `SizeBytes`, and every
directory node's `AccumBytes` is the sum of the `AccumBytes` of the
entries of its `ChildrenIDs` *list, with multiplicity*.  This is only an
internal-consistency statement: on the mid-walk splice path
`applyHierarchy` appends spliced children onto already-populated child
lists, so `ChildrenIDs` can name the same child twice and the computed
`AccumBytes` double-counts it — the claim's set-of-children sum is
refuted by the counterexample. -/
theorem claim_c2_amended (st : ScannerState) (t : FSTree) (root : List String)
    (sh : Bool) (budget jobCut : Option Nat) (N : List Node)
    (htwf : TreeWF t) (hcwf : CacheWF st.cacheEntries)
    (hrun : (scanModel st t root sh budget jobCut).2.1 = .ok (.walked N)) :
    ∀ n ∈ N,
      (n.ptype = .file → n.accumBytes = n.sizeBytes) ∧
      (n.ptype = .dir →
        n.accumBytes = dirSum accumSpec N n.childrenIDs) := by
  have hfull : scanModel st t root sh budget jobCut
      = ((scanModel st t root sh budget jobCut).1, .ok (.walked N),
         (scanModel st t root sh budget jobCut).2.2) := by
    rw [← hrun]
  have h := scanModel_walked_inv htwf hcwf hfull
  intro n hn
  exact ⟨fun hf => ((h n hn).1 hf).1, fun hd => ((h n hn).2 hd).1⟩

/-- C2 witness: the amended theorem at the mid-walk splice scan of
`fixT2` over the loaded cache of `fixStSplice`, specialised to its
spliced file node and to the spliced directory `b` — whose appended child
list names `x` twice, so the list-sum is `5 + 5 = 10`. -/
theorem claim_c2_witness :
    (⟨["r", "b", "x"], "x", .file, 5, 5, 33, some ["r", "b"], [], 0, 1, 0,
        false⟩ : Node).accumBytes
      = (⟨["r", "b", "x"], "x", .file, 5, 5, 33, some ["r", "b"], [], 0, 1,
        0, false⟩ : Node).sizeBytes ∧
    (⟨["r", "b"], "b", .dir, 0, 10, 22, some ["r"],
        [["r", "b", "x"], ["r", "b", "x"]], 0, 2, 0, true⟩ : Node).accumBytes
      = dirSum accumSpec fixN2
        (⟨["r", "b"], "b", .dir, 0, 10, 22, some ["r"],
          [["r", "b", "x"], ["r", "b", "x"]], 0, 2, 0,
          true⟩ : Node).childrenIDs := by
  have h := claim_c2_amended fixStSplice fixT2 ["r"] true none none fixN2
    fixT2_wf fixSplice_cwf rfl
  exact ⟨(h _ (by decide)).1 rfl, (h _ (by decide)).2 rfl⟩

/-! ### Claim C3 -/

/-- C3 (counterexample): a scan cancelled while file-size jobs are pending
(the workers observe cancellation before draining any job, modelled by
`jobCut = some 0`) does not return a cancellation result and does not
leave the in-memory cache as it was: the collector loop exits on
`ctx.Done()` without setting any error, so `Scan` falls through to
`replaceCache` and writes the partial index — whose file sizes were never
filled in — into the cache. -/
theorem claim_c3_counterexample :
    (scanModel emptyScanner fixT3 ["r"] true none (some 0)).2.1
      = .ok (.walked fixN3) ∧
    (scanModel emptyScanner fixT3 ["r"] true none (some 0)).1.cache
      = fixN3 ∧
    emptyScanner.cache = [] ∧ fixN3 ≠ [] := by
  exact ⟨rfl, rfl, rfl, by decide⟩

/-- C3 (amended): a scan cancelled during the walk (a `ctx.Err()` poll at
a directory-entry visit fires) returns the cancellation error and leaves
the scanner state — in particular the in-memory cache — exactly as it was
before the scan.  (Cancellation in the window after the walk, while
file-size jobs are still pending, instead returns success and rewrites
the cache; see the counterexample.) -/
theorem claim_c3_amended (st : ScannerState) (t : FSTree)
    (root : List String) (sh : Bool) (budget jobCut : Option Nat)
    (e : ScanErr)
    (hrun : (scanModel st t root sh budget jobCut).2.1 = .error e) :
    (scanModel st t root sh budget jobCut).1 = st ∧ e = .cancelled := by
  have hfull : scanModel st t root sh budget jobCut
      = ((scanModel st t root sh budget jobCut).1, .error e,
         (scanModel st t root sh budget jobCut).2.2) := by
    rw [← hrun]
  exact ⟨scanModel_error_state hfull, by cases e; rfl⟩

/-- C3 witness: the amended theorem applied to a walk of `fixT1` whose
cancellation budget expires at the second directory-entry visit. -/
theorem claim_c3_witness :
    (scanModel emptyScanner fixT1 ["r"] true (some 1) none).1
      = emptyScanner ∧ ScanErr.cancelled = ScanErr.cancelled :=
  claim_c3_amended emptyScanner fixT1 ["r"] true (some 1) none .cancelled
    rfl

/-! ### Claim C8 -/

/-- C8 (counterexample): file nodes in a completed scan do not have
`FileCount = 0`: `applyFileCounts` assigns every file node the value `1`
(the Go pass counts the node itself), so the concrete scan of `fixT1`
contains file nodes with `FileCount = 1`. -/
theorem claim_c8_counterexample :
    (scanModel emptyScanner fixT1 ["r"] true none none).2.1
      = .ok (.walked fixN1) ∧
    (∃ n ∈ fixN1, n.ptype = .file ∧ n.fileCount = 1) ∧
    ¬(∀ n ∈ fixN1, n.ptype = .file → n.fileCount = 0 ∧ n.dirCount = 0) := by
  exact ⟨rfl, by decide, by decide⟩

/-- C8 (amended): in every completed scan's index a file node has
`FileCount = 1` — the pass counts the file itself, not only proper
descendants — and `DirCount = 0`. -/
theorem claim_c8_amended (st : ScannerState) (t : FSTree)
    (root : List String) (sh : Bool) (budget jobCut : Option Nat)
    (N : List Node) (htwf : TreeWF t) (hcwf : CacheWF st.cacheEntries)
    (hrun : (scanModel st t root sh budget jobCut).2.1 = .ok (.walked N)) :
    ∀ n ∈ N, n.ptype = .file → n.fileCount = 1 ∧ n.dirCount = 0 := by
  have hfull : scanModel st t root sh budget jobCut
      = ((scanModel st t root sh budget jobCut).1, .ok (.walked N),
         (scanModel st t root sh budget jobCut).2.2) := by
    rw [← hrun]
  have h := scanModel_walked_inv htwf hcwf hfull
  intro n hn hf
  exact ⟨((h n hn).1 hf).2.1, ((h n hn).1 hf).2.2⟩

/-- C8 witness: the amended theorem at the concrete scan of `fixT1`,
specialised to its file node `r/a`. -/
theorem claim_c8_witness :
    (⟨["r", "a"], "a", .file, 10, 10, zeroTimeNano, some ["r"], [], 0, 1, 0,
        false⟩ : Node).fileCount = 1 ∧
    (⟨["r", "a"], "a", .file, 10, 10, zeroTimeNano, some ["r"], [], 0, 1, 0,
        false⟩ : Node).dirCount = 0 :=
  claim_c8_amended emptyScanner fixT1 ["r"] true none none fixN1 fixT1_wf
    trivial rfl _ (by decide) rfl

/-! ### Claim C5 -/

/-- C5 (counterexample): the exclusion set is not applied for every value
of `showHidden`: the skip test guards both the hidden-name check and the
exclusion check with `!req.ShowHidden`, so a `showHidden = true` walk of
`fixT4` descends into `node_modules` and indexes its subtree. -/
theorem claim_c5_counterexample :
    (scanModel emptyScanner fixT4 ["r"] true none none).2.1
      = .ok (.walked fixN4) ∧
    (∃ n ∈ fixN4, n.id = ["r", "node_modules"]) ∧
    isExcludedName "node_modules" = true := by
  exact ⟨rfl, by decide, by decide⟩

/-- C5 (amended): in every `showHidden = false` scan that walks the tree
— provided the loaded cache entries themselves carry no excluded segment
below the root, as entries saved by `showHidden = false` scans do — no
node of the result has a segment below the root drawn from the exclusion
set (`".git"`, `"node_modules"`, `".cache"`): excluded directories are
skipped with their entire subtrees.  With `showHidden = true` the
exclusion set is not applied (see the counterexample). -/
theorem claim_c5_amended (st : ScannerState) (t : FSTree)
    (root : List String) (budget jobCut : Option Nat) (N : List Node)
    (htwf : TreeWF t) (hcwf : CacheWF st.cacheEntries)
    (hcg : CacheGood root st.cacheEntries)
    (hrun : (scanModel st t root false budget jobCut).2.1
      = .ok (.walked N)) :
    ∀ n ∈ N, ∀ s ∈ n.id.drop root.length, isExcludedName s = false := by
  have hfull : scanModel st t root false budget jobCut
      = ((scanModel st t root false budget jobCut).1, .ok (.walked N),
         (scanModel st t root false budget jobCut).2.2) := by
    rw [← hrun]
  obtain ⟨w1, w2, hpoll, hwt, hN, hst2, hevs⟩ := scanModel_walked_elim hfull
  obtain ⟨hinv0, hfresh0⟩ := walkStart_inv st false root hpoll
  have post := walkTree_sound _ root t w1 w2 (List.prefix_refl root) htwf
    hcwf hinv0 hfresh0 hwt
  have hw1n : w1.nodes = [] := (pollBudget_fields hpoll).1
  have hgood : ∀ n ∈ w2.nodes, goodSegs root n.id := by
    refine walkTree_goodSegs _ root t w1 w2 rfl hcg (List.prefix_refl root)
      ?_ ?_ hwt
    · intro s hs
      rw [List.drop_length] at hs
      cases hs
    · intro n hn
      rw [hw1n] at hn
      cases hn
  obtain ⟨hnds, hwfs⟩ := @sized_wf _
    (w2.jobs.take (jobCutLen jobCut w2.jobs.length))
    post.inv.ndN post.inv.wfN
  have hwf_h := applyHierarchy_wf hwfs
  have hnd_h : (ids (applyHierarchy
      (applyResults w2.nodes
        (w2.jobs.take (jobCutLen jobCut w2.jobs.length))))).Nodup := by
    rw [applyHierarchy_ids]
    exact hnds
  have hdeep_h := fun n hn => (hwf_h n hn).1
  have h1 : List.Forall₂ (fun (a b : Node) => b.id = a.id) w2.nodes
      (applyResults w2.nodes
        (w2.jobs.take (jobCutLen jobCut w2.jobs.length))) :=
    (applyResults_rel _ _).imp (fun {a b} hr => hr.1)
  have h2 : List.Forall₂ (fun (a b : Node) => b.id = a.id)
      (applyResults w2.nodes
        (w2.jobs.take (jobCutLen jobCut w2.jobs.length)))
      (applyHierarchy (applyResults w2.nodes
        (w2.jobs.take (jobCutLen jobCut w2.jobs.length)))) :=
    (applyHierarchy_rel _).imp (fun {a b} hr => hr.1)
  have h3 : List.Forall₂ (fun (a b : Node) => b.id = a.id)
      (applyHierarchy (applyResults w2.nodes
        (w2.jobs.take (jobCutLen jobCut w2.jobs.length)))) N := by
    rw [hN]
    exact (passes_keep _ hnd_h hdeep_h).imp (fun {a b} hr => hr.1)
  have h12 := forall2_trans
    (fun (a m b : Node) (x : m.id = a.id) (y : b.id = m.id) => y.trans x)
    h1 h2
  have h123 := forall2_trans
    (fun (a m b : Node) (x : m.id = a.id) (y : b.id = m.id) => y.trans x)
    h12 h3
  intro n hn
  rcases forall2_mem_right h123 n hn with ⟨a, ha, hid⟩
  rw [hid]
  exact hgood a ha

/-- C5 witness: the amended theorem at a `showHidden = false` scan of
`fixT1`, specialised to the below-root segment `"b"` of the result node
`r/b/c`. -/
theorem claim_c5_witness : isExcludedName "b" = false := by
  have h := claim_c5_amended emptyScanner fixT1 ["r"] none none fixN1
    fixT1_wf trivial trivial rfl
  exact h ⟨["r", "b", "c"], "c", .file, 5, 5, zeroTimeNano, some ["r", "b"],
    [], 0, 1, 0, false⟩ (by decide) "b" (by decide)

/-! ### Claim C7 -/

/-- C7 (counterexample): idempotence fails in the per-directory-splice
answering mode.  Both scans are of the one unchanged tree `fixT6`; the
second runs over exactly the entries saved for the first scan's index.
Whole-root reuse fails (the saved root modification time is the zero
time, the live root reports `11`), but directory `b` is answered by a
mid-walk splice (its live modification time is the zero time the saved
entry records), `applyHierarchy` appends the spliced child `c` to `b`'s
already-populated child list again, and the second index reports
`AccumBytes = 10` and `FileCount = 2` for `b` against `5` and `1` in the
first — the aggregates are not identical. -/
theorem claim_c7_counterexample :
    (scanModel emptyScanner fixT6 ["r"] true none none).2.1
      = .ok (.walked fixN6) ∧
    (scanModel ⟨[], [], some (saveEntries fixN6), true, none⟩ fixT6 ["r"]
        true none none).2.1 = .ok (.walked fixN6b) ∧
    (∃ b ∈ fixN6, b.id = ["r", "b"] ∧ b.accumBytes = 5 ∧
      b.fileCount = 1) ∧
    (∃ b ∈ fixN6b, b.id = ["r", "b"] ∧ b.accumBytes = 10 ∧
      b.fileCount = 2) ∧
    fixN6b ≠ fixN6 := by
  exact ⟨rfl, rfl, by decide, by decide, by decide⟩

/-- C7 (amended): scanning an unchanged tree twice yields identical node
indexes (hence identical `AccumBytes` / `FileCount` / `DirCount` for
every node) on two of the three paths the claim names.  First conjunct:
a re-walk of the same tree from any two scanner states agreeing on the
loaded cache (the walk's only state input) produces the same index.
Second conjunct: a scan answered by whole-root reuse from a cache
holding exactly the entries saved for a previous walk's index returns
that index verbatim.  In the third mode — a rescan answered by a
per-directory splice — idempotence fails: the spliced children are
appended to already-populated child lists and the aggregates inflate
(see the counterexample). -/
theorem claim_c7_amended :
    (∀ (st st' : ScannerState) (t : FSTree) (root : List String)
       (sh : Bool) (budget jobCut : Option Nat) (N N' : List Node),
      st.cacheEntries = st'.cacheEntries →
      st.cacheHiddenFlag = st'.cacheHiddenFlag →
      (scanModel st t root sh budget jobCut).2.1 = .ok (.walked N) →
      (scanModel st' t root sh budget jobCut).2.1 = .ok (.walked N') →
      N' = N) ∧
    (∀ (st st' : ScannerState) (t t2 : FSTree) (root : List String)
       (sh sh2 : Bool) (budget jobCut budget2 jobCut2 : Option Nat)
       (N N2 : List Node),
      TreeWF t → CacheWF st.cacheEntries →
      (scanModel st t root sh budget jobCut).2.1 = .ok (.walked N) →
      st'.cacheEntries = some (saveEntries N) →
      (scanModel st' t2 root sh2 budget2 jobCut2).2.1
        = .ok (.reusedRoot N2) →
      N2 = N) := by
  constructor
  · intro st st' t root sh budget jobCut N N' hce hcf hrun hrun'
    have hfull : scanModel st t root sh budget jobCut
        = ((scanModel st t root sh budget jobCut).1, .ok (.walked N),
           (scanModel st t root sh budget jobCut).2.2) := by
      rw [← hrun]
    have hfull' : scanModel st' t root sh budget jobCut
        = ((scanModel st' t root sh budget jobCut).1, .ok (.walked N'),
           (scanModel st' t root sh budget jobCut).2.2) := by
      rw [← hrun']
    obtain ⟨w1, w2, hpoll, hwt, hN, _, _⟩ := scanModel_walked_elim hfull
    obtain ⟨w1', w2', hpoll', hwt', hN', _, _⟩ :=
      scanModel_walked_elim hfull'
    rw [hpoll] at hpoll'
    obtain rfl : w1 = w1' := Option.some.inj hpoll'
    rw [← hce, ← hcf] at hwt'
    rw [hwt] at hwt'
    injection hwt' with hw2
    rw [hN', ← hw2, hN]
  · intro st st' t t2 root sh sh2 budget jobCut budget2 jobCut2 N N2 htwf
      hcwf hrun hce' hrun2
    have hfull : scanModel st t root sh budget jobCut
        = ((scanModel st t root sh budget jobCut).1, .ok (.walked N),
           (scanModel st t root sh budget jobCut).2.2) := by
      rw [← hrun]
    have hfull2 : scanModel st' t2 root sh2 budget2 jobCut2
        = ((scanModel st' t2 root sh2 budget2 jobCut2).1,
           .ok (.reusedRoot N2),
           (scanModel st' t2 root sh2 budget2 jobCut2).2.2) := by
      rw [← hrun2]
    have hshape := scanModel_walked_shape htwf hcwf hfull
    obtain ⟨_, hN2, _⟩ := scanModel_reused_elim hfull2
    rw [hce'] at hN2
    rw [hN2]
    exact spliceNodes_saveEntries (fun n hn => (hshape n hn).1)
      (fun n hn => (hshape n hn).2.1) (fun n hn => (hshape n hn).2.2)

/-- C7 witness: the amended theorem's determinism conjunct across two
states agreeing on the loaded cache, and its whole-root-reuse conjunct
for the saved `fixT1` index (the second tree reports the zero-time
modification time the saved entries record). -/
theorem claim_c7_witness : fixN1 = fixN1 ∧ fixN1 = fixN1 := by
  constructor
  · exact claim_c7_amended.1 emptyScanner
      ⟨fixN1, [["q"]], none, false, some ["q"]⟩
      fixT1 ["r"] true none none fixN1 fixN1 rfl rfl rfl rfl
  · exact claim_c7_amended.2 emptyScanner
      ⟨[], [], some (saveEntries fixN1), true,
        none⟩ fixT1 (.dir "r" zeroTimeNano []) ["r"] true true none none
      none none fixN1 fixN1 fixT1_wf trivial rfl rfl rfl

/-! ### Event-kind lemmas for claim C9 -/

theorem mem_of_mem_dropLast {α : Type} {e : α} {l : List α}
    (h : e ∈ l.dropLast) : e ∈ l :=
  (List.dropLast_sublist l).subset h

theorem collectorEvents_nb (p : Nat) :
    ∀ e ∈ collectorEvents p, e.kind = .nonBlocking := by
  intro e he
  rcases List.mem_filterMap.mp he with ⟨i, _, hee⟩
  by_cases hc : ((i + 1) % 200 == 0) = true
  · rw [if_pos hc] at hee
    injection hee with h
    rw [← h]
  · rw [if_neg hc] at hee
    cases hee

theorem foldl_keep {α β : Type} (P : β → Prop) (step : β → α → β)
    (hstep : ∀ acc a, P acc → P (step acc a)) :
    ∀ (l : List α) (init : β), P init → P (l.foldl step init) := by
  intro l
  induction l with
  | nil =>
    intro init h
    exact h
  | cons a rest ih =>
    intro init h
    exact ih (step init a) (hstep init a h)

theorem deleteDirectoryModel_nb (fs : ActionFS) (p : String) :
    ∀ e ∈ (deleteDirectoryModel fs p).2.2, e.kind = .nonBlocking := by
  intro e he
  unfold deleteDirectoryModel at he
  dsimp only at he
  rcases List.mem_map.mp he with ⟨x, _, rfl⟩
  rfl

theorem deletePathsModel_nb (fs : ActionFS) (paths : List String) :
    ∀ e ∈ (deletePathsModel fs paths).2.2, e.kind = .nonBlocking := by
  unfold deletePathsModel
  dsimp only
  refine foldl_keep
    (fun (acc : ActionResult × List FSEffect × List SendEvent) =>
      ∀ e ∈ acc.2.2, e.kind = SendKind.nonBlocking) _ ?_ paths _ ?_
  · intro acc a hP
    obtain ⟨r, effs, evs⟩ := acc
    dsimp only
    cases hl : lstatFS fs a with
    | none => exact hP
    | some b =>
      cases b with
      | true =>
        intro e he
        rcases List.mem_append.mp he with h | h
        · exact hP e h
        · exact deleteDirectoryModel_nb fs a e h
      | false =>
        intro e he
        rcases List.mem_append.mp he with h | h
        · exact hP e h
        · have : e = actionTick := by simpa using h
          rw [this]
          rfl
  · intro e he
    cases he

theorem movePathsModel_nb (fs : ActionFS) (paths : List String)
    (destination : String) :
    ∀ e ∈ (movePathsModel fs paths destination).2.2,
      e.kind = .nonBlocking := by
  unfold movePathsModel
  cases hr : resolveDestination fs destination paths with
  | error e =>
    intro e he
    cases he
  | ok pq =>
    obtain ⟨resolvedDest, destDir⟩ := pq
    dsimp only
    refine foldl_keep
      (fun (acc : ActionResult × List FSEffect × List SendEvent) =>
        ∀ e ∈ acc.2.2, e.kind = SendKind.nonBlocking) _ ?_ paths _ ?_
    · intro acc a hP
      obtain ⟨r, effs, evs⟩ := acc
      dsimp only
      by_cases hex : existsFS fs (if destDir then
          resolvedDest ++ "/" ++ ((a.splitOn "/").getLastD a)
        else resolvedDest) = true
      · rw [if_pos hex]
        exact hP
      · rw [if_neg hex]
        by_cases hsd : fs.sameDevice a (if destDir then
            resolvedDest ++ "/" ++ ((a.splitOn "/").getLastD a)
          else resolvedDest) = true
        · rw [if_pos hsd]
          intro e he
          rcases List.mem_append.mp he with h | h
          · exact hP e h
          · have : e = actionTick := by simpa using h
            rw [this]
            rfl
        · rw [if_neg hsd]
          cases hc : copyPathEffects fs a (if destDir then
              resolvedDest ++ "/" ++ ((a.splitOn "/").getLastD a)
            else resolvedDest) with
          | none => exact hP
          | some ce =>
            intro e he
            rcases List.mem_append.mp he with h | h
            · exact hP e h
            · exact deletePathsModel_nb fs [a] e h
    · intro e he
      cases he

theorem copyPathsModel_nb (fs : ActionFS) (paths : List String)
    (destination : String) :
    ∀ e ∈ (copyPathsModel fs paths destination).2.2,
      e.kind = .nonBlocking := by
  unfold copyPathsModel
  cases hr : resolveDestination fs destination paths with
  | error e =>
    intro e he
    cases he
  | ok pq =>
    obtain ⟨resolvedDest, destDir⟩ := pq
    dsimp only
    refine foldl_keep
      (fun (acc : ActionResult × List FSEffect × List SendEvent) =>
        ∀ e ∈ acc.2.2, e.kind = SendKind.nonBlocking) _ ?_ paths _ ?_
    · intro acc a hP
      obtain ⟨r, effs, evs⟩ := acc
      dsimp only
      by_cases hex : existsFS fs (if destDir then
          resolvedDest ++ "/" ++ ((a.splitOn "/").getLastD a)
        else resolvedDest) = true
      · rw [if_pos hex]
        exact hP
      · rw [if_neg hex]
        cases hc : copyPathEffects fs a (if destDir then
            resolvedDest ++ "/" ++ ((a.splitOn "/").getLastD a)
          else resolvedDest) with
        | none => exact hP
        | some ce =>
          intro e he
          rcases List.mem_append.mp he with h | h
          · exact hP e h
          · have : e = actionTick := by simpa using h
            rw [this]
            rfl
    · intro e he
      cases he

theorem backupCompressedModel_nb (fs : ActionFS) (paths : List String)
    (destination : String) :
    ∀ e ∈ (backupCompressedModel fs paths destination).2.2,
      e.kind = .nonBlocking := by
  unfold backupCompressedModel
  by_cases hd : existsFS fs destination = true
  · rw [if_pos hd]
    intro e he
    cases he
  · rw [if_neg hd]
    dsimp only
    refine foldl_keep
      (fun (acc : ActionResult × List FSEffect × List SendEvent) =>
        ∀ e ∈ acc.2.2, e.kind = SendKind.nonBlocking) _ ?_ paths _ ?_
    · intro acc a hP
      obtain ⟨r, effs, evs⟩ := acc
      dsimp only
      by_cases hex : existsFS fs a = true
      · rw [hex, if_neg (by decide : ¬((!true) = true))]
        intro e he
        rcases List.mem_append.mp he with h | h
        · exact hP e h
        · rcases List.mem_map.mp h with ⟨x, _, rfl⟩
          rfl
      · rw [Bool.eq_false_iff.mpr hex, if_pos (by decide : (!false) = true)]
        exact hP
    · intro e he
      cases he

theorem backupCopyModel_nb (fs : ActionFS) (paths : List String)
    (destination : String) :
    ∀ e ∈ (backupCopyModel fs paths destination).2.2,
      e.kind = .nonBlocking := by
  unfold backupCopyModel
  by_cases hd : existsFS fs destination = true
  · rw [if_pos hd]
    intro e he
    cases he
  · rw [if_neg hd]
    dsimp only
    refine foldl_keep
      (fun (acc : ActionResult × List FSEffect × List SendEvent) =>
        ∀ e ∈ acc.2.2, e.kind = SendKind.nonBlocking) _ ?_ paths _ ?_
    · intro acc a hP
      obtain ⟨r, effs, evs⟩ := acc
      dsimp only
      cases hc : copyPathEffects fs a
          (destination ++ "/" ++ ((a.splitOn "/").getLastD a)) with
      | none => exact hP
      | some ce =>
        intro e he
        rcases List.mem_append.mp he with h | h
        · exact hP e h
        · have : e = actionTick := by simpa using h
          rw [this]
          rfl
    · intro e he
      cases he

theorem backupPathsModel_nb (fs : ActionFS) (paths : List String)
    (destination : String) :
    ∀ e ∈ (backupPathsModel fs paths destination).2.2,
      e.kind = .nonBlocking := by
  unfold backupPathsModel
  by_cases hd : destination = ""
  · rw [if_pos hd]
    intro e he
    cases he
  · rw [if_neg hd]
    by_cases hs : strHasSuffixGo destination ".tar.gz" = true
    · rw [if_pos hs]
      exact backupCompressedModel_nb fs paths destination
    · rw [if_neg hs]
      exact backupCopyModel_nb fs paths destination

/-! ### Claim C9 -/

/-- C9 (counterexample): not every progress send is non-blocking.  The
final completion sentinel of a full-walk `Scan` and of `Execute` is a
plain channel send (`progress <- ScanProgress{..., Completed: true}` and
`progress <- ActionProgress{..., Completed: true}`), not the
`select`/`default` drop-on-full send used everywhere else, so the last
event of both concrete traces is a blocking send. -/
theorem claim_c9_counterexample :
    (scanModel emptyScanner fixT1 ["r"] true none none).2.2
      = [⟨.blocking, true⟩] ∧
    (executeModel fixFS reqDelFileConfirm).2.2.getLast?
      = some ⟨.blocking, true⟩ ∧
    SendKind.blocking ≠ SendKind.nonBlocking := by
  exact ⟨rfl, rfl, by decide⟩

/-- C9 (amended): every progress send of `Scan` and `Execute` other than
the final completion sentinel is non-blocking (drop-on-full), so a slow
consumer never blocks the walk or the per-item work; but the completion
sentinel of a full-walk `Scan` and of a successful `Execute` is a plain,
potentially blocking send.  (A `Scan` answered from the cache sends its
sentinel non-blockingly; a failed `Execute` sends nothing.) -/
theorem claim_c9 :
    (∀ (st : ScannerState) (t : FSTree) (root : List String) (sh : Bool)
       (budget jobCut : Option Nat),
      ∀ e ∈ (scanModel st t root sh budget jobCut).2.2.dropLast,
        e.kind = .nonBlocking) ∧
    (∀ (st : ScannerState) (t : FSTree) (root : List String) (sh : Bool)
       (budget jobCut : Option Nat) (N : List Node),
      (scanModel st t root sh budget jobCut).2.1 = .ok (.walked N) →
      (scanModel st t root sh budget jobCut).2.2.getLast?
        = some ⟨.blocking, true⟩) ∧
    (∀ (fs : ActionFS) (req : ActionRequest),
      ∀ e ∈ (executeModel fs req).2.2.dropLast, e.kind = .nonBlocking) ∧
    (∀ (fs : ActionFS) (req : ActionRequest) (r : ActionResult),
      (executeModel fs req).1 = .ok r →
      (executeModel fs req).2.2.getLast? = some ⟨.blocking, true⟩) := by
  have hscan : ∀ (st : ScannerState) (t : FSTree) (root : List String)
      (sh : Bool) (budget jobCut : Option Nat),
      (∀ e ∈ (scanModel st t root sh budget jobCut).2.2.dropLast,
        e.kind = .nonBlocking) ∧
      (∀ N, (scanModel st t root sh budget jobCut).2.1 = .ok (.walked N) →
        (scanModel st t root sh budget jobCut).2.2.getLast?
          = some ⟨.blocking, true⟩) := by
    intro st t root sh budget jobCut
    unfold scanModel
    by_cases h1 : canReuseRootM st root sh t = true
    · rw [if_pos h1]
      dsimp only
      constructor
      · intro e he
        simp at he
      · intro N hN
        injection hN with h
        cases h
    · rw [if_neg h1]
      by_cases h2 : st.scannedDirs.contains root = true
      · rw [if_pos h2]
        dsimp only
        constructor
        · intro e he
          simp at he
        · intro N hN
          injection hN with h
          cases h
      · rw [if_neg h2]
        dsimp only
        cases hpoll : pollBudget ⟨[], [], 0, [], budget⟩ with
        | none =>
          constructor
          · intro e he
            simp at he
          · intro N hN
            cases hN
        | some w1 =>
          dsimp only
          cases hwt : walkTree
              ⟨st.cacheEntries, st.cacheHiddenFlag, sh, 0, root⟩ root t
              w1 with
          | cancelled w2 =>
            have hw1e : w1.events = [] := (pollBudget_fields hpoll).2.2.1
            constructor
            · intro e he
              have hmem := mem_of_mem_dropLast he
              have hall := walkTree_events
                ⟨st.cacheEntries, st.cacheHiddenFlag, sh, 0, root⟩ root t
                w1 e
              rw [hwt] at hall
              rcases hall hmem with h | h
              · rw [hw1e] at h
                cases h
              · exact h
            · intro N hN
              cases hN
          | done w2 =>
            have hw1e : w1.events = [] := (pollBudget_fields hpoll).2.2.1
            constructor
            · intro e he
              rw [List.dropLast_concat] at he
              rcases List.mem_append.mp he with h | h
              · have hall := walkTree_events
                  ⟨st.cacheEntries, st.cacheHiddenFlag, sh, 0, root⟩ root
                  t w1 e
                rw [hwt] at hall
                rcases hall h with h2 | h2
                · rw [hw1e] at h2
                  cases h2
                · exact h2
              · exact collectorEvents_nb _ e h
            · intro N hN
              exact List.getLast?_concat _
  refine ⟨?_, ?_, ?_, ?_⟩
  · intro st t root sh budget jobCut
    exact (hscan st t root sh budget jobCut).1
  · intro st t root sh budget jobCut N
    exact (hscan st t root sh budget jobCut).2 N
  · intro fs req
    unfold executeModel
    dsimp only
    cases hv : validateRequest fs.home req (normalizePaths req.sourcePaths)
      with
    | error e =>
      intro e he
      cases he
    | ok u =>
      cases u
      dsimp only
      cases hc : requireConfirmation fs req
          (normalizePaths req.sourcePaths) with
      | error e =>
        intro e he
        cases he
      | ok u =>
        cases u
        dsimp only
        intro e he
        rw [List.dropLast_concat] at he
        cases hty : req.rtype with
        | delete =>
          rw [hty] at he
          exact deletePathsModel_nb fs _ e he
        | move =>
          rw [hty] at he
          exact movePathsModel_nb fs _ _ e he
        | copy =>
          rw [hty] at he
          exact copyPathsModel_nb fs _ _ e he
        | backup =>
          rw [hty] at he
          exact backupPathsModel_nb fs _ _ e he
  · intro fs req r
    unfold executeModel
    dsimp only
    cases hv : validateRequest fs.home req (normalizePaths req.sourcePaths)
      with
    | error e =>
      intro h
      cases h
    | ok u =>
      cases u
      dsimp only
      cases hc : requireConfirmation fs req
          (normalizePaths req.sourcePaths) with
      | error e =>
        intro h
        cases h
      | ok u =>
        cases u
        dsimp only
        intro _
        exact List.getLast?_concat _

/-- C9 witness: the amended theorem applied to the concrete full-walk
scan of `fixT1` and the concrete file deletion. -/
theorem claim_c9_witness :
    (∀ e ∈ (scanModel emptyScanner fixT1 ["r"] true none
        none).2.2.dropLast, e.kind = .nonBlocking) ∧
    (scanModel emptyScanner fixT1 ["r"] true none none).2.2.getLast?
      = some ⟨.blocking, true⟩ ∧
    (∀ e ∈ (executeModel fixFS reqDelFileConfirm).2.2.dropLast,
      e.kind = .nonBlocking) ∧
    (executeModel fixFS reqDelFileConfirm).2.2.getLast?
      = some ⟨.blocking, true⟩ := by
  refine ⟨claim_c9.1 emptyScanner fixT1 ["r"] true none none,
    claim_c9.2.1 emptyScanner fixT1 ["r"] true none none fixN1 rfl,
    claim_c9.2.2.1 fixFS reqDelFileConfirm,
    claim_c9.2.2.2 fixFS reqDelFileConfirm
      ⟨.delete, 1, 0, [], "delete complete"⟩ rfl⟩

/-! ### Claim C10 -/

/-- C10: a worker stat failure never aborts a scan.  For any walk (from a
scanner with no loaded cache and an uncancelled context) of a root
directory among whose entries is a non-skipped file whose deferred stat
fails, `Scan` returns success; the file's node is present in the index
with `SizeBytes = 0` and `AccumBytes = 0` but `FileCount = 1`, and every
directory's aggregates are the usual sums over its children — so the
failed file contributes `0` bytes to every ancestor's `AccumBytes` while
still counting as one file in its parent's `FileCount`. -/
theorem claim_c10 (st : ScannerState) (root : List String) (rn fn : String)
    (mt sz : Int) (cs : List FSTree) (sh : Bool)
    (hce : st.cacheEntries = none)
    (hsd : st.scannedDirs.contains root = false)
    (htwf : TreeWF (.dir rn mt cs))
    (hmem : FSTree.file fn sz false ∈ cs)
    (hskip : skipEntry ⟨st.cacheEntries, st.cacheHiddenFlag, sh, 0, root⟩
      (root ++ [fn]) fn = false) :
    ∃ N, (scanModel st (.dir rn mt cs) root sh none none).2.1
        = .ok (.walked N) ∧
      ∃ b, findNode N (root ++ [fn]) = some b ∧ b ∈ N ∧ b.ptype = .file ∧
        b.sizeBytes = 0 ∧ b.accumBytes = 0 ∧ b.fileCount = 1 ∧
        b.dirCount = 0 ∧
        (∀ n ∈ N, n.ptype = .dir →
          n.accumBytes = dirSum accumSpec N n.childrenIDs ∧
          n.fileCount = dirSum fileCountSpec N n.childrenIDs) := by
  have hcrr : canReuseRootM st root sh (.dir rn mt cs) = false := by
    unfold canReuseRootM
    rw [hce]
  obtain ⟨w2, hwt, hb2⟩ := walkTree_total
    ⟨st.cacheEntries, st.cacheHiddenFlag, sh, 0, root⟩ root
    (.dir rn mt cs) ⟨[], [], 0, [], none⟩ rfl
  have hproj : (scanModel st (.dir rn mt cs) root sh none none).2.1
      = .ok (.walked (applyDirCounts (applyFileCounts (applyAccumulation
        (applyHierarchy (applyResults w2.nodes
          (w2.jobs.take (jobCutLen none w2.jobs.length)))))))) := by
    unfold scanModel
    rw [if_neg (by rw [hcrr]; exact Bool.false_ne_true),
      if_neg (by rw [hsd]; exact Bool.false_ne_true)]
    dsimp only [pollBudget]
    rw [hwt]
  have hfull : scanModel st (.dir rn mt cs) root sh none none
      = ((scanModel st (.dir rn mt cs) root sh none none).1,
         .ok (.walked (applyDirCounts (applyFileCounts (applyAccumulation
           (applyHierarchy (applyResults w2.nodes
             (w2.jobs.take (jobCutLen none w2.jobs.length)))))))),
         (scanModel st (.dir rn mt cs) root sh none none).2.2) := by
    rw [← hproj]
  have hcwf : CacheWF st.cacheEntries := by
    rw [hce]
    exact trivial
  obtain ⟨hinv0, hfresh0⟩ := walkStart_inv st sh root
    (rfl : pollBudget ⟨[], [], 0, [], none⟩ = some ⟨[], [], 0, [], none⟩)
  have post := walkTree_sound _ root (.dir rn mt cs) _ w2
    (List.prefix_refl root) htwf hcwf hinv0 hfresh0 hwt
  have hcrd : canReuseDirM
      ⟨st.cacheEntries, st.cacheHiddenFlag, sh, 0, root⟩ root mt
      = false := by
    unfold canReuseDirM
    dsimp only
    rw [hce]
  have hwc : walkChildren
      ⟨st.cacheEntries, st.cacheHiddenFlag, sh, 0, root⟩ root cs
      (bumpVisit { (⟨[], [], 0, [], none⟩ : WalkSt) with
        nodes := [] ++ [mkDirNode
          ⟨st.cacheEntries, st.cacheHiddenFlag, sh, 0, root⟩ root rn] })
      = .done w2 := by
    have h := hwt
    simp only [walkTree] at h
    rw [if_neg (by rw [hcrd]; exact Bool.false_ne_true)] at h
    exact h
  obtain ⟨hmemN, hmemJ⟩ := walkChildren_file_mem
    ⟨st.cacheEntries, st.cacheHiddenFlag, sh, 0, root⟩ root cs _ w2 hce
    hmem hskip hwc
  have hfindW : findNode w2.nodes (root ++ [fn])
      = some (mkFileNode
        ⟨st.cacheEntries, st.cacheHiddenFlag, sh, 0, root⟩
        (root ++ [fn]) fn) :=
    findNode_eq_self post.inv.ndN hmemN
  have hjobs : ∀ j ∈ w2.jobs.take (jobCutLen none w2.jobs.length),
      jobFst j = root ++ [fn] → j.2.2 = false := by
    intro j hj hfst
    have hjm : j ∈ w2.jobs := List.mem_of_mem_take hj
    have : j = (root ++ [fn], sz, false) :=
      nodup_map_inj post.inv.ndJ hjm hmemJ hfst
    rw [this]
  have hfindS : findNode (applyResults w2.nodes
      (w2.jobs.take (jobCutLen none w2.jobs.length))) (root ++ [fn])
      = some (mkFileNode
        ⟨st.cacheEntries, st.cacheHiddenFlag, sh, 0, root⟩
        (root ++ [fn]) fn) := by
    rw [applyResults_findNode _ _ hjobs]
    exact hfindW
  obtain ⟨hnds, hwfs⟩ := @sized_wf _
    (w2.jobs.take (jobCutLen none w2.jobs.length))
    post.inv.ndN post.inv.wfN
  have hwf_h := applyHierarchy_wf hwfs
  have hnd_h : (ids (applyHierarchy
      (applyResults w2.nodes
        (w2.jobs.take (jobCutLen none w2.jobs.length))))).Nodup := by
    rw [applyHierarchy_ids]
    exact hnds
  have hdeep_h := fun n hn => (hwf_h n hn).1
  have h2 : List.Forall₂
      (fun (a b : Node) =>
        b.id = a.id ∧ b.ptype = a.ptype ∧ b.sizeBytes = a.sizeBytes)
      (applyResults w2.nodes
        (w2.jobs.take (jobCutLen none w2.jobs.length)))
      (applyHierarchy (applyResults w2.nodes
        (w2.jobs.take (jobCutLen none w2.jobs.length)))) :=
    (applyHierarchy_rel _).imp
      (fun {a b} hr => ⟨hr.1, hr.2.1, hr.2.2.1⟩)
  have h3 : List.Forall₂
      (fun (a b : Node) =>
        b.id = a.id ∧ b.ptype = a.ptype ∧ b.sizeBytes = a.sizeBytes)
      (applyHierarchy (applyResults w2.nodes
        (w2.jobs.take (jobCutLen none w2.jobs.length))))
      (applyDirCounts (applyFileCounts (applyAccumulation
        (applyHierarchy (applyResults w2.nodes
          (w2.jobs.take (jobCutLen none w2.jobs.length))))))) :=
    (passes_keep _ hnd_h hdeep_h).imp
      (fun {a b} hr => ⟨hr.1, hr.2.2.2.1, hr.2.2.2.2⟩)
  have hcomp : ∀ (a m b : Node),
      (m.id = a.id ∧ m.ptype = a.ptype ∧ m.sizeBytes = a.sizeBytes) →
      (b.id = m.id ∧ b.ptype = m.ptype ∧ b.sizeBytes = m.sizeBytes) →
      (b.id = a.id ∧ b.ptype = a.ptype ∧ b.sizeBytes = a.sizeBytes) := by
    intro a m b x y
    exact ⟨y.1.trans x.1, y.2.1.trans x.2.1, y.2.2.trans x.2.2⟩
  have h23 := forall2_trans hcomp h2 h3
  rcases forall2_findNode_rel (fun a b h => h.1) h23 (root ++ [fn]) with
    ⟨hnone, _⟩ | ⟨a, b, ha, hb, hrel⟩
  · rw [hfindS] at hnone
    cases hnone
  · rw [hfindS] at ha
    injection ha with ha2
    refine ⟨_, hproj, b, hb, List.mem_of_find?_eq_some hb, ?_, ?_, ?_, ?_,
      ?_, ?_⟩
    · rw [hrel.2.1, ← ha2]
      rfl
    · rw [hrel.2.2, ← ha2]
      rfl
    · have hinvN := scanModel_walked_inv htwf hcwf hfull
      have hbmem : b ∈ applyDirCounts (applyFileCounts (applyAccumulation
          (applyHierarchy (applyResults w2.nodes
            (w2.jobs.take (jobCutLen none w2.jobs.length)))))) :=
        List.mem_of_find?_eq_some hb
      have hbf : b.ptype = .file := by
        rw [hrel.2.1, ← ha2]
        rfl
      have h := (hinvN b hbmem).1 hbf
      have hbz : b.sizeBytes = 0 := by
        rw [hrel.2.2, ← ha2]
        rfl
      rw [h.1, hbz]
    · have hinvN := scanModel_walked_inv htwf hcwf hfull
      have hbmem : b ∈ applyDirCounts (applyFileCounts (applyAccumulation
          (applyHierarchy (applyResults w2.nodes
            (w2.jobs.take (jobCutLen none w2.jobs.length)))))) :=
        List.mem_of_find?_eq_some hb
      have hbf : b.ptype = .file := by
        rw [hrel.2.1, ← ha2]
        rfl
      exact ((hinvN b hbmem).1 hbf).2.1
    · have hinvN := scanModel_walked_inv htwf hcwf hfull
      have hbmem : b ∈ applyDirCounts (applyFileCounts (applyAccumulation
          (applyHierarchy (applyResults w2.nodes
            (w2.jobs.take (jobCutLen none w2.jobs.length)))))) :=
        List.mem_of_find?_eq_some hb
      have hbf : b.ptype = .file := by
        rw [hrel.2.1, ← ha2]
        rfl
      exact ((hinvN b hbmem).1 hbf).2.2
    · intro n hn hd
      have hinvN := scanModel_walked_inv htwf hcwf hfull
      exact ⟨((hinvN n hn).2 hd).1, ((hinvN n hn).2 hd).2.1⟩

/-- C10 witness: the scan of `fixT5`, whose entry `gone` reports a failed
stat. -/
theorem claim_c10_witness :
    ∃ N, (scanModel emptyScanner fixT5 ["r"] true none none).2.1
        = .ok (.walked N) ∧
      ∃ b, findNode N (["r"] ++ ["gone"]) = some b ∧ b ∈ N ∧
        b.ptype = .file ∧ b.sizeBytes = 0 ∧ b.accumBytes = 0 ∧
        b.fileCount = 1 ∧ b.dirCount = 0 ∧
        (∀ n ∈ N, n.ptype = .dir →
          n.accumBytes = dirSum accumSpec N n.childrenIDs ∧
          n.fileCount = dirSum fileCountSpec N n.childrenIDs) :=
  claim_c10 emptyScanner ["r"] "r" "gone" 5 42
    [.file "gone" 42 false, .file "ok" 7 true] true rfl rfl fixT5_wf
    (List.mem_cons_self _ _) (by decide)

end SweepFS
